import Mathlib

/-!
Buffered segment partitioner of AGC (`CBufferedSegPart`, `src/core/agc_compressor.h`).

A shallow embedding of the class `CBufferedSegPart` and of its nested types
`seg_part_t`, `kk_seg_part_t` and `list_seg_part_t`, followed by theorems about
its operations.

Modelling conventions.

* `std::vector` is a `List`; `std::set<kk_seg_part_t>` is the list of its elements in
  iteration order (ascending for `operator<`), with `emplace` as ordered insertion that
  rejects an element equivalent to a stored one; `std::map` is an association list.
* `uint32_t` / `uint64_t` / `int32_t` values are `Nat` / `Int` with explicit reduction
  where the code computes with them.
* An access `v[i]` with `i` outside the vector is undefined behaviour in C++; the
  operations that index return `Option`, and `none` stands for such an access (or for a
  loop whose 32-bit counter can never reach its bound).
* A moved-from `std::string` or `std::vector` is modelled as empty (what the usual
  standard libraries leave behind).
* Locks are not modelled: every operation is taken as one atomic step.
-/

namespace AGC

/-- Width of `uint32_t`. -/
abbrev U32 : Nat := 2 ^ 32

/-- Width of `uint64_t`. -/
abbrev U64 : Nat := 2 ^ 64

/-- A `std::string`, as the list of its bytes; `operator<` on strings is the
lexicographic comparison of the bytes, which is `<` on lists of naturals. -/
abbrev string := List Nat

/-- The type `contig_t`: a vector of bytes. -/
abbrev contig_t := List Nat

/-- Struct `seg_part_t` (lines 27-70). -/
structure seg_part_t where
  kmer1 : Nat
  kmer2 : Nat
  sample_name : string
  contig_name : string
  seg_data : contig_t
  is_rev_comp : Bool
  seg_part_no : Nat
deriving DecidableEq

/-- Struct `kk_seg_part_t` (lines 73-114): the same seven fields. -/
structure kk_seg_part_t where
  kmer1 : Nat
  kmer2 : Nat
  sample_name : string
  contig_name : string
  seg_data : contig_t
  is_rev_comp : Bool
  seg_part_no : Nat
deriving DecidableEq

/-- Default constructor `seg_part_t()` (lines 47-55): both k-mers are `~0ull`. -/
def seg_part_t.default : seg_part_t :=
  { kmer1 := U64 - 1, kmer2 := U64 - 1, sample_name := [], contig_name := [],
    seg_data := [], is_rev_comp := false, seg_part_no := 0 }

/-- The object left behind by `move(x)` for the defaulted move operations: the scalar
fields are copied, the two strings and the payload are moved out. -/
def seg_part_t.moved_from (x : seg_part_t) : seg_part_t :=
  { x with sample_name := [], contig_name := [], seg_data := [] }

/-- Member `seg_part_t::operator<` (lines 62-69). -/
def seg_part_t.lt (a x : seg_part_t) : Bool :=
  if a.sample_name ≠ x.sample_name then decide (a.sample_name < x.sample_name)
  else if a.contig_name ≠ x.contig_name then decide (a.contig_name < x.contig_name)
  else decide (a.seg_part_no < x.seg_part_no)

/-- Member `kk_seg_part_t::operator<` (lines 106-113). -/
def kk_seg_part_t.lt (a x : kk_seg_part_t) : Bool :=
  if a.sample_name ≠ x.sample_name then decide (a.sample_name < x.sample_name)
  else if a.contig_name ≠ x.contig_name then decide (a.contig_name < x.contig_name)
  else decide (a.seg_part_no < x.seg_part_no)

/-- The `seg_part_t` built by `seg_part_t(kmer1, ..., seg_part_no)` from the fields of a
staged element, as `process_new` passes them to `add_known` (lines 325-326). -/
def kk_seg_part_t.toSegPart (x : kk_seg_part_t) : seg_part_t :=
  { kmer1 := x.kmer1, kmer2 := x.kmer2, sample_name := x.sample_name,
    contig_name := x.contig_name, seg_data := x.seg_data, is_rev_comp := x.is_rev_comp,
    seg_part_no := x.seg_part_no }

/-- Struct `list_seg_part_t` (lines 117-244) without its mutex. -/
structure list_seg_part_t where
  l_seg_part : List seg_part_t
  virt_begin : Nat
deriving DecidableEq

/-- Default constructor `list_seg_part_t()`: no entry, `virt_begin = 0`. -/
def list_seg_part_t.default : list_seg_part_t := { l_seg_part := [], virt_begin := 0 }

/-- Member `list_seg_part_t::emplace` (lines 172-176). -/
def list_seg_part_t.emplace (b : list_seg_part_t) (kmer1 kmer2 : Nat)
    (sample_name contig_name : string) (seg_data : contig_t) (is_rev_comp : Bool)
    (seg_part_no : Nat) : list_seg_part_t :=
  { b with l_seg_part := b.l_seg_part ++
      [{ kmer1 := kmer1, kmer2 := kmer2, sample_name := sample_name,
         contig_name := contig_name, seg_data := seg_data, is_rev_comp := is_rev_comp,
         seg_part_no := seg_part_no }] }

/-- Member `list_seg_part_t::append_no_lock` (lines 178-181): returns the buffer and the
moved-from argument. -/
def list_seg_part_t.append_no_lock (b : list_seg_part_t) (seg_part : seg_part_t) :
    list_seg_part_t × seg_part_t :=
  ({ b with l_seg_part := b.l_seg_part ++ [seg_part] }, seg_part.moved_from)

/-- The comparison `std::sort` uses on a buffer: `a` may stand before `b` when `b < a`
does not hold. -/
def seg_part_t.le (a b : seg_part_t) : Prop := b.lt a = false

instance : DecidableRel seg_part_t.le := fun a b =>
  inferInstanceAs (Decidable (b.lt a = false))

/-- Member `list_seg_part_t::sort` (lines 183-186): `std::sort` over the whole stored
vector with `operator<`, modelled by insertion sort. `std::sort` fixes the result only
up to the order of entries that compare equivalent, so only the facts that the result is
a permutation and is sorted carry over to the code. -/
def list_seg_part_t.sort (b : list_seg_part_t) : list_seg_part_t :=
  { b with l_seg_part := b.l_seg_part.insertionSort seg_part_t.le }

/-- Member `list_seg_part_t::clear` (lines 188-192). -/
def list_seg_part_t.clear (_b : list_seg_part_t) : list_seg_part_t :=
  { l_seg_part := [], virt_begin := 0 }

/-- Member `list_seg_part_t::empty` (lines 194-197). -/
def list_seg_part_t.empty (b : list_seg_part_t) : Bool :=
  decide (b.virt_begin ≥ b.l_seg_part.length)

/-- Member `list_seg_part_t::size` (lines 240-243): the stored length cast to
`uint32_t`. -/
def list_seg_part_t.size (b : list_seg_part_t) : Nat := b.l_seg_part.length % U32

/-- Member `list_seg_part_t::pop(seg_part_t&)` (lines 199-213): returns the flag, the
buffer and the value of the reference argument after the call. -/
def list_seg_part_t.pop (b : list_seg_part_t) (seg_part : seg_part_t) :
    Bool × list_seg_part_t × seg_part_t :=
  match b.l_seg_part[b.virt_begin]? with
  | none => (false, { l_seg_part := [], virt_begin := 0 }, seg_part)
  | some x =>
    (true,
     { l_seg_part := b.l_seg_part.set b.virt_begin x.moved_from,
       virt_begin := b.virt_begin + 1 },
     x)

/-- Member `list_seg_part_t::pop(kmer1&, ..., seg_part_no&)` (lines 215-238): returns the
flag, the buffer and the seven reference arguments after the call (gathered in a
`seg_part_t`). The two strings and the payload are moved out of the stored entry. -/
def list_seg_part_t.pop_fields (b : list_seg_part_t) (out : seg_part_t) :
    Bool × list_seg_part_t × seg_part_t :=
  match b.l_seg_part[b.virt_begin]? with
  | none => (false, { l_seg_part := [], virt_begin := 0 }, out)
  | some x =>
    (true,
     { l_seg_part := b.l_seg_part.set b.virt_begin x.moved_from,
       virt_begin := b.virt_begin + 1 },
     { kmer1 := x.kmer1, kmer2 := x.kmer2, sample_name := x.sample_name,
       contig_name := x.contig_name, seg_data := x.seg_data,
       is_rev_comp := x.is_rev_comp, seg_part_no := x.seg_part_no })

/-- Class `CBufferedSegPart` (lines 246-251): the vector of group buffers, the set of
staged new parts and the 32-bit drain cursor. -/
structure CBufferedSegPart where
  vl_seg_part : List list_seg_part_t
  s_seg_part : List kk_seg_part_t
  a_v_part_id : Int
deriving DecidableEq

/-- Method `vector::resize(n)` on the vector of buffers: truncates, or pads with
default-constructed buffers. -/
def vec_resize (v : List list_seg_part_t) (n : Nat) : List list_seg_part_t :=
  if n ≤ v.length then v.take n else v ++ List.replicate (n - v.length) list_seg_part_t.default

/-- Constructor `CBufferedSegPart(no_raw_groups)` (lines 254-257). The cursor is not
initialised by the constructor; it is taken as `0`. -/
def CBufferedSegPart.mk_groups (no_raw_groups : Nat) : CBufferedSegPart :=
  { vl_seg_part := vec_resize [] no_raw_groups, s_seg_part := [], a_v_part_id := 0 }

/-- Method `add_known` (lines 266-270). -/
def CBufferedSegPart.add_known (s : CBufferedSegPart) (group_id : Nat) (kmer1 kmer2 : Nat)
    (sample_name contig_name : string) (seg_data : contig_t) (is_rev_comp : Bool)
    (seg_part_no : Nat) : Option CBufferedSegPart :=
  match s.vl_seg_part[group_id]? with
  | none => none
  | some b =>
    some { s with vl_seg_part := (s.vl_seg_part.set group_id
      (b.emplace kmer1 kmer2 sample_name contig_name seg_data is_rev_comp seg_part_no)) }

/-- Method `std::set::emplace` on the staged set, kept in ascending order of
`kk_seg_part_t::operator<`: the new element is inserted at its place unless a stored
element is equivalent to it (neither is less than the other). -/
def set_emplace (x : kk_seg_part_t) : List kk_seg_part_t → List kk_seg_part_t
  | [] => [x]
  | y :: ys =>
    if x.lt y then x :: y :: ys
    else if y.lt x then y :: set_emplace x ys
    else y :: ys

/-- Method `add_new` (lines 272-276). -/
def CBufferedSegPart.add_new (s : CBufferedSegPart) (kmer1 kmer2 : Nat)
    (sample_name contig_name : string) (seg_data : contig_t) (is_rev_comp : Bool)
    (seg_part_no : Nat) : CBufferedSegPart :=
  { s with s_seg_part := (set_emplace
      { kmer1 := kmer1, kmer2 := kmer2, sample_name := sample_name,
        contig_name := contig_name, seg_data := seg_data, is_rev_comp := is_rev_comp,
        seg_part_no := seg_part_no } s.s_seg_part) }

/-- One buffer of the range handled by a thread of `sort_known` (line 294):
`vl_seg_part[j].sort()`. -/
def sort_at (vl : List list_seg_part_t) (j : Nat) : Option (List list_seg_part_t) :=
  match vl[j]? with
  | none => none
  | some b => some (vl.set j b.sort)

/-- The loop `for (uint32_t j = j_from; j < j_to; ++j) vl_seg_part[j].sort();`
(lines 293-294), by recursion on the number `j_to - j` of iterations left. When `++j`
would wrap the 32-bit counter to 0 the loop cannot end, which is `none`. -/
def sort_loop : Nat → Nat → List list_seg_part_t → Option (List list_seg_part_t)
  | 0, _, vl => some vl
  | k + 1, j, vl =>
    match sort_at vl j with
    | none => none
    | some vl1 => if j + 1 < U32 then sort_loop k (j + 1) vl1 else none

/-- The body of thread `i` of `sort_known` (lines 290-294): `j_from` and `j_to` are
computed in `uint64_t`, the loop counter is a `uint32_t`. -/
def sort_thread (nt n_seg_part i : Nat) (vl : List list_seg_part_t) :
    Option (List list_seg_part_t) :=
  let j_from := (i * n_seg_part % U64) / nt
  let j_to := ((i + 1) * n_seg_part % U64) / nt
  sort_loop (j_to - j_from % U32) (j_from % U32) vl

/-- The threads `i, i + 1, ...` of `sort_known` (line 288), `c` of them left. They are
launched with `async`; they work on disjoint index ranges and are run here one after
the other. -/
def sort_threads (nt n_seg_part : Nat) : Nat → Nat → List list_seg_part_t →
    Option (List list_seg_part_t)
  | 0, _, vl => some vl
  | c + 1, i, vl =>
    match sort_thread nt n_seg_part i vl with
    | none => none
    | some vl1 => sort_threads nt n_seg_part c (i + 1) vl1

/-- Method `sort_known` (lines 278-299). -/
def CBufferedSegPart.sort_known (s : CBufferedSegPart) (nt : Nat) : Option CBufferedSegPart :=
  match sort_threads nt s.vl_seg_part.length nt 0 s.vl_seg_part with
  | none => none
  | some vl => some { s with vl_seg_part := vl }

/-- The local map `m_kmers` of `process_new` (line 305), as an association list with at
most one entry per key. -/
abbrev kmers_map := List ((Nat × Nat) × Nat)

/-- Expression `m_kmers[key]` of line 325: the stored id, or a value-initialised `0` for an
absent key. -/
def kmers_at (m_kmers : kmers_map) (key : Nat × Nat) : Nat := (m_kmers.lookup key).getD 0

/-- First loop of `process_new` (lines 309-315): a boundary pair absent from `m_kmers`
is entered with the current `group_id`, which is then incremented as a `uint32_t`. -/
def assign_group_ids : List kk_seg_part_t → kmers_map → Nat → kmers_map × Nat
  | [], m_kmers, group_id => (m_kmers, group_id)
  | x :: xs, m_kmers, group_id =>
    match m_kmers.lookup (x.kmer1, x.kmer2) with
    | none =>
      assign_group_ids xs (m_kmers ++ [((x.kmer1, x.kmer2), group_id)]) ((group_id + 1) % U32)
    | some _ => assign_group_ids xs m_kmers group_id

/-- Second loop of `process_new` (lines 323-327): every staged part goes through
`add_known` with the id found in `m_kmers`. -/
def add_staged (m_kmers : kmers_map) : List kk_seg_part_t → CBufferedSegPart →
    Option CBufferedSegPart
  | [], s => some s
  | x :: xs, s =>
    match s.add_known (kmers_at m_kmers (x.kmer1, x.kmer2)) x.kmer1 x.kmer2 x.sample_name
        x.contig_name x.seg_data x.is_rev_comp x.seg_part_no with
    | none => none
    | some s1 => add_staged m_kmers xs s1

/-- The map `m_kmers` built by the first loop of `process_new` in state `s`. -/
def CBufferedSegPart.new_group_ids (s : CBufferedSegPart) : kmers_map :=
  (assign_group_ids s.s_seg_part [] (s.vl_seg_part.length % U32)).1

/-- Method `process_new` (lines 301-332): the new state and the returned `no_new`.
`reserve` only changes the capacity and is left out. -/
def CBufferedSegPart.process_new (s : CBufferedSegPart) : Option (CBufferedSegPart × Nat) :=
  let size32 := s.vl_seg_part.length % U32
  let r := assign_group_ids s.s_seg_part [] size32
  let m_kmers := r.1
  let group_id := r.2
  let no_new := (group_id + U32 - size32) % U32
  let s1 : CBufferedSegPart := { s with vl_seg_part := vec_resize s.vl_seg_part group_id }
  match add_staged m_kmers s.s_seg_part s1 with
  | none => none
  | some s2 => some ({ s2 with s_seg_part := [] }, no_new)

/-- One pass of the loop body of `distribute_segments` (lines 343-347) when
`dest_id_curr != src_id`: pop from the source into the scratch element, append the
scratch element to the current destination. -/
def distribute_move (src_id dest_id_curr : Nat) (seg_part : seg_part_t)
    (vl : List list_seg_part_t) : Option (List list_seg_part_t × seg_part_t) :=
  match vl[src_id]? with
  | none => none
  | some b =>
    let r := b.pop seg_part
    let vl1 := vl.set src_id r.2.1
    match vl1[dest_id_curr]? with
    | none => none
    | some d =>
      let a := d.append_no_lock r.2.2
      some (vl1.set dest_id_curr a.1, a.2)

/-- The loop of `distribute_segments` (lines 341-351), by recursion on the number of
iterations left (`no_in_src - i`); `dest_id_curr` is a `uint32_t`. -/
def distribute_loop (src_id dest_id_from dest_id_to : Nat) :
    Nat → Nat → seg_part_t → List list_seg_part_t → Option (List list_seg_part_t)
  | 0, _, _, vl => some vl
  | k + 1, dest_id_curr, seg_part, vl =>
    let next := if (dest_id_curr + 1) % U32 = dest_id_to then dest_id_from
      else (dest_id_curr + 1) % U32
    if dest_id_curr ≠ src_id then
      match distribute_move src_id dest_id_curr seg_part vl with
      | none => none
      | some r => distribute_loop src_id dest_id_from dest_id_to k next r.2 r.1
    else distribute_loop src_id dest_id_from dest_id_to k next seg_part vl

/-- Method `distribute_segments` (lines 334-352). -/
def CBufferedSegPart.distribute_segments (s : CBufferedSegPart)
    (src_id dest_id_from dest_id_to : Nat) : Option CBufferedSegPart :=
  match s.vl_seg_part[src_id]? with
  | none => none
  | some b =>
    match distribute_loop src_id dest_id_from dest_id_to b.size dest_id_from
        seg_part_t.default s.vl_seg_part with
    | none => none
    | some vl => some { s with vl_seg_part := vl }

/-- Conversion of an integer to `int32_t` (two's complement wrap). -/
def to_int32 (z : Int) : Int := (z + 2 ^ 31) % 2 ^ 32 - 2 ^ 31

/-- Method `restart_read_vec` (lines 379-384). The size is converted to `int32_t`; the
subtraction is an `int` subtraction, undefined when that value is `INT_MIN`. -/
def CBufferedSegPart.restart_read_vec (s : CBufferedSegPart) : Option CBufferedSegPart :=
  if to_int32 s.vl_seg_part.length = -2 ^ 31 then none
  else some { s with a_v_part_id := to_int32 s.vl_seg_part.length - 1 }

/-- Method `get_vec_id` (lines 386-390): `fetch_sub(10)` returns the old value of the
atomic `int32_t` and stores the difference, which wraps on overflow. -/
def CBufferedSegPart.get_vec_id (s : CBufferedSegPart) : Int × CBufferedSegPart :=
  (s.a_v_part_id, { s with a_v_part_id := to_int32 (s.a_v_part_id - 10) })

/-- Method `is_empty_part` (lines 392-395). -/
def CBufferedSegPart.is_empty_part (s : CBufferedSegPart) (group_id : Int) : Option Bool :=
  if group_id < 0 then some true
  else
    match s.vl_seg_part[group_id.toNat]? with
    | none => none
    | some b => some b.empty

/-- Method `get_part` (lines 397-400): the flag, the new state and the seven reference
arguments after the call. A negative `group_id` indexes outside the vector. -/
def CBufferedSegPart.get_part (s : CBufferedSegPart) (group_id : Int) (out : seg_part_t) :
    Option (Bool × CBufferedSegPart × seg_part_t) :=
  if group_id < 0 then none
  else
    match s.vl_seg_part[group_id.toNat]? with
    | none => none
    | some b =>
      let r := b.pop_fields out
      some (r.1, { s with vl_seg_part := s.vl_seg_part.set group_id.toNat r.2.1 }, r.2.2)

/-! ## Auxiliary definitions used to state the properties -/

/-- The sort key of a staged part: `(sample_name, contig_name, seg_part_no)`. -/
def kk_seg_part_t.key (x : kk_seg_part_t) : string × string × Nat :=
  (x.sample_name, x.contig_name, x.seg_part_no)

/-- The sort key of a buffered part. -/
def seg_part_t.key (x : seg_part_t) : string × string × Nat :=
  (x.sample_name, x.contig_name, x.seg_part_no)

/-- The boundary pair `(kmer1, kmer2)` of a staged part. -/
def kk_seg_part_t.pair (x : kk_seg_part_t) : Nat × Nat := (x.kmer1, x.kmer2)

/-- The boundary pair `(kmer1, kmer2)` of a buffered part. -/
def seg_part_t.pair (x : seg_part_t) : Nat × Nat := (x.kmer1, x.kmer2)

/-- The keys of a list that are not in `seen`, each once, in order of first occurrence. -/
def first_seen : List (Nat × Nat) → List (Nat × Nat) → List (Nat × Nat)
  | [], _ => []
  | k :: ks, seen => if k ∈ seen then first_seen ks seen else k :: first_seen ks (seen ++ [k])

/-- The entries `(k, g), (k', g + 1), ...` with the ids counted as `uint32_t`. -/
def ids_from : Nat → List (Nat × Nat) → kmers_map
  | _, [] => []
  | g, k :: ks => (k, g) :: ids_from ((g + 1) % U32) ks

/-- The distinct boundary pairs of the staged parts, in order of first occurrence in the
iteration order of the set. -/
def CBufferedSegPart.new_pairs (s : CBufferedSegPart) : List (Nat × Nat) :=
  first_seen (s.s_seg_part.map kk_seg_part_t.pair) []

/-- Position of the first occurrence of a key in a list (the length if absent). -/
def key_index (k : Nat × Nat) : List (Nat × Nat) → Nat
  | [] => 0
  | a :: ks => if k = a then 0 else key_index k ks + 1

/-- The entries that the second loop of `process_new` appends to buffer `g`: the staged
parts whose boundary pair has id `g` in `m_kmers`, in iteration order. -/
def staged_for (m_kmers : kmers_map) (g : Nat) (xs : List kk_seg_part_t) : List seg_part_t :=
  (xs.filter (fun x => decide (kmers_at m_kmers x.pair = g))).map kk_seg_part_t.toSegPart

/-- The number of distinct boundary pairs among the staged parts. -/
def CBufferedSegPart.no_distinct_pairs (s : CBufferedSegPart) : Nat :=
  (s.s_seg_part.map kk_seg_part_t.pair).toFinset.card

/-- A staged part with boundary pair `(1, 2)`. -/
def part_a : kk_seg_part_t :=
  { kmer1 := 1, kmer2 := 2, sample_name := [], contig_name := [], seg_data := [],
    is_rev_comp := false, seg_part_no := 0 }

/-- A partitioner with `2^32 - 1` empty group buffers and one staged part. -/
def full_partitioner : CBufferedSegPart :=
  { vl_seg_part := List.replicate (U32 - 1) list_seg_part_t.default,
    s_seg_part := [part_a],
    a_v_part_id := 0 }

/-- A state with one buffer and three staged parts carrying two distinct boundary
pairs. -/
def sample_state : CBufferedSegPart :=
  { vl_seg_part := [{ l_seg_part := [], virt_begin := 0 }],
    s_seg_part :=
      [{ kmer1 := 1, kmer2 := 2, sample_name := [1], contig_name := [2], seg_data := [2],
         is_rev_comp := true, seg_part_no := 5 },
       { kmer1 := 1, kmer2 := 2, sample_name := [1], contig_name := [3], seg_data := [0, 1],
         is_rev_comp := false, seg_part_no := 0 },
       { kmer1 := 3, kmer2 := 4, sample_name := [1], contig_name := [3], seg_data := [2],
         is_rev_comp := true, seg_part_no := 1 }],
    a_v_part_id := 0 }

/-- One call made by a producer: `add_known` with its group id, or `add_new`. -/
inductive deposit where
  | known (group_id : Nat) (p : seg_part_t)
  | fresh (p : kk_seg_part_t)

/-- Performs one producer call. -/
def CBufferedSegPart.deposit_one (s : CBufferedSegPart) : deposit → Option CBufferedSegPart
  | .known g p =>
    s.add_known g p.kmer1 p.kmer2 p.sample_name p.contig_name p.seg_data p.is_rev_comp
      p.seg_part_no
  | .fresh p =>
    some (s.add_new p.kmer1 p.kmer2 p.sample_name p.contig_name p.seg_data p.is_rev_comp
      p.seg_part_no)

/-- Performs a sequence of producer calls, in order. -/
def CBufferedSegPart.deposit_all : List deposit → CBufferedSegPart → Option CBufferedSegPart
  | [], s => some s
  | d :: ds, s =>
    match s.deposit_one d with
    | none => none
    | some s1 => CBufferedSegPart.deposit_all ds s1

/-- The parts submitted by a sequence of producer calls, as buffer entries. -/
def submitted : List deposit → List seg_part_t
  | [] => []
  | .known _ p :: ds => p :: submitted ds
  | .fresh p :: ds => p.toSegPart :: submitted ds

/-- The parts submitted through `add_new` by a sequence of producer calls. -/
def fresh_parts : List deposit → List kk_seg_part_t
  | [] => []
  | .known _ _ :: ds => fresh_parts ds
  | .fresh p :: ds => p :: fresh_parts ds

/-- The group ids used with `add_known` by a sequence of producer calls. -/
def known_ids : List deposit → List Nat
  | [] => []
  | .known g _ :: ds => g :: known_ids ds
  | .fresh _ :: ds => known_ids ds

/-- The stored entries of all group buffers, buffer after buffer. -/
def CBufferedSegPart.all_parts (s : CBufferedSegPart) : List seg_part_t :=
  s.vl_seg_part.flatMap (fun b => b.l_seg_part)

/-- A staged part with the key `(sample_name, contig_name, seg_part_no)` of `part_a` and
another boundary pair and payload. -/
def part_a_twin : kk_seg_part_t :=
  { kmer1 := 3, kmer2 := 4, sample_name := [], contig_name := [], seg_data := [7],
    is_rev_comp := false, seg_part_no := 0 }

/-- A buffer entry for `add_known`. -/
def part_k : seg_part_t :=
  { kmer1 := 5, kmer2 := 6, sample_name := [1], contig_name := [1], seg_data := [9],
    is_rev_comp := true, seg_part_no := 2 }

/-- A staged part of another contig, with the boundary pair of `part_a`. -/
def sample_part : kk_seg_part_t :=
  { kmer1 := 1, kmer2 := 2, sample_name := [1], contig_name := [3], seg_data := [0, 1],
    is_rev_comp := false, seg_part_no := 0 }

/-- Calls `add_new` for each part of a list, in order. -/
def CBufferedSegPart.add_new_all (s : CBufferedSegPart) (w : List kk_seg_part_t) :
    CBufferedSegPart :=
  w.foldl (fun t x => t.add_new x.kmer1 x.kmer2 x.sample_name x.contig_name x.seg_data
    x.is_rev_comp x.seg_part_no) s

/-- Ingestion waves on one partitioner: each wave is a list of `add_new` calls ended by
`process_new`. -/
def CBufferedSegPart.run_waves : List (List kk_seg_part_t) → CBufferedSegPart →
    Option CBufferedSegPart
  | [], s => some s
  | w :: ws, s =>
    match (s.add_new_all w).process_new with
    | none => none
    | some r => CBufferedSegPart.run_waves ws r.1

/-- The number of distinct boundary pairs of each wave, summed over the waves. -/
def waves_pairs (waves : List (List kk_seg_part_t)) : Nat :=
  (waves.map (fun w => (w.map kk_seg_part_t.pair).toFinset.card)).sum

/-- A staged part of a third contig, with the boundary pair `(3, 4)`. -/
def part_c : kk_seg_part_t :=
  { kmer1 := 3, kmer2 := 4, sample_name := [2], contig_name := [1], seg_data := [5],
    is_rev_comp := true, seg_part_no := 1 }

/-- The buffers below index `j` of `cur` are the sorted buffers of `vl0`, the others
are those of `vl0`. -/
def sorted_upto (vl0 : List list_seg_part_t) (j : Nat) (cur : List list_seg_part_t) : Prop :=
  ∀ i : Nat, cur[i]? = if i < j then (vl0[i]?).map list_seg_part_t.sort else vl0[i]?

/-- A state with three buffers, the middle one holding three parts out of order. -/
def unsorted_state : CBufferedSegPart :=
  { vl_seg_part := [{ l_seg_part := [], virt_begin := 0 },
      { l_seg_part := [part_c.toSegPart, sample_part.toSegPart, part_a.toSegPart],
        virt_begin := 0 },
      { l_seg_part := [part_k], virt_begin := 0 }],
    s_seg_part := [part_a_twin],
    a_v_part_id := 0 }

/-- The result of `k` consecutive calls `get_part(group_id, ...)`: the flag and the seven
reference arguments after each call, and the final state. -/
def CBufferedSegPart.get_parts (group_id : Int) : Nat → CBufferedSegPart → seg_part_t →
    Option (List (Bool × seg_part_t) × CBufferedSegPart)
  | 0, s, _ => some ([], s)
  | k + 1, s, out =>
    match s.get_part group_id out with
    | none => none
    | some r =>
      match CBufferedSegPart.get_parts group_id k r.2.1 r.2.2 with
      | none => none
      | some q => some ((r.1, r.2.2) :: q.1, q.2)

/-- The state `s` with buffer `g` replaced by `b`. -/
def CBufferedSegPart.with_buffer (s : CBufferedSegPart) (g : Nat) (b : list_seg_part_t) :
    CBufferedSegPart :=
  { s with vl_seg_part := (s.vl_seg_part.set g b) }

/-- A buffer after a successful `pop` of the entry `x` at the cursor: the entry is left
moved-from and the cursor has advanced. -/
def list_seg_part_t.popped (b : list_seg_part_t) (x : seg_part_t) : list_seg_part_t :=
  { l_seg_part := (b.l_seg_part.set b.virt_begin x.moved_from),
    virt_begin := b.virt_begin + 1 }

/-- The entries of a buffer that have not been read yet: those from the cursor on. -/
def list_seg_part_t.unread (b : list_seg_part_t) : List seg_part_t :=
  b.l_seg_part.drop b.virt_begin

/-- The unread entries of all buffers of a vector, buffer after buffer. -/
def unread_of (vl : List list_seg_part_t) : List seg_part_t :=
  vl.flatMap list_seg_part_t.unread

/-- The unread entries of all group buffers. -/
def CBufferedSegPart.unread_parts (s : CBufferedSegPart) : List seg_part_t :=
  unread_of s.vl_seg_part

/-- The cursor of every buffer is at most the stored length (an invariant of
`list_seg_part_t`: `pop` advances the cursor only below the length). -/
def cursors_ok (vl : List list_seg_part_t) : Prop :=
  ∀ (g : Nat) (b : list_seg_part_t), vl[g]? = some b → b.virt_begin ≤ b.l_seg_part.length

/-- A state with four buffers; buffer 1 holds three parts. -/
def spread_state : CBufferedSegPart :=
  { vl_seg_part := [{ l_seg_part := [part_k], virt_begin := 0 },
      { l_seg_part := [part_c.toSegPart, sample_part.toSegPart, part_a.toSegPart],
        virt_begin := 0 },
      { l_seg_part := [], virt_begin := 0 },
      { l_seg_part := [part_a_twin.toSegPart], virt_begin := 1 }],
    s_seg_part := [],
    a_v_part_id := 0 }

/-- The slot considered in step `i` of a round-robin over the ids
`dest_id_from, ..., dest_id_to - 1` whose rotation begins at `start`. -/
def rotation_slot (dest_id_from dest_id_to start i : Nat) : Nat :=
  dest_id_from + (start - dest_id_from + i) % (dest_id_to - dest_id_from)

/-- Dealing along a given sequence of slots, as the specification words it: step `i`
considers the slot `slot i`; when it is not the source, the next unread entry of the
source is moved to the end of that slot's buffer; when it is the source nothing is
moved. `k` steps are left. -/
def deal_with (src_id : Nat) (slot : Nat → Nat) :
    Nat → Nat → seg_part_t → List list_seg_part_t → Option (List list_seg_part_t)
  | 0, _, _, vl => some vl
  | k + 1, i, seg_part, vl =>
    if slot i ≠ src_id then
      match distribute_move src_id (slot i) seg_part vl with
      | none => none
      | some r => deal_with src_id slot k (i + 1) r.2 r.1
    else deal_with src_id slot k (i + 1) seg_part vl

/-- Round-robin dealing of the source buffer over `[dest_id_from, dest_id_to)`, one
step per stored entry of the source, with the rotation beginning at `start`. -/
def CBufferedSegPart.deal_round_robin (s : CBufferedSegPart)
    (src_id dest_id_from dest_id_to start : Nat) : Option CBufferedSegPart :=
  match s.vl_seg_part[src_id]? with
  | none => none
  | some b =>
    match deal_with src_id (rotation_slot dest_id_from dest_id_to start) b.size 0
        seg_part_t.default s.vl_seg_part with
    | none => none
    | some vl => some { s with vl_seg_part := vl }

/-- The destinations of the successive moves: the slots of the steps `i, ..., i + k - 1`
that are not the source. -/
def move_slots (src_id : Nat) (slot : Nat → Nat) (i k : Nat) : List Nat :=
  ((List.range' i k).map slot).filter (fun d => decide (d ≠ src_id))

/-- The entries dealt to buffer `d` when the `j`-th entry of `ps` goes to the `j`-th
destination of `ms`. -/
def dealt (d : Nat) (ps : List seg_part_t) (ms : List Nat) : List seg_part_t :=
  ((ps.zip ms).filter (fun q => decide (q.2 = d))).map Prod.fst

/-- The stored entries of buffer `g` (none for an id outside the vector). -/
def CBufferedSegPart.entries (s : CBufferedSegPart) (g : Nat) : List seg_part_t :=
  ((s.vl_seg_part[g]?).map (fun b => b.l_seg_part)).getD []

/-- The state after `k` consecutive calls of `get_vec_id`. -/
def CBufferedSegPart.after_get_vec_ids : Nat → CBufferedSegPart → CBufferedSegPart
  | 0, s => s
  | k + 1, s => CBufferedSegPart.after_get_vec_ids k s.get_vec_id.2

/-- The value returned by the `k`-th call of `get_vec_id` (`k = 0, 1, 2, ...`). -/
def CBufferedSegPart.nth_vec_id (s : CBufferedSegPart) (k : Nat) : Int :=
  (s.after_get_vec_ids k).get_vec_id.1

/-- The strict order of the staged set, as a relation: `a` is before `b` for
`kk_seg_part_t::operator<`. -/
def kk_seg_part_t.less (a b : kk_seg_part_t) : Prop := a.lt b = true

instance : DecidableRel kk_seg_part_t.less := fun a b =>
  inferInstanceAs (Decidable (a.lt b = true))

/-- The invariant of the `std::set` of staged parts: its iteration order is strictly
ascending for `operator<`. -/
def staged_ok (s : CBufferedSegPart) : Prop := s.s_seg_part.Sorted kk_seg_part_t.less

/-- The buffers with id at least `n0` hold only parts whose boundary pair is in `P`. -/
def pairs_within (n0 : Nat) (vl : List list_seg_part_t) (P : List (Nat × Nat)) : Prop :=
  ∀ (g : Nat) (b : list_seg_part_t) (p : seg_part_t), n0 ≤ g → vl[g]? = some b →
    p ∈ b.l_seg_part → p.pair ∈ P

/-- No two different buffers with id at least `n0` hold parts with the same boundary
pair. -/
def one_group_per_pair (n0 : Nat) (vl : List list_seg_part_t) : Prop :=
  ∀ (g1 g2 : Nat) (b1 b2 : list_seg_part_t) (p1 p2 : seg_part_t), n0 ≤ g1 → n0 ≤ g2 →
    vl[g1]? = some b1 → vl[g2]? = some b2 →
    p1 ∈ b1.l_seg_part → p2 ∈ b2.l_seg_part → p1.pair = p2.pair → g1 = g2

/-- The comparison the specification describes for the staged set: the boundary pair
`(kmer1, kmer2)` first, then `(sample_name, contig_name, seg_part_no)`. -/
def kk_seg_part_t.lt_pair_first (a x : kk_seg_part_t) : Bool :=
  if a.kmer1 ≠ x.kmer1 then decide (a.kmer1 < x.kmer1)
  else if a.kmer2 ≠ x.kmer2 then decide (a.kmer2 < x.kmer2)
  else a.lt x

/-- A staged part whose boundary pair `(2, 1)` is the pair of `part_a` swapped. -/
def part_a_swapped : kk_seg_part_t :=
  { kmer1 := 2, kmer2 := 1, sample_name := [1], contig_name := [1], seg_data := [3],
    is_rev_comp := true, seg_part_no := 0 }

/-- A state with two buffers in which `part_a` and `part_a_swapped` are staged. -/
def swapped_state : CBufferedSegPart :=
  { vl_seg_part := [{ l_seg_part := [part_k], virt_begin := 0 },
      { l_seg_part := [], virt_begin := 0 }],
    s_seg_part := [part_a, part_a_swapped],
    a_v_part_id := 0 }

/-- A state with no buffer at all. -/
def no_buffers : CBufferedSegPart :=
  { vl_seg_part := [], s_seg_part := [], a_v_part_id := 0 }

/-- The number of indices `i < s` with `i mod w = v`. -/
def indices_mod (s w v : Nat) : Nat :=
  (List.range s).countP (fun i => decide (i % w = v))

/-- A state whose buffer 0 stores `2^32` entries (read cursor 0), next to an empty
buffer 1. -/
def huge_source : CBufferedSegPart :=
  { vl_seg_part := [{ l_seg_part := List.replicate U32 part_k, virt_begin := 0 },
      { l_seg_part := [], virt_begin := 0 }],
    s_seg_part := [],
    a_v_part_id := 0 }

/-- A run of `k` consecutive passes of the loop body of `distribute_segments`
(lines 345-346), seen from the source buffer: each pass pops from `b` into the scratch
element and hands the scratch element to `append_no_lock`, which leaves it moved-from.
Returns, pass by pass, the flag returned by `pop` with the entry that is appended, then
the source buffer and the scratch element after the run. -/
def pop_run : Nat → list_seg_part_t → seg_part_t →
    List (Bool × seg_part_t) × list_seg_part_t × seg_part_t
  | 0, b, sp => ([], b, sp)
  | k + 1, b, sp =>
    let r := b.pop sp
    let q := pop_run k r.2.1 r.2.2.moved_from
    ((r.1, r.2.2) :: q.1, q.2.1, q.2.2)

/-- The scratch element of `distribute_segments` once the unread entries of `b` are
used up: the moved-from last unread entry, or the default-constructed `seg_part_t`
when `b` has no unread entry. -/
def leftover (b : list_seg_part_t) : seg_part_t :=
  ((b.unread.getLast?).map seg_part_t.moved_from).getD seg_part_t.default

/-- A state whose buffer 0 stores `2^32` entries, the first of them already read. -/
def huge_source_read : CBufferedSegPart :=
  { vl_seg_part := [{ l_seg_part := List.replicate U32 part_k, virt_begin := 1 },
      { l_seg_part := [], virt_begin := 0 }],
    s_seg_part := [],
    a_v_part_id := 0 }

/-- A state with three buffers; the first entry of buffer 2 has been read. -/
def read_state : CBufferedSegPart :=
  { vl_seg_part := [{ l_seg_part := [part_k], virt_begin := 0 },
      { l_seg_part := [], virt_begin := 0 },
      { l_seg_part := [part_c.toSegPart, sample_part.toSegPart, part_a.toSegPart],
        virt_begin := 1 }],
    s_seg_part := [],
    a_v_part_id := 0 }

/-- The reference arguments after a run of `get_part` calls that produced `l`, `out`
being their value before the run. -/
def last_out (l : List (Bool × seg_part_t)) (out : seg_part_t) : seg_part_t :=
  ((l.getLast?).map Prod.snd).getD out

/-- A state with three buffers; buffer 2 stores three parts and its first entry has been
read. -/
def half_read_state : CBufferedSegPart :=
  { vl_seg_part := [{ l_seg_part := [part_k], virt_begin := 0 },
      { l_seg_part := [], virt_begin := 0 },
      { l_seg_part := [part_a.toSegPart, sample_part.toSegPart, part_c.toSegPart],
        virt_begin := 1 }],
    s_seg_part := [],
    a_v_part_id := 0 }

/-- The staged set after the `add_new` calls of one wave, made on an empty staged set:
the parts of the wave that the set has accepted. -/
def wave_staged (w : List kk_seg_part_t) : List kk_seg_part_t :=
  ((CBufferedSegPart.mk_groups 0).add_new_all w).s_seg_part

/-! ## The orderings `operator<` -/

theorem kk_lt_iff (a x : kk_seg_part_t) :
    a.lt x = true ↔ a.sample_name < x.sample_name ∨ (a.sample_name = x.sample_name ∧
      (a.contig_name < x.contig_name ∨
        (a.contig_name = x.contig_name ∧ a.seg_part_no < x.seg_part_no))) := by
  unfold kk_seg_part_t.lt
  by_cases h1 : a.sample_name = x.sample_name
  · by_cases h2 : a.contig_name = x.contig_name
    · simp [h1, h2]
    · simp [h1, h2]
  · simp [h1]

theorem seg_lt_iff (a x : seg_part_t) :
    a.lt x = true ↔ a.sample_name < x.sample_name ∨ (a.sample_name = x.sample_name ∧
      (a.contig_name < x.contig_name ∨
        (a.contig_name = x.contig_name ∧ a.seg_part_no < x.seg_part_no))) := by
  unfold seg_part_t.lt
  by_cases h1 : a.sample_name = x.sample_name
  · by_cases h2 : a.contig_name = x.contig_name
    · simp [h1, h2]
    · simp [h1, h2]
  · simp [h1]

/-- An auxiliary fact on the lexicographic order of triples, shared by both orderings. -/
theorem lex3_trans {s1 s2 s3 c1 c2 c3 : string} {n1 n2 n3 : Nat}
    (h12 : s1 < s2 ∨ (s1 = s2 ∧ (c1 < c2 ∨ (c1 = c2 ∧ n1 < n2))))
    (h23 : s2 < s3 ∨ (s2 = s3 ∧ (c2 < c3 ∨ (c2 = c3 ∧ n2 < n3)))) :
    s1 < s3 ∨ (s1 = s3 ∧ (c1 < c3 ∨ (c1 = c3 ∧ n1 < n3))) := by
  rcases h12 with h | ⟨rfl, h12⟩
  · rcases h23 with h' | ⟨rfl, _⟩
    · exact Or.inl (lt_trans h h')
    · exact Or.inl h
  · rcases h23 with h' | ⟨rfl, h23⟩
    · exact Or.inl h'
    · refine Or.inr ⟨rfl, ?_⟩
      rcases h12 with h | ⟨rfl, h12⟩
      · rcases h23 with h' | ⟨rfl, _⟩
        · exact Or.inl (lt_trans h h')
        · exact Or.inl h
      · rcases h23 with h' | ⟨rfl, h23⟩
        · exact Or.inl h'
        · exact Or.inr ⟨rfl, lt_trans h12 h23⟩

theorem lex3_irrefl {s c : string} {n : Nat} :
    ¬ (s < s ∨ (s = s ∧ (c < c ∨ (c = c ∧ n < n)))) := by
  rintro (h | ⟨_, h | ⟨_, h⟩⟩)
  · exact lt_irrefl _ h
  · exact lt_irrefl _ h
  · exact lt_irrefl _ h

theorem lex3_total {s1 s2 c1 c2 : string} {n1 n2 : Nat}
    (h12 : ¬ (s1 < s2 ∨ (s1 = s2 ∧ (c1 < c2 ∨ (c1 = c2 ∧ n1 < n2)))))
    (h21 : ¬ (s2 < s1 ∨ (s2 = s1 ∧ (c2 < c1 ∨ (c2 = c1 ∧ n2 < n1))))) :
    s1 = s2 ∧ c1 = c2 ∧ n1 = n2 := by
  push_neg at h12 h21
  rcases lt_trichotomy s1 s2 with h | rfl | h
  · exact absurd h (not_lt.mpr h12.1)
  · have a := h12.2 rfl
    have b := h21.2 rfl
    rcases lt_trichotomy c1 c2 with h | rfl | h
    · exact absurd h (not_lt.mpr a.1)
    · have a2 := a.2 rfl
      have b2 := b.2 rfl
      exact ⟨rfl, rfl, by omega⟩
    · exact absurd h (not_lt.mpr b.1)
  · exact absurd h (not_lt.mpr h21.1)

theorem kk_lt_irrefl (a : kk_seg_part_t) : a.lt a = false := by
  have h := (kk_lt_iff a a).not.mpr lex3_irrefl
  simpa using h

theorem kk_lt_trans {a b c : kk_seg_part_t} (h1 : a.lt b = true) (h2 : b.lt c = true) :
    a.lt c = true :=
  (kk_lt_iff a c).mpr (lex3_trans ((kk_lt_iff a b).mp h1) ((kk_lt_iff b c).mp h2))

theorem kk_lt_asymm {a b : kk_seg_part_t} (h1 : a.lt b = true) : b.lt a = false := by
  by_contra h
  have h2 : b.lt a = true := by simpa using h
  have h3 := kk_lt_trans h1 h2
  rw [kk_lt_irrefl] at h3
  exact Bool.noConfusion h3

/-- Two staged parts are equivalent for the set (neither is less than the other) exactly
when their keys `(sample_name, contig_name, seg_part_no)` coincide. -/
theorem kk_equiv_iff (a b : kk_seg_part_t) :
    (a.lt b = false ∧ b.lt a = false) ↔ a.key = b.key := by
  constructor
  · rintro ⟨h1, h2⟩
    have n1 : ¬ a.lt b = true := by simp [h1]
    have n2 : ¬ b.lt a = true := by simp [h2]
    rw [kk_lt_iff] at n1 n2
    obtain ⟨e1, e2, e3⟩ := lex3_total n1 n2
    simp [kk_seg_part_t.key, e1, e2, e3]
  · intro h
    simp only [kk_seg_part_t.key, Prod.mk.injEq] at h
    obtain ⟨e1, e2, e3⟩ := h
    have n1 : ¬ a.lt b = true := by
      rw [kk_lt_iff, e1, e2, e3]; exact lex3_irrefl
    have n2 : ¬ b.lt a = true := by
      rw [kk_lt_iff, e1, e2, e3]; exact lex3_irrefl
    exact ⟨by simpa using n1, by simpa using n2⟩

theorem seg_lt_irrefl (a : seg_part_t) : a.lt a = false := by
  have h := (seg_lt_iff a a).not.mpr lex3_irrefl
  simpa using h

theorem seg_lt_trans {a b c : seg_part_t} (h1 : a.lt b = true) (h2 : b.lt c = true) :
    a.lt c = true :=
  (seg_lt_iff a c).mpr (lex3_trans ((seg_lt_iff a b).mp h1) ((seg_lt_iff b c).mp h2))

theorem seg_le_total (a b : seg_part_t) : seg_part_t.le a b ∨ seg_part_t.le b a := by
  unfold seg_part_t.le
  by_contra h
  push_neg at h
  have h1 : b.lt a = true := by simpa using h.1
  have h2 : a.lt b = true := by simpa using h.2
  have h3 := seg_lt_trans h1 h2
  rw [seg_lt_irrefl] at h3
  exact Bool.noConfusion h3

theorem seg_le_trans {a b c : seg_part_t} (h1 : seg_part_t.le a b) (h2 : seg_part_t.le b c) :
    seg_part_t.le a c := by
  unfold seg_part_t.le at *
  by_contra h
  have hca : c.lt a = true := by simpa using h
  have nba : ¬ b.lt a = true := by simp [h1]
  have ncb : ¬ c.lt b = true := by simp [h2]
  rw [seg_lt_iff] at hca nba ncb
  -- `c < a` and `¬ b < a` give `c < b`
  rcases Classical.em (a.sample_name < b.sample_name ∨ (a.sample_name = b.sample_name ∧
      (a.contig_name < b.contig_name ∨
        (a.contig_name = b.contig_name ∧ a.seg_part_no < b.seg_part_no)))) with hab | hab
  · exact ncb (lex3_trans hca hab)
  · obtain ⟨e1, e2, e3⟩ := lex3_total hab nba
    rw [e1, e2, e3] at hca
    exact ncb hca

instance : IsTotal seg_part_t seg_part_t.le := ⟨seg_le_total⟩

instance : IsTrans seg_part_t seg_part_t.le := ⟨fun _ _ _ => seg_le_trans⟩

theorem toSegPart_injective : Function.Injective kk_seg_part_t.toSegPart := by
  intro a b h
  cases a; cases b
  simp only [kk_seg_part_t.toSegPart, seg_part_t.mk.injEq] at h
  simp [h]

@[simp]
theorem toSegPart_pair (x : kk_seg_part_t) : x.toSegPart.pair = x.pair := rfl

@[simp]
theorem toSegPart_key (x : kk_seg_part_t) : x.toSegPart.key = x.key := rfl

/-! ## `process_new`: the id map and the redistribution -/

theorem mem_first_seen {k : Nat × Nat} : ∀ (ks seen : List (Nat × Nat)),
    k ∈ first_seen ks seen ↔ k ∈ ks ∧ k ∉ seen
  | [], seen => by simp [first_seen]
  | a :: ks, seen => by
    unfold first_seen
    by_cases h : a ∈ seen
    · rw [if_pos h, mem_first_seen ks seen]
      constructor
      · rintro ⟨h1, h2⟩
        exact ⟨List.mem_cons_of_mem _ h1, h2⟩
      · rintro ⟨h1, h2⟩
        rcases List.mem_cons.mp h1 with rfl | h1
        · exact absurd h h2
        · exact ⟨h1, h2⟩
    · rw [if_neg h, List.mem_cons, mem_first_seen ks (seen ++ [a])]
      constructor
      · rintro (rfl | ⟨h1, h2⟩)
        · exact ⟨List.mem_cons_self _ _, h⟩
        · exact ⟨List.mem_cons_of_mem _ h1, fun hk => h2 (List.mem_append_left _ hk)⟩
      · rintro ⟨h1, h2⟩
        by_cases hka : k = a
        · exact Or.inl hka
        · right
          rcases List.mem_cons.mp h1 with rfl | h1
          · exact absurd rfl hka
          · refine ⟨h1, ?_⟩
            simp only [List.mem_append, List.mem_singleton, not_or]
            exact ⟨h2, hka⟩

theorem nodup_first_seen : ∀ (ks seen : List (Nat × Nat)), (first_seen ks seen).Nodup
  | [], seen => by simp [first_seen]
  | a :: ks, seen => by
    unfold first_seen
    by_cases h : a ∈ seen
    · rw [if_pos h]; exact nodup_first_seen ks seen
    · rw [if_neg h, List.nodup_cons]
      refine ⟨?_, nodup_first_seen ks _⟩
      rw [mem_first_seen]
      simp

theorem length_first_seen (ks : List (Nat × Nat)) :
    (first_seen ks []).length = ks.toFinset.card := by
  rw [← List.toFinset_card_of_nodup (nodup_first_seen ks [])]
  congr 1
  ext k
  simp [mem_first_seen]

theorem lookup_eq_none_iff_not_mem (m : kmers_map) (k : Nat × Nat) :
    m.lookup k = none ↔ k ∉ m.map Prod.fst := by
  rw [List.lookup_eq_none_iff]
  simp only [List.mem_map, not_exists, not_and, bne_iff_ne, ne_eq]
  constructor
  · intro h p hp e
    exact h p hp e.symm
  · intro h p hp e
    exact h p hp e.symm

/-- Closed form of the first loop of `process_new`. -/
theorem assign_group_ids_eq : ∀ (xs : List kk_seg_part_t) (m : kmers_map) (g : Nat),
    g < U32 →
    assign_group_ids xs m g =
      (m ++ ids_from g (first_seen (xs.map kk_seg_part_t.pair) (m.map Prod.fst)),
       (g + (first_seen (xs.map kk_seg_part_t.pair) (m.map Prod.fst)).length) % U32)
  | [], m, g, hg => by
    simp [assign_group_ids, first_seen, ids_from, Nat.mod_eq_of_lt hg]
  | x :: xs, m, g, hg => by
    unfold assign_group_ids
    cases hl : m.lookup (x.kmer1, x.kmer2) with
    | none =>
      have hk : x.pair ∉ m.map Prod.fst := (lookup_eq_none_iff_not_mem m _).mp hl
      have hlt : (g + 1) % U32 < U32 := Nat.mod_lt _ (by decide)
      simp only []
      rw [assign_group_ids_eq xs _ _ hlt]
      simp only [List.map_cons, first_seen, if_neg hk, List.map_append, List.map_nil,
        ids_from, List.length_cons, List.append_assoc, List.singleton_append]
      refine Prod.ext rfl ?_
      show ((g + 1) % U32 + _) % U32 = (g + (_ + 1)) % U32
      rw [Nat.mod_add_mod]
      congr 1
      simp only [kk_seg_part_t.pair]
      omega
    | some v =>
      have hk : x.pair ∈ m.map Prod.fst := by
        by_contra hk
        rw [(lookup_eq_none_iff_not_mem m (x.kmer1, x.kmer2)).mpr hk] at hl
        exact Option.noConfusion hl
      simp only []
      rw [assign_group_ids_eq xs m g hg]
      simp only [List.map_cons, first_seen, if_pos hk]

theorem key_index_lt {k : Nat × Nat} : ∀ {ks : List (Nat × Nat)}, k ∈ ks →
    key_index k ks < ks.length
  | [], h => by simp at h
  | a :: ks, h => by
    unfold key_index
    by_cases hka : k = a
    · simp [hka]
    · rcases List.mem_cons.mp h with h | h
      · exact absurd h hka
      · have := key_index_lt h
        simp only [if_neg hka, List.length_cons]
        omega

theorem getElem?_key_index {k : Nat × Nat} : ∀ {ks : List (Nat × Nat)}, k ∈ ks →
    ks[key_index k ks]? = some k
  | [], h => by simp at h
  | a :: ks, h => by
    unfold key_index
    by_cases hka : k = a
    · simp [hka]
    · rcases List.mem_cons.mp h with h | h
      · exact absurd h hka
      · simp only [if_neg hka, List.getElem?_cons_succ]
        exact getElem?_key_index h

theorem key_index_inj {k k' : Nat × Nat} {ks : List (Nat × Nat)} (h : k ∈ ks) (h' : k' ∈ ks)
    (e : key_index k ks = key_index k' ks) : k = k' := by
  have h1 := getElem?_key_index h
  have h2 := getElem?_key_index h'
  rw [e, h2] at h1
  exact (Option.some.inj h1).symm

theorem key_index_getElem : ∀ {ks : List (Nat × Nat)}, ks.Nodup → ∀ (i : Nat) (k : Nat × Nat),
    ks[i]? = some k → key_index k ks = i
  | [], _, i, k, h => by simp at h
  | a :: ks, hnd, 0, k, h => by
    simp only [List.getElem?_cons_zero, Option.some.injEq] at h
    simp [key_index, h]
  | a :: ks, hnd, i + 1, k, h => by
    simp only [List.getElem?_cons_succ] at h
    have hk : k ∈ ks := List.mem_iff_getElem?.mpr ⟨i, h⟩
    have hka : k ≠ a := by
      rintro rfl
      exact (List.nodup_cons.mp hnd).1 hk
    unfold key_index
    rw [if_neg hka, key_index_getElem (List.nodup_cons.mp hnd).2 i k h]

/-- Without wrap-around, the id of a key is the first id plus the position of the key. -/
theorem lookup_ids_from : ∀ (ks : List (Nat × Nat)) (g : Nat) (k : Nat × Nat),
    g + ks.length < U32 → k ∈ ks → (ids_from g ks).lookup k = some (g + key_index k ks)
  | [], _, _, _, hk => by simp at hk
  | a :: ks, g, k, hg, hk => by
    unfold ids_from
    by_cases hka : k = a
    · subst hka
      simp [List.lookup_cons, key_index]
    · have hk' : k ∈ ks := by
        rcases List.mem_cons.mp hk with h | h
        · exact absurd h hka
        · exact h
      have hlen : g + 1 + ks.length < U32 := by
        simp only [List.length_cons] at hg; omega
      have hmod : (g + 1) % U32 = g + 1 := Nat.mod_eq_of_lt (by omega)
      have hbeq : (k == a) = false := by simpa using hka
      rw [List.lookup_cons, hbeq, hmod]
      simp only []
      rw [lookup_ids_from ks (g + 1) k hlen hk']
      simp only [key_index, if_neg hka]
      congr 1
      omega

theorem add_staged_spec (m : kmers_map) : ∀ (xs : List kk_seg_part_t) (s : CBufferedSegPart),
    (∀ x ∈ xs, kmers_at m x.pair < s.vl_seg_part.length) →
    ∃ s', add_staged m xs s = some s' ∧ s'.s_seg_part = s.s_seg_part ∧
      s'.a_v_part_id = s.a_v_part_id ∧
      s'.vl_seg_part.length = s.vl_seg_part.length ∧
      ∀ (g : Nat) (b : list_seg_part_t), s.vl_seg_part[g]? = some b →
        s'.vl_seg_part[g]? =
          some { l_seg_part := b.l_seg_part ++ staged_for m g xs, virt_begin := b.virt_begin }
  | [], s, _ => ⟨s, rfl, rfl, rfl, rfl, fun g b hb => by simp [staged_for, hb]⟩
  | x :: xs, s, h => by
    have hid : kmers_at m x.pair < s.vl_seg_part.length := h x (List.mem_cons_self _ _)
    have hb0 : s.vl_seg_part[kmers_at m x.pair]? = some (s.vl_seg_part[kmers_at m x.pair]) :=
      List.getElem?_eq_getElem hid
    obtain ⟨s', h1, h2, h3, h4, h5⟩ := add_staged_spec m xs
      { s with vl_seg_part := (s.vl_seg_part.set (kmers_at m x.pair)
        ((s.vl_seg_part[kmers_at m x.pair]).emplace x.kmer1 x.kmer2 x.sample_name
          x.contig_name x.seg_data x.is_rev_comp x.seg_part_no)) }
      (by
        intro y hy
        simp only [List.length_set]
        exact h y (List.mem_cons_of_mem _ hy))
    refine ⟨s', ?_, h2, h3, ?_, ?_⟩
    · unfold add_staged
      simp only [CBufferedSegPart.add_known]
      have hb0' : s.vl_seg_part[kmers_at m (x.kmer1, x.kmer2)]? =
          some (s.vl_seg_part[kmers_at m x.pair]) := hb0
      rw [hb0']
      exact h1
    · rw [h4, List.length_set]
    · intro g b hb
      by_cases hg : kmers_at m x.pair = g
      · subst hg
        rw [hb0] at hb
        have hb' := Option.some.inj hb
        have := h5 (kmers_at m x.pair)
          ((s.vl_seg_part[kmers_at m x.pair]).emplace x.kmer1 x.kmer2 x.sample_name
            x.contig_name x.seg_data x.is_rev_comp x.seg_part_no)
          (by simp only [List.getElem?_set, if_pos hid]; simp)
        rw [this, ← hb']
        simp [staged_for, list_seg_part_t.emplace, kk_seg_part_t.toSegPart]
      · have := h5 g b (by
          simp only [List.getElem?_set, if_neg hg]
          exact hb)
        rw [this]
        simp [staged_for, hg]

theorem getElem?_vec_resize_of_lt {v : List list_seg_part_t} {n g : Nat}
    (hn : v.length ≤ n) (hg : g < v.length) : (vec_resize v n)[g]? = v[g]? := by
  unfold vec_resize
  split
  · have : n = v.length := by omega
    subst this
    simp
  · exact List.getElem?_append_left hg

theorem getElem?_vec_resize_of_ge {v : List list_seg_part_t} {n g : Nat}
    (hg : v.length ≤ g) (hgn : g < n) :
    (vec_resize v n)[g]? = some list_seg_part_t.default := by
  unfold vec_resize
  rw [if_neg (by omega), List.getElem?_append_right hg, List.getElem?_replicate,
    if_pos (by omega)]

theorem length_vec_resize (v : List list_seg_part_t) (n : Nat) : (vec_resize v n).length = n := by
  unfold vec_resize
  split
  · simp only [List.length_take]; omega
  · simp only [List.length_append, List.length_replicate]; omega

theorem new_pairs_length (s : CBufferedSegPart) :
    s.new_pairs.length = (s.s_seg_part.map kk_seg_part_t.pair).toFinset.card :=
  length_first_seen _

theorem mem_new_pairs {s : CBufferedSegPart} {k : Nat × Nat} :
    k ∈ s.new_pairs ↔ ∃ x ∈ s.s_seg_part, x.pair = k := by
  simp [CBufferedSegPart.new_pairs, mem_first_seen]

/-- Without wrap-around the map `m_kmers` of `process_new` is `ids_from n` on the new
pairs, and the final `group_id` is `n` plus their number. -/
theorem assign_of_fit (s : CBufferedSegPart)
    (hfit : s.vl_seg_part.length + s.new_pairs.length < U32) :
    assign_group_ids s.s_seg_part [] (s.vl_seg_part.length % U32) =
      (ids_from s.vl_seg_part.length s.new_pairs,
        s.vl_seg_part.length + s.new_pairs.length) := by
  have hn : s.vl_seg_part.length % U32 = s.vl_seg_part.length := Nat.mod_eq_of_lt (by omega)
  rw [hn, assign_group_ids_eq _ _ _ (by omega)]
  simp only [List.map_nil, List.nil_append]
  exact Prod.ext rfl (Nat.mod_eq_of_lt hfit)

/-- Without wrap-around the id of a staged pair is `n` plus its rank among the new
pairs. -/
theorem new_group_id_eq (s : CBufferedSegPart)
    (hfit : s.vl_seg_part.length + s.new_pairs.length < U32) {k : Nat × Nat}
    (hk : k ∈ s.new_pairs) :
    kmers_at s.new_group_ids k = s.vl_seg_part.length + key_index k s.new_pairs := by
  unfold CBufferedSegPart.new_group_ids kmers_at
  rw [assign_of_fit s hfit]
  simp only []
  rw [lookup_ids_from _ _ _ hfit hk]
  rfl

/-- The effect of `process_new` when the new ids fit in `uint32_t`. -/
theorem process_new_spec (s : CBufferedSegPart)
    (hfit : s.vl_seg_part.length + s.new_pairs.length < U32) :
    ∃ s', s.process_new = some (s', s.new_pairs.length) ∧
      s'.vl_seg_part.length = s.vl_seg_part.length + s.new_pairs.length ∧
      s'.s_seg_part = [] ∧ s'.a_v_part_id = s.a_v_part_id ∧
      (∀ (g : Nat) (b : list_seg_part_t), s.vl_seg_part[g]? = some b →
        s'.vl_seg_part[g]? = some b) ∧
      (∀ g : Nat, s.vl_seg_part.length ≤ g → g < s.vl_seg_part.length + s.new_pairs.length →
        s'.vl_seg_part[g]? = some { l_seg_part := staged_for s.new_group_ids g s.s_seg_part,
                                    virt_begin := 0 }) := by
  have hasg := assign_of_fit s hfit
  have hids : ∀ x ∈ s.s_seg_part,
      kmers_at s.new_group_ids x.pair =
        s.vl_seg_part.length + key_index x.pair s.new_pairs := fun x hx =>
    new_group_id_eq s hfit (mem_new_pairs.mpr ⟨x, hx, rfl⟩)
  have hrange : ∀ x ∈ s.s_seg_part, s.vl_seg_part.length ≤ kmers_at s.new_group_ids x.pair ∧
      kmers_at s.new_group_ids x.pair < s.vl_seg_part.length + s.new_pairs.length := by
    intro x hx
    rw [hids x hx]
    have := key_index_lt (mem_new_pairs.mpr ⟨x, hx, rfl⟩)
    omega
  obtain ⟨s2, h1, h2, h3, h4, h5⟩ := add_staged_spec s.new_group_ids s.s_seg_part
    { s with vl_seg_part :=
        vec_resize s.vl_seg_part (s.vl_seg_part.length + s.new_pairs.length) }
    (by
      intro x hx
      simp only [length_vec_resize]
      exact (hrange x hx).2)
  refine ⟨{ s2 with s_seg_part := [] }, ?_, ?_, rfl, h3, ?_, ?_⟩
  · unfold CBufferedSegPart.process_new
    simp only [hasg]
    have e : s.new_group_ids = ids_from s.vl_seg_part.length s.new_pairs := by
      unfold CBufferedSegPart.new_group_ids; rw [hasg]
    rw [← e, h1]
    have hn : s.vl_seg_part.length % U32 = s.vl_seg_part.length :=
      Nat.mod_eq_of_lt (by omega)
    have hd : (s.vl_seg_part.length + s.new_pairs.length + U32 - s.vl_seg_part.length % U32)
        % U32 = s.new_pairs.length := by
      rw [hn]
      have : s.vl_seg_part.length + s.new_pairs.length + U32 - s.vl_seg_part.length =
          s.new_pairs.length + U32 := by omega
      rw [this, Nat.add_mod_right]
      exact Nat.mod_eq_of_lt (by omega)
    simp only [hd]
  · simpa [length_vec_resize] using h4
  · intro g b hb
    have hg : g < s.vl_seg_part.length := (List.getElem?_eq_some.mp hb).1
    have := h5 g b (by
      show (vec_resize _ _)[g]? = some b
      rw [getElem?_vec_resize_of_lt (by omega) hg]; exact hb)
    show s2.vl_seg_part[g]? = some b
    rw [this]
    have hempty : staged_for s.new_group_ids g s.s_seg_part = [] := by
      unfold staged_for
      rw [List.map_eq_nil_iff, List.filter_eq_nil_iff]
      intro x hx
      have := (hrange x hx).1
      simp only [decide_eq_true_eq]
      omega
    rw [hempty]
    simp
  · intro g hg1 hg2
    have := h5 g list_seg_part_t.default (by
      show (vec_resize _ _)[g]? = some _
      exact getElem?_vec_resize_of_ge hg1 hg2)
    show s2.vl_seg_part[g]? = _
    rw [this]
    simp [list_seg_part_t.default]

/-! ## C1: what `process_new` creates -/

theorem vec_resize_zero (v : List list_seg_part_t) : vec_resize v 0 = [] := by
  simp [vec_resize]

theorem assign_one_at_last_id (v : List list_seg_part_t) (x : kk_seg_part_t)
    (hv : v.length = U32 - 1) :
    assign_group_ids [x] [] (v.length % U32) = ([((x.kmer1, x.kmer2), U32 - 1)], 0) := by
  rw [hv]
  simp [assign_group_ids]
  decide

theorem process_new_none_at_last_id (v : List list_seg_part_t) (x : kk_seg_part_t) (c : Int)
    (hv : v.length = U32 - 1) :
    CBufferedSegPart.process_new { vl_seg_part := v, s_seg_part := [x], a_v_part_id := c } =
      none := by
  unfold CBufferedSegPart.process_new
  simp only [assign_one_at_last_id v x hv, vec_resize_zero]
  simp [add_staged, CBufferedSegPart.add_known]

/-- C1, as stated, fails: with `n = 2^32 - 1` buffers and one staged part (`d = 1`) the
`uint32_t` counter `group_id` wraps to `0` after the id `2^32 - 1` is handed out, the
vector is resized to `0` buffers and `add_known` indexes buffer `2^32 - 1` outside the
vector: the call does not return `d` with `n + d` buffers. -/
theorem process_new_wraps_at_uint32 :
    full_partitioner.vl_seg_part.length = U32 - 1 ∧
    full_partitioner.no_distinct_pairs = 1 ∧
    (assign_group_ids full_partitioner.s_seg_part []
      (full_partitioner.vl_seg_part.length % U32)).2 = 0 ∧
    full_partitioner.process_new = none ∧
    ¬ ∃ s', full_partitioner.process_new = some (s', full_partitioner.no_distinct_pairs) ∧
        s'.vl_seg_part.length =
          full_partitioner.vl_seg_part.length + full_partitioner.no_distinct_pairs := by
  have hlen : full_partitioner.vl_seg_part.length = U32 - 1 := List.length_replicate _ _
  have hnone : full_partitioner.process_new = none :=
    process_new_none_at_last_id _ _ _ (List.length_replicate _ _)
  refine ⟨hlen, ?_, ?_, hnone, ?_⟩
  · simp [full_partitioner, CBufferedSegPart.no_distinct_pairs]
  · have h := assign_one_at_last_id full_partitioner.vl_seg_part part_a hlen
    exact congrArg Prod.snd h
  · rintro ⟨s', h, _⟩
    rw [hnone] at h
    exact Option.noConfusion h

/-- C1 (amended): for every partitioner state with `n` group buffers and every staged
set with `d` distinct boundary pairs such that `n + d < 2^32`, `process_new` returns
`d`, the number of group buffers becomes `n + d`, the staged set is empty afterwards,
every staged pair gets an id in `n, ..., n + d - 1`, each of these ids is used by
exactly one pair, and each new buffer is non-empty: it holds the staged parts of its
pair. -/
theorem process_new_creates_dense_groups (s : CBufferedSegPart)
    (hfit : s.vl_seg_part.length + s.no_distinct_pairs < U32) :
    ∃ s', s.process_new = some (s', s.no_distinct_pairs) ∧
      s'.vl_seg_part.length = s.vl_seg_part.length + s.no_distinct_pairs ∧
      s'.s_seg_part = [] ∧
      (∀ x ∈ s.s_seg_part, s.vl_seg_part.length ≤ kmers_at s.new_group_ids x.pair ∧
        kmers_at s.new_group_ids x.pair < s.vl_seg_part.length + s.no_distinct_pairs) ∧
      (∀ g : Nat, s.vl_seg_part.length ≤ g → g < s.vl_seg_part.length + s.no_distinct_pairs →
        ∃ x ∈ s.s_seg_part, kmers_at s.new_group_ids x.pair = g ∧
          ∀ y ∈ s.s_seg_part, kmers_at s.new_group_ids y.pair = g → y.pair = x.pair) ∧
      (∀ g : Nat, s.vl_seg_part.length ≤ g → g < s.vl_seg_part.length + s.no_distinct_pairs →
        ∃ b, s'.vl_seg_part[g]? = some b ∧ b.l_seg_part ≠ [] ∧
          b.l_seg_part = staged_for s.new_group_ids g s.s_seg_part) := by
  have hd : s.no_distinct_pairs = s.new_pairs.length := (new_pairs_length s).symm
  rw [hd] at hfit ⊢
  obtain ⟨s', h1, h2, h3, _, _, h6⟩ := process_new_spec s hfit
  have hid : ∀ x ∈ s.s_seg_part, kmers_at s.new_group_ids x.pair =
      s.vl_seg_part.length + key_index x.pair s.new_pairs := fun x hx =>
    new_group_id_eq s hfit (mem_new_pairs.mpr ⟨x, hx, rfl⟩)
  have hone : ∀ g : Nat, s.vl_seg_part.length ≤ g →
      g < s.vl_seg_part.length + s.new_pairs.length →
      ∃ x ∈ s.s_seg_part, kmers_at s.new_group_ids x.pair = g ∧
        ∀ y ∈ s.s_seg_part, kmers_at s.new_group_ids y.pair = g → y.pair = x.pair := by
    intro g hg1 hg2
    have hi : g - s.vl_seg_part.length < s.new_pairs.length := by omega
    have hk := List.getElem?_eq_getElem hi
    obtain ⟨x, hx, hxk⟩ := mem_new_pairs.mp (List.mem_iff_getElem?.mpr ⟨_, hk⟩)
    have hkx : key_index x.pair s.new_pairs = g - s.vl_seg_part.length := by
      rw [hxk]
      exact key_index_getElem (nodup_first_seen _ _) _ _ hk
    refine ⟨x, hx, by rw [hid x hx, hkx]; omega, ?_⟩
    intro y hy hyg
    rw [hid y hy] at hyg
    exact key_index_inj (mem_new_pairs.mpr ⟨y, hy, rfl⟩) (mem_new_pairs.mpr ⟨x, hx, rfl⟩)
      (by rw [hkx]; omega)
  refine ⟨s', h1, h2, h3, ?_, hone, ?_⟩
  · intro x hx
    rw [hid x hx]
    have := key_index_lt (mem_new_pairs.mpr ⟨x, hx, rfl⟩)
    omega
  · intro g hg1 hg2
    refine ⟨_, h6 g hg1 hg2, ?_, rfl⟩
    obtain ⟨x, hx, hxg, _⟩ := hone g hg1 hg2
    intro hnil
    have hmem : x.toSegPart ∈ staged_for s.new_group_ids g s.s_seg_part := by
      unfold staged_for
      exact List.mem_map_of_mem _ (List.mem_filter.mpr ⟨hx, by simpa using hxg⟩)
    simp only [] at hnil
    rw [hnil] at hmem
    exact List.not_mem_nil _ hmem

theorem process_new_creates_dense_groups_witness :
    sample_state.vl_seg_part.length + sample_state.no_distinct_pairs < U32 ∧
    ∃ s', sample_state.process_new = some (s', 2) ∧ s'.vl_seg_part.length = 3 :=
  ⟨by decide,
   (process_new_creates_dense_groups sample_state (by decide)).imp
     (fun _ h => ⟨h.1, h.2.1⟩)⟩

/-! ## When `process_new` returns -/

/-- The id of a key, wrap-around included: the first id plus the position of the key,
reduced to `uint32_t`. -/
theorem lookup_ids_from_mod : ∀ (ks : List (Nat × Nat)) (g : Nat) (k : Nat × Nat),
    g < U32 → k ∈ ks → (ids_from g ks).lookup k = some ((g + key_index k ks) % U32)
  | [], _, _, _, hk => by simp at hk
  | a :: ks, g, k, hg, hk => by
    unfold ids_from
    by_cases hka : k = a
    · subst hka
      simp [List.lookup_cons, key_index, Nat.mod_eq_of_lt hg]
    · have hk' : k ∈ ks := by
        rcases List.mem_cons.mp hk with h | h
        · exact absurd h hka
        · exact h
      have hbeq : (k == a) = false := by simpa using hka
      rw [List.lookup_cons, hbeq]
      simp only []
      rw [lookup_ids_from_mod ks ((g + 1) % U32) k (Nat.mod_lt _ (by decide)) hk']
      simp only [key_index, if_neg hka, Nat.mod_add_mod]
      congr 2
      omega

theorem add_known_length {s s1 : CBufferedSegPart} {g k1 k2 : Nat} {sn cn : string}
    {sd : contig_t} {rc : Bool} {no : Nat}
    (h : s.add_known g k1 k2 sn cn sd rc no = some s1) :
    g < s.vl_seg_part.length ∧ s1.vl_seg_part.length = s.vl_seg_part.length := by
  unfold CBufferedSegPart.add_known at h
  cases hb : s.vl_seg_part[g]? with
  | none => rw [hb] at h; exact Option.noConfusion h
  | some b =>
    rw [hb] at h
    simp only [Option.some.injEq] at h
    subst h
    exact ⟨(List.getElem?_eq_some.mp hb).1, by simp⟩

/-- The second loop of `process_new` returns only if every id it uses is below the
number of buffers. -/
theorem add_staged_ids_lt (m : kmers_map) : ∀ (xs : List kk_seg_part_t)
    (s s' : CBufferedSegPart), add_staged m xs s = some s' →
    ∀ x ∈ xs, kmers_at m x.pair < s.vl_seg_part.length
  | [], _, _, _ => fun x hx => absurd hx (List.not_mem_nil _)
  | a :: xs, s, s', h => by
    unfold add_staged at h
    cases h1 : s.add_known (kmers_at m (a.kmer1, a.kmer2)) a.kmer1 a.kmer2 a.sample_name
        a.contig_name a.seg_data a.is_rev_comp a.seg_part_no with
    | none => rw [h1] at h; exact Option.noConfusion h
    | some s1 =>
      rw [h1] at h
      have hl := add_known_length h1
      intro x hx
      rcases List.mem_cons.mp hx with e | hx
      · rw [e]; exact hl.1
      · have := add_staged_ids_lt m xs s1 s' h x hx
        rw [hl.2] at this
        exact this

/-- With fewer than `2^32` buffers, `process_new` returns only if the new ids fit in
`uint32_t`: otherwise the id `2^32 - 1` is handed out and lies outside the resized
vector. -/
theorem process_new_some_imp_fit (s : CBufferedSegPart) (hn : s.vl_seg_part.length < U32)
    (r : CBufferedSegPart × Nat) (h : s.process_new = some r) :
    s.vl_seg_part.length + s.new_pairs.length < U32 := by
  by_contra hfit
  have hn' : s.vl_seg_part.length % U32 = s.vl_seg_part.length := Nat.mod_eq_of_lt hn
  have hasg : assign_group_ids s.s_seg_part [] (s.vl_seg_part.length % U32) =
      (ids_from s.vl_seg_part.length s.new_pairs,
        (s.vl_seg_part.length + s.new_pairs.length) % U32) := by
    rw [hn', assign_group_ids_eq _ _ _ hn]
    simp only [List.map_nil, List.nil_append]
    rfl
  unfold CBufferedSegPart.process_new at h
  simp only [hasg] at h
  cases h2 : add_staged (ids_from s.vl_seg_part.length s.new_pairs) s.s_seg_part
      { s with vl_seg_part := (vec_resize s.vl_seg_part
          ((s.vl_seg_part.length + s.new_pairs.length) % U32)) } with
  | none => rw [h2] at h; exact Option.noConfusion h
  | some s2 =>
    have hlt := add_staged_ids_lt _ _ _ _ h2
    simp only [length_vec_resize] at hlt
    -- the pair at position `2^32 - 1 - n` gets the id `2^32 - 1`
    have hi : U32 - 1 - s.vl_seg_part.length < s.new_pairs.length := by omega
    have hk := List.getElem?_eq_getElem hi
    have hmem : s.new_pairs[U32 - 1 - s.vl_seg_part.length] ∈ s.new_pairs :=
      List.mem_iff_getElem?.mpr ⟨_, hk⟩
    obtain ⟨x, hx, hxk⟩ := mem_new_pairs.mp hmem
    have hidx : key_index (s.new_pairs[U32 - 1 - s.vl_seg_part.length]) s.new_pairs =
        U32 - 1 - s.vl_seg_part.length :=
      key_index_getElem (nodup_first_seen _ _) _ _ hk
    have hid : kmers_at (ids_from s.vl_seg_part.length s.new_pairs) x.pair = U32 - 1 := by
      unfold kmers_at
      rw [hxk, lookup_ids_from_mod _ _ _ hn hmem]
      show (s.vl_seg_part.length + key_index _ s.new_pairs) % U32 = U32 - 1
      rw [hidx]
      have : s.vl_seg_part.length + (U32 - 1 - s.vl_seg_part.length) = U32 - 1 := by omega
      rw [this]
      decide
    have := hlt x hx
    rw [hid] at this
    have hmod : (s.vl_seg_part.length + s.new_pairs.length) % U32 < U32 :=
      Nat.mod_lt _ (by decide)
    omega

/-- With fewer than `2^32` buffers, `process_new` returns exactly when the new ids fit
in `uint32_t`. -/
theorem process_new_returns_iff (s : CBufferedSegPart) (hn : s.vl_seg_part.length < U32) :
    (∃ r, s.process_new = some r) ↔ s.vl_seg_part.length + s.no_distinct_pairs < U32 := by
  have hd : s.no_distinct_pairs = s.new_pairs.length := (new_pairs_length s).symm
  rw [hd]
  constructor
  · rintro ⟨r, h⟩
    exact process_new_some_imp_fit s hn r h
  · intro hfit
    obtain ⟨s', h, _⟩ := process_new_spec s hfit
    exact ⟨_, h⟩

/-! ## C2: one buffer per boundary pair within a call -/

theorem mem_staged_for {m : kmers_map} {g : Nat} {xs : List kk_seg_part_t} {x : kk_seg_part_t} :
    x.toSegPart ∈ staged_for m g xs ↔ x ∈ xs ∧ kmers_at m x.pair = g := by
  unfold staged_for
  rw [List.mem_map]
  constructor
  · rintro ⟨z, hz, e⟩
    have := toSegPart_injective e
    subst this
    simpa using hz
  · intro h
    exact ⟨x, by simpa using h, rfl⟩

theorem process_new_places_by_pair (s : CBufferedSegPart)
    (hfit : s.vl_seg_part.length + s.new_pairs.length < U32) :
    ∃ s', s.process_new = some (s', s.new_pairs.length) ∧
      ∀ x ∈ s.s_seg_part,
        (∃ b, s'.vl_seg_part[kmers_at s.new_group_ids x.pair]? = some b ∧
          x.toSegPart ∈ b.l_seg_part) ∧
        ∀ y ∈ s.s_seg_part,
          (kmers_at s.new_group_ids x.pair = kmers_at s.new_group_ids y.pair ↔
            x.pair = y.pair) ∧
          ((∃ (g : Nat) (b : list_seg_part_t), s.vl_seg_part.length ≤ g ∧
              s'.vl_seg_part[g]? = some b ∧ x.toSegPart ∈ b.l_seg_part ∧
              y.toSegPart ∈ b.l_seg_part) ↔ x.pair = y.pair) := by
  obtain ⟨s', h1, h2, _, _, _, h6⟩ := process_new_spec s hfit
  have hid : ∀ x ∈ s.s_seg_part, kmers_at s.new_group_ids x.pair =
      s.vl_seg_part.length + key_index x.pair s.new_pairs := fun x hx =>
    new_group_id_eq s hfit (mem_new_pairs.mpr ⟨x, hx, rfl⟩)
  have hrange : ∀ x ∈ s.s_seg_part, s.vl_seg_part.length ≤ kmers_at s.new_group_ids x.pair ∧
      kmers_at s.new_group_ids x.pair < s.vl_seg_part.length + s.new_pairs.length := by
    intro x hx
    rw [hid x hx]
    have := key_index_lt (mem_new_pairs.mpr ⟨x, hx, rfl⟩)
    omega
  have hids : ∀ x ∈ s.s_seg_part, ∀ y ∈ s.s_seg_part,
      (kmers_at s.new_group_ids x.pair = kmers_at s.new_group_ids y.pair ↔
        x.pair = y.pair) := by
    intro x hx y hy
    constructor
    · intro e
      rw [hid x hx, hid y hy] at e
      exact key_index_inj (mem_new_pairs.mpr ⟨x, hx, rfl⟩) (mem_new_pairs.mpr ⟨y, hy, rfl⟩)
        (by omega)
    · intro e
      rw [e]
  have hplace : ∀ x ∈ s.s_seg_part, ∀ (g : Nat) (b : list_seg_part_t),
      s.vl_seg_part.length ≤ g → s'.vl_seg_part[g]? = some b →
      (x.toSegPart ∈ b.l_seg_part ↔ kmers_at s.new_group_ids x.pair = g) := by
    intro x hx g b hg hb
    have hlt : g < s.vl_seg_part.length + s.new_pairs.length := by
      rw [← h2]; exact (List.getElem?_eq_some.mp hb).1
    rw [h6 g hg hlt] at hb
    rw [← Option.some.inj hb]
    simp only [mem_staged_for, hx, true_and]
  refine ⟨s', h1, ?_⟩
  intro x hx
  refine ⟨?_, ?_⟩
  · have hr := hrange x hx
    refine ⟨_, h6 _ hr.1 hr.2, ?_⟩
    exact mem_staged_for.mpr ⟨hx, rfl⟩
  · intro y hy
    refine ⟨hids x hx y hy, ?_⟩
    constructor
    · rintro ⟨g, b, hg, hb, hxb, hyb⟩
      have e1 := (hplace x hx g b hg hb).mp hxb
      have e2 := (hplace y hy g b hg hb).mp hyb
      exact (hids x hx y hy).mp (e1.trans e2.symm)
    · intro e
      have hr := hrange x hx
      refine ⟨_, _, hr.1, h6 _ hr.1 hr.2, mem_staged_for.mpr ⟨hx, rfl⟩, ?_⟩
      exact mem_staged_for.mpr ⟨hy, ((hids x hx y hy).mpr e).symm⟩

/-- C2: within one `process_new` call (on a partitioner with fewer than `2^32` buffers,
the vector being sized through `uint32_t` values only), whenever the call returns,
every staged part has been appended to the buffer of the id of its boundary pair, two
staged parts got the same id exactly when their boundary pairs are equal, and they lie
in the same buffer created by the call exactly when their boundary pairs are equal
(payload and orientation play no part); and the call returns when the new ids fit in
`uint32_t`. -/
theorem process_new_same_group_iff_same_pair (s : CBufferedSegPart)
    (hn : s.vl_seg_part.length < U32) :
    (s.vl_seg_part.length + s.no_distinct_pairs < U32 → ∃ r, s.process_new = some r) ∧
    ∀ (s' : CBufferedSegPart) (d : Nat), s.process_new = some (s', d) →
      ∀ x ∈ s.s_seg_part,
        (∃ b, s'.vl_seg_part[kmers_at s.new_group_ids x.pair]? = some b ∧
          x.toSegPart ∈ b.l_seg_part) ∧
        ∀ y ∈ s.s_seg_part,
          (kmers_at s.new_group_ids x.pair = kmers_at s.new_group_ids y.pair ↔
            x.pair = y.pair) ∧
          ((∃ (g : Nat) (b : list_seg_part_t), s.vl_seg_part.length ≤ g ∧
              s'.vl_seg_part[g]? = some b ∧ x.toSegPart ∈ b.l_seg_part ∧
              y.toSegPart ∈ b.l_seg_part) ↔ x.pair = y.pair) := by
  refine ⟨(process_new_returns_iff s hn).mpr, ?_⟩
  intro s' d hr
  have hfit := process_new_some_imp_fit s hn _ hr
  obtain ⟨s'', h1, h2⟩ := process_new_places_by_pair s hfit
  have e : s'' = s' := by
    rw [h1] at hr
    exact (Prod.mk.inj (Option.some.inj hr)).1
  rw [← e]
  exact h2

theorem process_new_same_group_iff_same_pair_witness :
    (∃ r, sample_state.process_new = some r) ∧
    ∀ (s' : CBufferedSegPart) (d : Nat), sample_state.process_new = some (s', d) →
      ∀ x ∈ sample_state.s_seg_part, ∀ y ∈ sample_state.s_seg_part,
        (kmers_at sample_state.new_group_ids x.pair =
          kmers_at sample_state.new_group_ids y.pair ↔ x.pair = y.pair) :=
  have h := process_new_same_group_iff_same_pair sample_state (by decide)
  ⟨h.1 (by decide), fun s' d hr x hx y hy => ((h.2 s' d hr x hx).2 y hy).1⟩

/-! ## C3: no part is lost between the deposits and `process_new` -/

theorem set_emplace_perm (x : kk_seg_part_t) : ∀ (l : List kk_seg_part_t),
    (∀ y ∈ l, y.key ≠ x.key) → (set_emplace x l).Perm (x :: l)
  | [], _ => by simp [set_emplace]
  | y :: ys, h => by
    unfold set_emplace
    by_cases h1 : x.lt y = true
    · rw [if_pos h1]
    · rw [if_neg h1]
      by_cases h2 : y.lt x = true
      · rw [if_pos h2]
        have ih := set_emplace_perm x ys (fun z hz => h z (List.mem_cons_of_mem _ hz))
        exact (List.Perm.cons y ih).trans (List.Perm.swap x y ys)
      · exfalso
        have e := (kk_equiv_iff x y).mp ⟨by simpa using h1, by simpa using h2⟩
        exact h y (List.mem_cons_self _ _) e.symm

theorem perm_cons_middle {β : Type} (a : β) (l r : List β) :
    (l ++ a :: r).Perm (a :: (l ++ r)) := List.perm_middle

theorem flatMap_set_perm {β : Type} (f : list_seg_part_t → List β) (p : β) (b b' : list_seg_part_t)
    (hf : f b' = f b ++ [p]) : ∀ (vl : List list_seg_part_t) (i : Nat), vl[i]? = some b →
    ((vl.set i b').flatMap f).Perm (p :: vl.flatMap f)
  | [], i, h => by simp at h
  | a :: vl, 0, h => by
    simp only [List.getElem?_cons_zero, Option.some.injEq] at h
    subst h
    simp only [List.set_cons_zero, List.flatMap_cons, hf, List.append_assoc]
    have : (f a ++ ([p] ++ vl.flatMap f)).Perm ([p] ++ (f a ++ vl.flatMap f)) := by
      rw [← List.append_assoc, ← List.append_assoc]
      exact List.Perm.append_right _ List.perm_append_comm
    exact this
  | a :: vl, i + 1, h => by
    simp only [List.getElem?_cons_succ] at h
    simp only [List.set_cons_succ, List.flatMap_cons]
    have ih := flatMap_set_perm f p b b' hf vl i h
    exact (List.Perm.append_left (f a) ih).trans List.perm_middle

theorem add_known_perm {s s1 : CBufferedSegPart} {g : Nat} (p : seg_part_t)
    (h : s.add_known g p.kmer1 p.kmer2 p.sample_name p.contig_name p.seg_data p.is_rev_comp
      p.seg_part_no = some s1) :
    s1.all_parts.Perm (p :: s.all_parts) ∧ s1.s_seg_part = s.s_seg_part ∧
      s1.vl_seg_part.length = s.vl_seg_part.length := by
  unfold CBufferedSegPart.add_known at h
  cases hb : s.vl_seg_part[g]? with
  | none => rw [hb] at h; exact Option.noConfusion h
  | some b =>
    rw [hb] at h
    simp only [Option.some.injEq] at h
    subst h
    refine ⟨?_, rfl, by simp⟩
    exact flatMap_set_perm _ p b _ (by simp [list_seg_part_t.emplace]) _ g hb

theorem add_known_some {s : CBufferedSegPart} {g : Nat} (hg : g < s.vl_seg_part.length)
    (p : seg_part_t) :
    ∃ s1, s.add_known g p.kmer1 p.kmer2 p.sample_name p.contig_name p.seg_data p.is_rev_comp
      p.seg_part_no = some s1 := by
  unfold CBufferedSegPart.add_known
  rw [List.getElem?_eq_getElem hg]
  exact ⟨_, rfl⟩

theorem add_staged_perm (m : kmers_map) : ∀ (xs : List kk_seg_part_t) (s s' : CBufferedSegPart),
    add_staged m xs s = some s' →
    s'.all_parts.Perm (s.all_parts ++ xs.map kk_seg_part_t.toSegPart)
  | [], s, s', h => by
    simp only [add_staged, Option.some.injEq] at h
    subst h
    simp
  | x :: xs, s, s', h => by
    unfold add_staged at h
    cases h1 : s.add_known (kmers_at m (x.kmer1, x.kmer2)) x.kmer1 x.kmer2 x.sample_name
        x.contig_name x.seg_data x.is_rev_comp x.seg_part_no with
    | none => rw [h1] at h; exact Option.noConfusion h
    | some s1 =>
      rw [h1] at h
      have hp := (add_known_perm x.toSegPart h1).1
      have ih := add_staged_perm m xs s1 s' h
      refine ih.trans ?_
      simp only [List.map_cons]
      exact (List.Perm.append_right _ hp).trans (by
        simpa using (perm_cons_middle x.toSegPart s.all_parts
          (xs.map kk_seg_part_t.toSegPart)).symm)

theorem flatMap_replicate_default (k : Nat) :
    (List.replicate k list_seg_part_t.default).flatMap (fun b => b.l_seg_part) = [] := by
  induction k with
  | zero => rfl
  | succ k ih => simp [List.replicate_succ, list_seg_part_t.default, ih]

theorem all_parts_vec_resize (s : CBufferedSegPart) (n : Nat) (hn : s.vl_seg_part.length ≤ n) :
    CBufferedSegPart.all_parts { s with vl_seg_part := vec_resize s.vl_seg_part n } =
      s.all_parts := by
  unfold CBufferedSegPart.all_parts vec_resize
  simp only []
  split
  · have : n = s.vl_seg_part.length := by omega
    subst this
    simp
  · rw [List.flatMap_append, flatMap_replicate_default, List.append_nil]

/-- When the new ids fit, the buffers after `process_new` hold the entries they held
before together with the staged parts. -/
theorem process_new_perm (s : CBufferedSegPart)
    (hfit : s.vl_seg_part.length + s.new_pairs.length < U32) :
    ∃ s', s.process_new = some (s', s.new_pairs.length) ∧
      s'.all_parts.Perm (s.all_parts ++ s.s_seg_part.map kk_seg_part_t.toSegPart) := by
  obtain ⟨s', h1, _⟩ := process_new_spec s hfit
  refine ⟨s', h1, ?_⟩
  unfold CBufferedSegPart.process_new at h1
  simp only [assign_of_fit s hfit] at h1
  cases h2 : add_staged (ids_from s.vl_seg_part.length s.new_pairs) s.s_seg_part
      { s with vl_seg_part :=
          vec_resize s.vl_seg_part (s.vl_seg_part.length + s.new_pairs.length) } with
  | none => rw [h2] at h1; exact Option.noConfusion h1
  | some s2 =>
    rw [h2] at h1
    simp only [Option.some.injEq, Prod.mk.injEq] at h1
    have hp := add_staged_perm _ _ _ _ h2
    rw [all_parts_vec_resize s _ (by omega)] at hp
    rw [← h1.1]
    exact hp

theorem mem_set_emplace {x y : kk_seg_part_t} : ∀ {l : List kk_seg_part_t},
    y ∈ set_emplace x l → y = x ∨ y ∈ l
  | [], h => by
    simp only [set_emplace, List.mem_singleton] at h
    exact Or.inl h
  | a :: l, h => by
    unfold set_emplace at h
    split at h
    · rcases List.mem_cons.mp h with h | h
      · exact Or.inl h
      · exact Or.inr h
    · split at h
      · rcases List.mem_cons.mp h with h | h
        · exact Or.inr (h ▸ List.mem_cons_self _ _)
        · rcases mem_set_emplace h with h | h
          · exact Or.inl h
          · exact Or.inr (List.mem_cons_of_mem _ h)
      · exact Or.inr h

/-- The effect of a sequence of producer calls: the buffers and the staged set together
hold what they held before and the submitted parts, provided the `add_new` parts have
pairwise distinct keys, distinct from the keys already staged. -/
theorem deposit_all_spec : ∀ (ops : List deposit) (s : CBufferedSegPart),
    (∀ g ∈ known_ids ops, g < s.vl_seg_part.length) →
    (fresh_parts ops).Pairwise (fun a b => a.key ≠ b.key) →
    (∀ x ∈ fresh_parts ops, ∀ y ∈ s.s_seg_part, y.key ≠ x.key) →
    ∃ s1, CBufferedSegPart.deposit_all ops s = some s1 ∧
      s1.vl_seg_part.length = s.vl_seg_part.length ∧
      s1.s_seg_part.Perm (s.s_seg_part ++ fresh_parts ops) ∧
      (s1.all_parts ++ s1.s_seg_part.map kk_seg_part_t.toSegPart).Perm
        ((s.all_parts ++ s.s_seg_part.map kk_seg_part_t.toSegPart) ++ submitted ops)
  | [], s, _, _, _ => ⟨s, rfl, rfl, by simp [fresh_parts], by simp [submitted]⟩
  | .known g p :: ds, s, hk, hd, hs => by
    obtain ⟨s1, h1⟩ := add_known_some (hk g (by simp [known_ids])) p
    obtain ⟨hp, hst, hlen⟩ := add_known_perm p h1
    obtain ⟨s2, h2, h3, h4, h5⟩ := deposit_all_spec ds s1
      (fun g' hg' => by rw [hlen]; exact hk g' (by simp [known_ids, hg']))
      (by simpa [fresh_parts] using hd)
      (by rw [hst]; simpa [fresh_parts] using hs)
    refine ⟨s2, ?_, by rw [h3, hlen], by rw [hst] at h4; simpa [fresh_parts] using h4, ?_⟩
    · simp only [CBufferedSegPart.deposit_all, CBufferedSegPart.deposit_one, h1]
      exact h2
    · refine h5.trans ?_
      rw [hst]
      simp only [submitted]
      exact ((hp.append_right _).append_right (submitted ds)).trans
        (perm_cons_middle p (s.all_parts ++ s.s_seg_part.map kk_seg_part_t.toSegPart)
          (submitted ds)).symm
  | .fresh x :: ds, s, hk, hd, hs => by
    have hd' : (∀ a' ∈ fresh_parts ds, x.key ≠ a'.key) ∧
        (fresh_parts ds).Pairwise (fun a b => a.key ≠ b.key) := List.pairwise_cons.mp hd
    have hx : ∀ y ∈ s.s_seg_part, y.key ≠ x.key := hs x (by simp [fresh_parts])
    have hp := set_emplace_perm x s.s_seg_part hx
    obtain ⟨s2, h2, h3, h4, h5⟩ := deposit_all_spec ds
      (s.add_new x.kmer1 x.kmer2 x.sample_name x.contig_name x.seg_data x.is_rev_comp
        x.seg_part_no)
      (fun g' hg' => hk g' (by simpa [known_ids] using hg'))
      hd'.2
      (by
        intro z hz y hy
        rcases mem_set_emplace hy with e | hy
        · rw [e]; exact hd'.1 z hz
        · exact hs z (by simp [fresh_parts, hz]) y hy)
    refine ⟨s2, ?_, h3, ?_, ?_⟩
    · simp only [CBufferedSegPart.deposit_all, CBufferedSegPart.deposit_one]
      exact h2
    · refine h4.trans ?_
      simp only [fresh_parts]
      exact (List.Perm.append_right _ hp).trans (by
        simpa using (perm_cons_middle x s.s_seg_part (fresh_parts ds)).symm)
    · refine h5.trans ?_
      simp only [submitted]
      have e : (s.add_new x.kmer1 x.kmer2 x.sample_name x.contig_name x.seg_data
          x.is_rev_comp x.seg_part_no).all_parts = s.all_parts := rfl
      have e2 : (s.add_new x.kmer1 x.kmer2 x.sample_name x.contig_name x.seg_data
          x.is_rev_comp x.seg_part_no).s_seg_part = set_emplace x s.s_seg_part := rfl
      rw [e, e2]
      have hp' := hp.map kk_seg_part_t.toSegPart
      refine (List.Perm.append_right _ (List.Perm.append_left _ hp')).trans ?_
      simp only [List.map_cons, List.append_assoc, List.cons_append]
      exact List.Perm.append_left _ (perm_cons_middle x.toSegPart
        (s.s_seg_part.map kk_seg_part_t.toSegPart) (submitted ds)).symm

theorem all_parts_mk_groups (n : Nat) : (CBufferedSegPart.mk_groups n).all_parts = [] := by
  unfold CBufferedSegPart.all_parts CBufferedSegPart.mk_groups vec_resize
  simp only []
  split
  · simp
  · simp [flatMap_replicate_default]

theorem length_mk_groups (n : Nat) : (CBufferedSegPart.mk_groups n).vl_seg_part.length = n :=
  length_vec_resize _ _

/-- C3, as stated, fails: two `add_new` calls with the same
`(sample_name, contig_name, seg_part_no)` and different boundary pairs and payloads are
one element for the staged set, so the second part is dropped and never reaches a
buffer. -/
theorem staged_twin_is_lost :
    ∃ s s' d, CBufferedSegPart.deposit_all [deposit.fresh part_a, deposit.fresh part_a_twin]
        (CBufferedSegPart.mk_groups 0) = some s ∧
      s.process_new = some (s', d) ∧
      s'.all_parts = [part_a.toSegPart] ∧
      part_a_twin.toSegPart ∈
        submitted [deposit.fresh part_a, deposit.fresh part_a_twin] ∧
      part_a_twin.toSegPart ∉ s'.all_parts ∧
      (↑s'.all_parts : Multiset seg_part_t) ≠
        ↑(submitted [deposit.fresh part_a, deposit.fresh part_a_twin]) := by
  refine ⟨⟨[], [part_a], 0⟩, ⟨[⟨[part_a.toSegPart], 0⟩], [], 0⟩, 1, by decide, by decide,
    by decide, by decide, by decide, ?_⟩
  intro h
  have := congrArg Multiset.card h
  revert this
  decide

/-- C3 (amended): for every sequence of `add_known` calls (with group ids below the
number `n` of buffers, `n` a `uint32_t`) and `add_new` calls on an empty partitioner with
`n` buffers, in which the parts given to `add_new` have pairwise distinct
`(sample_name, contig_name, seg_part_no)`, once `process_new` returns the multiset of
the entries of all group buffers is the multiset of all submitted parts; and the calls
and `process_new` do return when the new ids fit in `uint32_t`. -/
theorem deposits_reach_buffers (n : Nat) (ops : List deposit) (hn : n < U32)
    (hk : ∀ g ∈ known_ids ops, g < n)
    (hd : (fresh_parts ops).Pairwise (fun a b => a.key ≠ b.key)) :
    (n + ((fresh_parts ops).map kk_seg_part_t.pair).toFinset.card < U32 →
      ∃ s r, CBufferedSegPart.deposit_all ops (CBufferedSegPart.mk_groups n) = some s ∧
        s.process_new = some r) ∧
    ∀ (s s' : CBufferedSegPart) (d : Nat),
      CBufferedSegPart.deposit_all ops (CBufferedSegPart.mk_groups n) = some s →
      s.process_new = some (s', d) →
      (↑s'.all_parts : Multiset seg_part_t) = ↑(submitted ops) := by
  obtain ⟨s1, h1, h2, h3, h4⟩ := deposit_all_spec ops (CBufferedSegPart.mk_groups n)
    (by rw [length_mk_groups]; exact hk) hd (by simp [CBufferedSegPart.mk_groups])
  have hst : s1.s_seg_part.Perm (fresh_parts ops) := by
    simpa [CBufferedSegPart.mk_groups] using h3
  have hcard : s1.new_pairs.length =
      ((fresh_parts ops).map kk_seg_part_t.pair).toFinset.card := by
    rw [new_pairs_length]
    exact congrArg Finset.card (List.toFinset_eq_of_perm _ _ (hst.map _))
  have hlen : s1.vl_seg_part.length = n := by rw [h2, length_mk_groups]
  constructor
  · intro hfit
    obtain ⟨s', h5, _⟩ := process_new_perm s1 (by rw [hlen, hcard]; exact hfit)
    exact ⟨s1, _, h1, h5⟩
  · intro s s' d hs hr
    have e : s = s1 := by
      rw [h1] at hs
      exact (Option.some.inj hs).symm
    subst e
    have hfit := process_new_some_imp_fit s (by rw [hlen]; exact hn) _ hr
    obtain ⟨s'', h5, h6⟩ := process_new_perm s hfit
    have e' : s'' = s' := by
      rw [h5] at hr
      exact (Prod.mk.inj (Option.some.inj hr)).1
    subst e'
    rw [Multiset.coe_eq_coe]
    have e2 : (CBufferedSegPart.mk_groups n).s_seg_part = [] := rfl
    rw [all_parts_mk_groups, e2] at h4
    exact h6.trans (by simpa using h4)

theorem deposits_reach_buffers_witness :
    (∃ s r, CBufferedSegPart.deposit_all
        [deposit.known 1 part_k, deposit.fresh part_a_twin, deposit.fresh sample_part]
        (CBufferedSegPart.mk_groups 2) = some s ∧ s.process_new = some r) ∧
    ∀ (s s' : CBufferedSegPart) (d : Nat),
      CBufferedSegPart.deposit_all
        [deposit.known 1 part_k, deposit.fresh part_a_twin, deposit.fresh sample_part]
        (CBufferedSegPart.mk_groups 2) = some s →
      s.process_new = some (s', d) →
      (↑s'.all_parts : Multiset seg_part_t) =
        ↑(submitted [deposit.known 1 part_k, deposit.fresh part_a_twin,
          deposit.fresh sample_part]) :=
  have h := deposits_reach_buffers 2
    [deposit.known 1 part_k, deposit.fresh part_a_twin, deposit.fresh sample_part]
    (by decide) (by decide) (by decide)
  ⟨h.1 (by decide), h.2⟩

/-! ## C4: group ids over several ingestion waves -/

theorem add_new_all_vl (w : List kk_seg_part_t) : ∀ (s : CBufferedSegPart),
    (s.add_new_all w).vl_seg_part = s.vl_seg_part := by
  induction w with
  | nil => intro s; rfl
  | cons x w ih =>
    intro s
    simp only [CBufferedSegPart.add_new_all, List.foldl_cons]
    exact (ih _).trans rfl

theorem add_new_all_mem (w : List kk_seg_part_t) : ∀ (s : CBufferedSegPart) (x : kk_seg_part_t),
    x ∈ (s.add_new_all w).s_seg_part → x ∈ s.s_seg_part ∨ x ∈ w := by
  induction w with
  | nil => intro s x h; exact Or.inl h
  | cons a w ih =>
    intro s x h
    simp only [CBufferedSegPart.add_new_all, List.foldl_cons] at h
    rcases ih _ x h with h | h
    · rcases mem_set_emplace h with h | h
      · exact Or.inr (h ▸ List.mem_cons_self _ _)
      · exact Or.inl h
    · exact Or.inr (List.mem_cons_of_mem _ h)

theorem mem_staged_for_iff {m : kmers_map} {g : Nat} {xs : List kk_seg_part_t} {p : seg_part_t} :
    p ∈ staged_for m g xs ↔ ∃ x ∈ xs, kmers_at m x.pair = g ∧ x.toSegPart = p := by
  unfold staged_for
  simp only [List.mem_map, List.mem_filter, decide_eq_true_eq]
  constructor
  · rintro ⟨x, ⟨hx, hg⟩, e⟩
    exact ⟨x, hx, hg, e⟩
  · rintro ⟨x, hx, hg, e⟩
    exact ⟨x, ⟨hx, hg⟩, e⟩

theorem staged_of_wave {s : CBufferedSegPart} {w : List kk_seg_part_t} (h0 : s.s_seg_part = []) :
    ∀ x ∈ (s.add_new_all w).s_seg_part, x ∈ w := by
  intro x hx
  rcases add_new_all_mem w s x hx with h | h
  · rw [h0] at h; exact absurd h (List.not_mem_nil _)
  · exact h

theorem new_pairs_of_wave_le {s : CBufferedSegPart} {w : List kk_seg_part_t}
    (h0 : s.s_seg_part = []) :
    (s.add_new_all w).new_pairs.length ≤ (w.map kk_seg_part_t.pair).toFinset.card := by
  rw [new_pairs_length]
  apply Finset.card_le_card
  intro k hk
  simp only [List.mem_toFinset, List.mem_map] at hk ⊢
  obtain ⟨x, hx, e⟩ := hk
  exact ⟨x, staged_of_wave h0 x hx, e⟩

/-- One wave keeps the invariant: after `add_new` for the parts of `w` and a
`process_new` that returns, the buffers from `n0` on hold parts with pairs of `P` or of
the wave, and no pair occurs in two of them, provided no pair of the wave is in `P`. -/
theorem wave_step (n0 : Nat) (s s1 : CBufferedSegPart) (w : List kk_seg_part_t)
    (P : List (Nat × Nat)) (d : Nat)
    (h0 : s.s_seg_part = []) (hn : s.vl_seg_part.length < U32)
    (h1 : pairs_within n0 s.vl_seg_part P) (h2 : one_group_per_pair n0 s.vl_seg_part)
    (hP : ∀ x ∈ w, x.pair ∉ P)
    (hr : (s.add_new_all w).process_new = some (s1, d)) :
    s1.s_seg_part = [] ∧ s.vl_seg_part.length ≤ s1.vl_seg_part.length ∧
      s1.vl_seg_part.length < U32 ∧
      pairs_within n0 s1.vl_seg_part (P ++ w.map kk_seg_part_t.pair) ∧
      one_group_per_pair n0 s1.vl_seg_part := by
  have hvl : (s.add_new_all w).vl_seg_part = s.vl_seg_part := add_new_all_vl w s
  have hsub := staged_of_wave (w := w) h0
  have hfit := process_new_some_imp_fit (s.add_new_all w) (by rw [hvl]; exact hn) _ hr
  obtain ⟨s1', e1, e2, e3, _, e5, e6⟩ := process_new_spec (s.add_new_all w) hfit
  have hs1 : s1' = s1 := by
    rw [e1] at hr
    exact (Prod.mk.inj (Option.some.inj hr)).1
  subst hs1
  rw [hvl] at e2 e5 e6 hfit
  -- what a buffer holds after the wave
  have hold : ∀ (g : Nat) (b : list_seg_part_t) (p : seg_part_t),
      s1'.vl_seg_part[g]? = some b → p ∈ b.l_seg_part →
      (g < s.vl_seg_part.length ∧ s.vl_seg_part[g]? = some b) ∨
      (s.vl_seg_part.length ≤ g ∧ ∃ x ∈ w, x.toSegPart = p ∧
        kmers_at (s.add_new_all w).new_group_ids x.pair = g) := by
    intro g b p hb hp
    by_cases hg : g < s.vl_seg_part.length
    · left
      have := e5 g _ (List.getElem?_eq_getElem hg)
      rw [this] at hb
      exact ⟨hg, by rw [List.getElem?_eq_getElem hg]; exact hb⟩
    · right
      have hlt : g < s.vl_seg_part.length + (s.add_new_all w).new_pairs.length := by
        rw [← e2]; exact (List.getElem?_eq_some.mp hb).1
      rw [e6 g (by omega) hlt] at hb
      rw [← Option.some.inj hb] at hp
      obtain ⟨x, hx, hxg, hxp⟩ := mem_staged_for_iff.mp hp
      exact ⟨by omega, x, hsub x hx, hxp, hxg⟩
  refine ⟨e3, by omega, by omega, ?_, ?_⟩
  · intro g b p hg hb hp
    rcases hold g b p hb hp with ⟨_, hb'⟩ | ⟨_, x, hx, hxp, _⟩
    · exact List.mem_append_left _ (h1 g b p hg hb' hp)
    · refine List.mem_append_right _ ?_
      rw [← hxp]
      exact List.mem_map_of_mem _ hx
  · intro g1 g2 b1 b2 p1 p2 hg1 hg2 hb1 hb2 hp1 hp2 hpp
    rcases hold g1 b1 p1 hb1 hp1 with ⟨_, hb1'⟩ | ⟨_, x1, hx1, hxp1, hid1⟩
    · rcases hold g2 b2 p2 hb2 hp2 with ⟨_, hb2'⟩ | ⟨_, x2, hx2, hxp2, _⟩
      · exact h2 g1 g2 b1 b2 p1 p2 hg1 hg2 hb1' hb2' hp1 hp2 hpp
      · exfalso
        apply hP x2 hx2
        have := h1 g1 b1 p1 hg1 hb1' hp1
        rw [hpp, ← hxp2] at this
        exact this
    · rcases hold g2 b2 p2 hb2 hp2 with ⟨_, hb2'⟩ | ⟨_, x2, hx2, hxp2, hid2⟩
      · exfalso
        apply hP x1 hx1
        have := h1 g2 b2 p2 hg2 hb2' hp2
        rw [← hpp, ← hxp1] at this
        exact this
      · rw [← hid1, ← hid2]
        have : x1.pair = x2.pair := by
          rw [← hxp1, ← hxp2] at hpp
          exact hpp
        rw [this]

/-- Waves that return keep one group per pair, when no pair is staged in two waves. -/
theorem run_waves_unique (n0 : Nat) : ∀ (waves : List (List kk_seg_part_t))
    (s s' : CBufferedSegPart) (P : List (Nat × Nat)),
    s.s_seg_part = [] → s.vl_seg_part.length < U32 →
    pairs_within n0 s.vl_seg_part P → one_group_per_pair n0 s.vl_seg_part →
    (∀ w ∈ waves, ∀ x ∈ w, x.pair ∉ P) →
    (waves.map (fun w => w.map kk_seg_part_t.pair)).Pairwise List.Disjoint →
    CBufferedSegPart.run_waves waves s = some s' →
    one_group_per_pair n0 s'.vl_seg_part
  | [], s, s', _, _, _, _, h2, _, _, hr => by
    simp only [CBufferedSegPart.run_waves, Option.some.injEq] at hr
    rw [← hr]
    exact h2
  | w :: ws, s, s', P, h0, hn, h1, h2, hP, hdisj, hr => by
    unfold CBufferedSegPart.run_waves at hr
    cases hp : (s.add_new_all w).process_new with
    | none => rw [hp] at hr; exact Option.noConfusion hr
    | some r =>
      rw [hp] at hr
      obtain ⟨e3, _, hn1, i1, i2⟩ := wave_step n0 s r.1 w P r.2 h0 hn h1 h2
        (hP w (List.mem_cons_self _ _)) hp
      have hdisj' := List.pairwise_cons.mp hdisj
      refine run_waves_unique n0 ws r.1 s' (P ++ w.map kk_seg_part_t.pair) e3 hn1 i1 i2 ?_
        hdisj'.2 hr
      intro w' hw' x hx hmem
      rcases List.mem_append.mp hmem with h | h
      · exact hP w' (List.mem_cons_of_mem _ hw') x hx h
      · exact hdisj'.1 (w'.map kk_seg_part_t.pair) (List.mem_map_of_mem _ hw') h
          (List.mem_map_of_mem _ hx)

/-- The waves return when the ids fit in `uint32_t`. -/
theorem run_waves_returns : ∀ (waves : List (List kk_seg_part_t)) (s : CBufferedSegPart),
    s.s_seg_part = [] → s.vl_seg_part.length + waves_pairs waves < U32 →
    ∃ s', CBufferedSegPart.run_waves waves s = some s'
  | [], s, _, _ => ⟨s, rfl⟩
  | w :: ws, s, h0, hfit => by
    have hvl : (s.add_new_all w).vl_seg_part = s.vl_seg_part := add_new_all_vl w s
    have hcard := new_pairs_of_wave_le (w := w) h0
    have hsum : waves_pairs (w :: ws) =
        (w.map kk_seg_part_t.pair).toFinset.card + waves_pairs ws := by
      simp [waves_pairs]
    rw [hsum] at hfit
    obtain ⟨s1, e1, e2, e3, _⟩ := process_new_spec (s.add_new_all w) (by rw [hvl]; omega)
    rw [hvl] at e2
    obtain ⟨s', r1⟩ := run_waves_returns ws s1 e3 (by rw [e2]; omega)
    refine ⟨s', ?_⟩
    simp only [CBufferedSegPart.run_waves, e1]
    exact r1

/-- C4, as stated, fails: `m_kmers` is local to one `process_new` call, so a boundary
pair staged again in a later wave gets a second group id. Here the pair `(1, 2)` is
staged in two waves and ends up in the buffers 0 and 1. -/
theorem pair_restaged_gets_second_group :
    (CBufferedSegPart.run_waves [[part_a], [sample_part]]
        (CBufferedSegPart.mk_groups 0)).map (fun s' => (s'.entries 0, s'.entries 1)) =
      some ([part_a.toSegPart], [sample_part.toSegPart]) ∧
    part_a.toSegPart.pair = sample_part.toSegPart.pair ∧
    ¬ ∀ s', CBufferedSegPart.run_waves [[part_a], [sample_part]]
        (CBufferedSegPart.mk_groups 0) = some s' →
      one_group_per_pair 0 s'.vl_seg_part := by
  refine ⟨by decide, by decide, ?_⟩
  intro h
  have h1 := h ⟨[⟨[part_a.toSegPart], 0⟩, ⟨[sample_part.toSegPart], 0⟩], [], 0⟩ (by decide)
  have h2 := h1 0 1 ⟨[part_a.toSegPart], 0⟩ ⟨[sample_part.toSegPart], 0⟩ part_a.toSegPart
    sample_part.toSegPart (by decide) (by decide) (by decide) (by decide) (by decide)
    (by decide) (by decide)
  exact absurd h2 (by decide)

theorem add_new_all_staged : ∀ (w : List kk_seg_part_t) (s t : CBufferedSegPart),
    s.s_seg_part = t.s_seg_part → (s.add_new_all w).s_seg_part = (t.add_new_all w).s_seg_part
  | [], _, _, h => h
  | x :: w, s, t, h => by
    have e1 : s.add_new_all (x :: w) =
        CBufferedSegPart.add_new_all { s with s_seg_part := set_emplace x s.s_seg_part } w := rfl
    have e2 : t.add_new_all (x :: w) =
        CBufferedSegPart.add_new_all { t with s_seg_part := set_emplace x t.s_seg_part } w := rfl
    rw [e1, e2]
    exact add_new_all_staged w _ _ (by rw [h])

theorem staged_eq_wave_staged {s : CBufferedSegPart} (h0 : s.s_seg_part = [])
    (w : List kk_seg_part_t) : (s.add_new_all w).s_seg_part = wave_staged w :=
  add_new_all_staged w s (CBufferedSegPart.mk_groups 0) h0

/-- Where one `process_new` call puts the parts: a buffer with id at least `n` holds
the staged parts whose pair has that id in `m_kmers`, and nothing else. -/
theorem process_new_buffer_holds (s s' : CBufferedSegPart) (d : Nat)
    (hn : s.vl_seg_part.length < U32) (hr : s.process_new = some (s', d)) :
    s'.s_seg_part = [] ∧
    s'.vl_seg_part.length = s.vl_seg_part.length + s.new_pairs.length ∧
    s'.vl_seg_part.length < U32 ∧
    (∀ (g : Nat) (b : list_seg_part_t), s.vl_seg_part[g]? = some b →
      s'.vl_seg_part[g]? = some b) ∧
    (∀ x ∈ s.s_seg_part, ∃ b, s.vl_seg_part.length ≤ kmers_at s.new_group_ids x.pair ∧
      kmers_at s.new_group_ids x.pair < s'.vl_seg_part.length ∧
      s'.vl_seg_part[kmers_at s.new_group_ids x.pair]? = some b ∧
      x.toSegPart ∈ b.l_seg_part) ∧
    (∀ (g : Nat) (b : list_seg_part_t) (p : seg_part_t), s.vl_seg_part.length ≤ g →
      s'.vl_seg_part[g]? = some b → p ∈ b.l_seg_part →
      ∃ y ∈ s.s_seg_part, kmers_at s.new_group_ids y.pair = g ∧ y.toSegPart = p) := by
  have hfit := process_new_some_imp_fit s hn _ hr
  obtain ⟨s'', h1, h2, h3, _, h5, h6⟩ := process_new_spec s hfit
  have e : s'' = s' := by
    rw [h1] at hr
    exact (Prod.mk.inj (Option.some.inj hr)).1
  subst e
  refine ⟨h3, h2, by omega, h5, ?_, ?_⟩
  · intro x hx
    have hid := new_group_id_eq s hfit (mem_new_pairs.mpr ⟨x, hx, rfl⟩)
    have hlt := key_index_lt (mem_new_pairs.mpr ⟨x, hx, rfl⟩)
    exact ⟨_, by omega, by omega, h6 _ (by omega) (by omega), mem_staged_for.mpr ⟨hx, rfl⟩⟩
  · intro g b p hg hb hp
    have hlt : g < s.vl_seg_part.length + s.new_pairs.length := by
      rw [← h2]; exact (List.getElem?_eq_some.mp hb).1
    rw [h6 g hg hlt] at hb
    rw [← Option.some.inj hb] at hp
    exact mem_staged_for_iff.mp hp

/-- Waves that return keep the buffers they find. -/
theorem run_waves_keeps : ∀ (waves : List (List kk_seg_part_t)) (s s' : CBufferedSegPart),
    s.s_seg_part = [] → s.vl_seg_part.length < U32 →
    CBufferedSegPart.run_waves waves s = some s' →
    s.vl_seg_part.length ≤ s'.vl_seg_part.length ∧
    ∀ (g : Nat) (b : list_seg_part_t), s.vl_seg_part[g]? = some b →
      s'.vl_seg_part[g]? = some b
  | [], s, s', _, _, hr => by
    simp only [CBufferedSegPart.run_waves, Option.some.injEq] at hr
    rw [← hr]
    exact ⟨le_refl _, fun _ _ h => h⟩
  | w :: ws, s, s', h0, hn, hr => by
    unfold CBufferedSegPart.run_waves at hr
    cases hp : (s.add_new_all w).process_new with
    | none => rw [hp] at hr; exact Option.noConfusion hr
    | some r =>
      rw [hp] at hr
      have hvl : (s.add_new_all w).vl_seg_part = s.vl_seg_part := add_new_all_vl w s
      obtain ⟨e1, e2, e3, e4, _, _⟩ := process_new_buffer_holds (s.add_new_all w) r.1 r.2
        (by rw [hvl]; exact hn) hp
      rw [hvl] at e2 e4
      obtain ⟨i1, i2⟩ := run_waves_keeps ws r.1 s' e1 e3 hr
      exact ⟨by omega, fun g b hb => i2 g b (e4 g b hb)⟩

/-- Every part staged in a wave lies in a buffer created by the waves. -/
theorem run_waves_places : ∀ (waves : List (List kk_seg_part_t)) (s s' : CBufferedSegPart),
    s.s_seg_part = [] → s.vl_seg_part.length < U32 →
    CBufferedSegPart.run_waves waves s = some s' →
    ∀ w ∈ waves, ∀ x ∈ wave_staged w, ∃ (g : Nat) (b : list_seg_part_t),
      s.vl_seg_part.length ≤ g ∧ s'.vl_seg_part[g]? = some b ∧ x.toSegPart ∈ b.l_seg_part
  | [], _, _, _, _, _ => fun _ hw => absurd hw (List.not_mem_nil _)
  | w :: ws, s, s', h0, hn, hr => by
    unfold CBufferedSegPart.run_waves at hr
    cases hp : (s.add_new_all w).process_new with
    | none => rw [hp] at hr; exact Option.noConfusion hr
    | some r =>
      rw [hp] at hr
      have hvl : (s.add_new_all w).vl_seg_part = s.vl_seg_part := add_new_all_vl w s
      obtain ⟨e1, e2, e3, _, e5, _⟩ := process_new_buffer_holds (s.add_new_all w) r.1 r.2
        (by rw [hvl]; exact hn) hp
      rw [hvl] at e2 e5
      rw [staged_eq_wave_staged h0] at e5
      obtain ⟨i1, i2⟩ := run_waves_keeps ws r.1 s' e1 e3 hr
      intro w' hw' x hx
      rcases List.mem_cons.mp hw' with h | h
      · subst h
        obtain ⟨b, c1, _, c3, c4⟩ := e5 x hx
        exact ⟨_, b, c1, i2 _ b c3, c4⟩
      · obtain ⟨g, b, c1, c2, c3⟩ := run_waves_places ws r.1 s' e1 e3 hr w' h x hx
        exact ⟨g, b, by omega, c2, c3⟩

/-- Parts staged in two different waves lie in two different buffers, the part of the
later wave in the one with the higher id. -/
theorem run_waves_later : ∀ (waves : List (List kk_seg_part_t)) (s s' : CBufferedSegPart),
    s.s_seg_part = [] → s.vl_seg_part.length < U32 →
    CBufferedSegPart.run_waves waves s = some s' →
    ∀ (i j : Nat) (w1 w2 : List kk_seg_part_t) (x1 x2 : kk_seg_part_t), i < j →
      waves[i]? = some w1 → waves[j]? = some w2 → x1 ∈ wave_staged w1 → x2 ∈ wave_staged w2 →
      ∃ (g1 g2 : Nat) (b1 b2 : list_seg_part_t), s.vl_seg_part.length ≤ g1 ∧ g1 < g2 ∧
        s'.vl_seg_part[g1]? = some b1 ∧ s'.vl_seg_part[g2]? = some b2 ∧
        x1.toSegPart ∈ b1.l_seg_part ∧ x2.toSegPart ∈ b2.l_seg_part
  | [], _, _, _, _, _ => fun _ _ _ _ _ _ _ h => by simp at h
  | w :: ws, s, s', h0, hn, hr => by
    have hr0 := hr
    unfold CBufferedSegPart.run_waves at hr
    cases hp : (s.add_new_all w).process_new with
    | none => rw [hp] at hr; exact Option.noConfusion hr
    | some r =>
      rw [hp] at hr
      have hvl : (s.add_new_all w).vl_seg_part = s.vl_seg_part := add_new_all_vl w s
      obtain ⟨e1, e2, e3, _, e5, _⟩ := process_new_buffer_holds (s.add_new_all w) r.1 r.2
        (by rw [hvl]; exact hn) hp
      rw [hvl] at e2 e5
      rw [staged_eq_wave_staged h0] at e5
      obtain ⟨i1, i2⟩ := run_waves_keeps ws r.1 s' e1 e3 hr
      intro i j w1 w2 x1 x2 hij hw1 hw2 hx1 hx2
      cases j with
      | zero => omega
      | succ j =>
        rw [List.getElem?_cons_succ] at hw2
        cases i with
        | zero =>
          rw [List.getElem?_cons_zero] at hw1
          have hw := Option.some.inj hw1
          subst hw
          obtain ⟨b1, c1, c2, c3, c4⟩ := e5 x1 hx1
          obtain ⟨g2, b2, k1, k2, k3⟩ := run_waves_places ws r.1 s' e1 e3 hr w2
            (List.mem_iff_getElem?.mpr ⟨j, hw2⟩) x2 hx2
          exact ⟨_, g2, b1, b2, c1, by omega, i2 _ b1 c3, k2, c4, k3⟩
        | succ i =>
          rw [List.getElem?_cons_succ] at hw1
          obtain ⟨g1, g2, b1, b2, k1, k2, k3, k4, k5, k6⟩ :=
            run_waves_later ws r.1 s' e1 e3 hr i j w1 w2 x1 x2 (by omega) hw1 hw2 hx1 hx2
          exact ⟨g1, g2, b1, b2, by omega, k2, k3, k4, k5, k6⟩

/-- C4 (amended): within one `process_new` call a boundary pair is given exactly one
group id: the staged parts with that pair lie in one new buffer and no other new buffer
holds a part with that pair. For every sequence of ingestion waves (`add_new` calls
ended by `process_new`) on a partitioner whose staged set is empty at the start, the
waves return when the ids fit in `uint32_t`, and whenever they return: every part staged
in a wave lies in a group buffer created by `process_new`; if no boundary pair is staged
in two different waves, no two group buffers created by `process_new` hold parts with
the same boundary pair; and parts staged in two different waves lie in two different
buffers, so that a pair staged again in a later wave is given a further group id. -/
theorem one_group_per_pair_over_waves (s : CBufferedSegPart)
    (waves : List (List kk_seg_part_t)) (h0 : s.s_seg_part = [])
    (hn : s.vl_seg_part.length < U32) :
    (∀ (t t' : CBufferedSegPart) (d : Nat), t.vl_seg_part.length < U32 →
      t.process_new = some (t', d) → ∀ x ∈ t.s_seg_part,
      ∃ g : Nat, t.vl_seg_part.length ≤ g ∧
        (∃ b, t'.vl_seg_part[g]? = some b ∧ x.toSegPart ∈ b.l_seg_part) ∧
        (∀ y ∈ t.s_seg_part, y.pair = x.pair →
          ∃ b, t'.vl_seg_part[g]? = some b ∧ y.toSegPart ∈ b.l_seg_part) ∧
        ∀ (g' : Nat) (b' : list_seg_part_t) (p : seg_part_t), t.vl_seg_part.length ≤ g' →
          t'.vl_seg_part[g']? = some b' → p ∈ b'.l_seg_part → p.pair = x.pair → g' = g) ∧
    (s.vl_seg_part.length + waves_pairs waves < U32 →
      ∃ s', CBufferedSegPart.run_waves waves s = some s') ∧
    ∀ s', CBufferedSegPart.run_waves waves s = some s' →
      (∀ w ∈ waves, ∀ x ∈ wave_staged w, ∃ (g : Nat) (b : list_seg_part_t),
        s.vl_seg_part.length ≤ g ∧ s'.vl_seg_part[g]? = some b ∧
        x.toSegPart ∈ b.l_seg_part) ∧
      ((waves.map (fun w => w.map kk_seg_part_t.pair)).Pairwise List.Disjoint →
        ∀ (g1 g2 : Nat) (b1 b2 : list_seg_part_t) (p1 p2 : seg_part_t),
          s.vl_seg_part.length ≤ g1 → s.vl_seg_part.length ≤ g2 →
          s'.vl_seg_part[g1]? = some b1 → s'.vl_seg_part[g2]? = some b2 →
          p1 ∈ b1.l_seg_part → p2 ∈ b2.l_seg_part → p1.pair = p2.pair → g1 = g2) ∧
      (∀ (i j : Nat) (w1 w2 : List kk_seg_part_t) (x1 x2 : kk_seg_part_t), i < j →
        waves[i]? = some w1 → waves[j]? = some w2 →
        x1 ∈ wave_staged w1 → x2 ∈ wave_staged w2 → x1.pair = x2.pair →
        ∃ (g1 g2 : Nat) (b1 b2 : list_seg_part_t), s.vl_seg_part.length ≤ g1 ∧ g1 < g2 ∧
          s'.vl_seg_part[g1]? = some b1 ∧ s'.vl_seg_part[g2]? = some b2 ∧
          x1.toSegPart ∈ b1.l_seg_part ∧ x2.toSegPart ∈ b2.l_seg_part) := by
  refine ⟨?_, run_waves_returns waves s h0, ?_⟩
  · intro t t' d ht hr x hx
    have hfit := process_new_some_imp_fit t ht _ hr
    obtain ⟨_, _, _, _, e5, e6⟩ := process_new_buffer_holds t t' d ht hr
    obtain ⟨b, c1, _, c3, c4⟩ := e5 x hx
    refine ⟨_, c1, ⟨b, c3, c4⟩, ?_, ?_⟩
    · intro y hy hyx
      obtain ⟨b2, _, _, k3, k4⟩ := e5 y hy
      rw [hyx] at k3
      exact ⟨b2, k3, k4⟩
    · intro g' b' p hg' hb' hp hpx
      obtain ⟨y, hy, hyg, hyp⟩ := e6 g' b' p hg' hb' hp
      rw [← hyg]
      have : y.pair = x.pair := by
        rw [← hpx, ← hyp]
        rfl
      rw [this]
  · intro s' hr
    refine ⟨run_waves_places waves s s' h0 hn hr, ?_, ?_⟩
    · intro hdisj
      refine run_waves_unique s.vl_seg_part.length waves s s' [] h0 hn ?_ ?_ ?_ hdisj hr
      · intro g b p hg hb _
        have := (List.getElem?_eq_some.mp hb).1
        omega
      · intro g1 _ b1 _ _ _ hg1 _ hb1
        have := (List.getElem?_eq_some.mp hb1).1
        omega
      · intro _ _ _ _ h
        exact absurd h (List.not_mem_nil _)
    · intro i j w1 w2 x1 x2 hij hw1 hw2 hx1 hx2 _
      exact run_waves_later waves s s' h0 hn hr i j w1 w2 x1 x2 hij hw1 hw2 hx1 hx2

theorem one_group_per_pair_over_waves_witness :
    (∃ s', CBufferedSegPart.run_waves [[part_a, sample_part], [part_c]]
        (CBufferedSegPart.mk_groups 1) = some s') ∧
    ∀ s', CBufferedSegPart.run_waves [[part_a, sample_part], [part_c]]
        (CBufferedSegPart.mk_groups 1) = some s' →
      (∃ (g : Nat) (b : list_seg_part_t), 1 ≤ g ∧ s'.vl_seg_part[g]? = some b ∧
        part_c.toSegPart ∈ b.l_seg_part) ∧
      one_group_per_pair 1 s'.vl_seg_part :=
  have h := one_group_per_pair_over_waves (CBufferedSegPart.mk_groups 1)
    [[part_a, sample_part], [part_c]] rfl (by decide)
  ⟨h.2.1 (by decide), fun s' hr =>
    ⟨((h.2.2 s' hr).1 [part_c] (by decide) part_c (by decide)),
     (h.2.2 s' hr).2.1
      (by simp [List.Disjoint, kk_seg_part_t.pair, part_a, sample_part, part_c])⟩⟩

/-! ## C5: `sort_known` -/

theorem sort_loop_spec (vl0 : List list_seg_part_t) : ∀ (k j : Nat) (cur : List list_seg_part_t),
    sorted_upto vl0 j cur → j + k ≤ vl0.length → j + k < U32 →
    ∃ cur', sort_loop k j cur = some cur' ∧ sorted_upto vl0 (j + k) cur'
  | 0, j, cur, h, _, _ => ⟨cur, rfl, h⟩
  | k + 1, j, cur, h, hlen, hlt => by
    have hj : j < vl0.length := by omega
    have hcj : cur[j]? = some vl0[j] := by
      rw [h j, if_neg (lt_irrefl j), List.getElem?_eq_getElem hj]
    have hcl : j < cur.length := (List.getElem?_eq_some.mp hcj).1
    have hnext : sorted_upto vl0 (j + 1) (cur.set j (vl0[j]).sort) := by
      intro i
      rw [List.getElem?_set]
      by_cases hij : j = i
      · subst hij
        simp [hcl, List.getElem?_eq_getElem hj]
      · rw [if_neg hij, h i]
        by_cases hlt' : i < j
        · rw [if_pos hlt', if_pos (by omega)]
        · rw [if_neg hlt', if_neg (by omega)]
    obtain ⟨cur', e1, e2⟩ := sort_loop_spec vl0 k (j + 1) _ hnext (by omega) (by omega)
    refine ⟨cur', ?_, by rw [show j + (k + 1) = j + 1 + k by omega]; exact e2⟩
    unfold sort_loop
    simp only [sort_at, hcj]
    rw [if_pos (by omega)]
    exact e1

theorem mul_lt_U64 {a b : Nat} (ha : a < U32) (hb : b < U32) : a * b < U64 := by
  have h : a * b < U32 * U32 := Nat.mul_lt_mul'' ha hb
  have e : U32 * U32 = U64 := by decide
  rw [e] at h
  exact h

theorem sort_thread_spec (vl0 : List list_seg_part_t) (nt i : Nat) (cur : List list_seg_part_t)
    (hn : vl0.length < U32) (hnt : nt < U32) (hi : i < nt)
    (h : sorted_upto vl0 (i * vl0.length / nt) cur) :
    ∃ cur', sort_thread nt vl0.length i cur = some cur' ∧
      sorted_upto vl0 ((i + 1) * vl0.length / nt) cur' := by
  have hpos : 0 < nt := by omega
  have m1 : i * vl0.length % U64 = i * vl0.length :=
    Nat.mod_eq_of_lt (mul_lt_U64 (by omega) hn)
  have hto : (i + 1) * vl0.length / nt ≤ vl0.length := by
    apply Nat.div_le_of_le_mul
    exact Nat.mul_le_mul_right _ (by omega)
  have hmono : i * vl0.length / nt ≤ (i + 1) * vl0.length / nt :=
    Nat.div_le_div_right (Nat.mul_le_mul_right _ (by omega))
  have m2 : (i + 1) * vl0.length % U64 = (i + 1) * vl0.length := by
    apply Nat.mod_eq_of_lt
    by_cases hi1 : i + 1 < U32
    · exact mul_lt_U64 hi1 hn
    · have e : i + 1 = nt := by omega
      rw [e]
      exact mul_lt_U64 hnt hn
  have m3 : i * vl0.length / nt % U32 = i * vl0.length / nt :=
    Nat.mod_eq_of_lt (by omega)
  obtain ⟨cur', e1, e2⟩ := sort_loop_spec vl0
    ((i + 1) * vl0.length / nt - i * vl0.length / nt) (i * vl0.length / nt) cur h
    (by omega) (by omega)
  refine ⟨cur', ?_, ?_⟩
  · unfold sort_thread
    simp only [m1, m2, m3]
    exact e1
  · rw [show (i + 1) * vl0.length / nt =
      i * vl0.length / nt + ((i + 1) * vl0.length / nt - i * vl0.length / nt) by omega]
    exact e2

theorem sort_threads_spec (vl0 : List list_seg_part_t) (nt : Nat) (hn : vl0.length < U32)
    (hnt : nt < U32) : ∀ (c i : Nat) (cur : List list_seg_part_t), i + c = nt →
    sorted_upto vl0 (i * vl0.length / nt) cur →
    ∃ cur', sort_threads nt vl0.length c i cur = some cur' ∧
      sorted_upto vl0 (nt * vl0.length / nt) cur'
  | 0, i, cur, hic, h => by
    have e : i = nt := by omega
    subst e
    exact ⟨cur, rfl, h⟩
  | c + 1, i, cur, hic, h => by
    obtain ⟨cur1, e1, e2⟩ := sort_thread_spec vl0 nt i cur hn hnt (by omega) h
    obtain ⟨cur', e3, e4⟩ := sort_threads_spec vl0 nt hn hnt c (i + 1) cur1 (by omega) e2
    refine ⟨cur', ?_, e4⟩
    unfold sort_threads
    simp only [e1]
    exact e3

theorem sorted_upto_all {vl0 cur : List list_seg_part_t} (h : sorted_upto vl0 vl0.length cur) :
    cur = vl0.map list_seg_part_t.sort := by
  apply List.ext_getElem?
  intro i
  rw [h i, List.getElem?_map]
  by_cases hi : i < vl0.length
  · rw [if_pos hi]
  · rw [if_neg hi, List.getElem?_eq_none (by omega)]
    rfl

/-- Closed form of `sort_known`: every buffer is replaced by its sorted version. -/
theorem sort_known_eq (s : CBufferedSegPart) (nt : Nat) (h1 : 1 ≤ nt) (hnt : nt < U32)
    (hn : s.vl_seg_part.length < U32) :
    s.sort_known nt = some { s with vl_seg_part := s.vl_seg_part.map list_seg_part_t.sort } := by
  obtain ⟨cur', e1, e2⟩ := sort_threads_spec s.vl_seg_part nt hn hnt nt 0 s.vl_seg_part
    (by omega) (by
      intro i
      simp)
  rw [Nat.mul_div_cancel_left _ (by omega : 0 < nt)] at e2
  unfold CBufferedSegPart.sort_known
  simp only [e1, sorted_upto_all e2]

/-- C5: for every thread count `1 <= nt` (a `uint32_t`) and every partitioner state (its
number of buffers is below `2^32`, the vector being sized through `uint32_t` values
only), `sort_known(nt)` returns, no buffer is skipped, every buffer holds a permutation
of its former entries in non-decreasing order of
`(sample_name, contig_name, seg_part_no)`, so that the parts of one contig appear in
non-decreasing `seg_part_no`; the read cursors, the number of buffers and the staged set
are unchanged. -/
theorem sort_known_sorts_every_buffer (s : CBufferedSegPart) (nt : Nat) (h1 : 1 ≤ nt)
    (hnt : nt < U32) (hn : s.vl_seg_part.length < U32) :
    ∃ s', s.sort_known nt = some s' ∧
      s'.vl_seg_part.length = s.vl_seg_part.length ∧
      s'.s_seg_part = s.s_seg_part ∧
      ∀ (g : Nat) (b : list_seg_part_t), s.vl_seg_part[g]? = some b →
        ∃ b', s'.vl_seg_part[g]? = some b' ∧
          b'.l_seg_part.Perm b.l_seg_part ∧
          b'.l_seg_part.Pairwise (fun x y => y.lt x = false) ∧
          b'.l_seg_part.Pairwise (fun x y => x.sample_name = y.sample_name →
            x.contig_name = y.contig_name → x.seg_part_no ≤ y.seg_part_no) ∧
          b'.virt_begin = b.virt_begin := by
  refine ⟨_, sort_known_eq s nt h1 hnt hn, by simp, rfl, ?_⟩
  intro g b hb
  have hsorted : (b.l_seg_part.insertionSort seg_part_t.le).Pairwise
      (fun x y => y.lt x = false) := List.sorted_insertionSort seg_part_t.le b.l_seg_part
  refine ⟨b.sort, by simp [List.getElem?_map, hb], ?_, hsorted, ?_, rfl⟩
  · exact List.perm_insertionSort seg_part_t.le b.l_seg_part
  · refine hsorted.imp ?_
    intro x y hxy e1 e2
    have hn : ¬ y.lt x = true := by simp [hxy]
    rw [seg_lt_iff] at hn
    by_contra hlt
    exact hn (Or.inr ⟨e1.symm, Or.inr ⟨e2.symm, by omega⟩⟩)

theorem sort_known_sorts_every_buffer_witness :
    ∃ s', unsorted_state.sort_known 2 = some s' ∧
      s'.vl_seg_part.length = unsorted_state.vl_seg_part.length ∧
      s'.s_seg_part = unsorted_state.s_seg_part ∧
      ∀ (g : Nat) (b : list_seg_part_t), unsorted_state.vl_seg_part[g]? = some b →
        ∃ b', s'.vl_seg_part[g]? = some b' ∧
          b'.l_seg_part.Perm b.l_seg_part ∧
          b'.l_seg_part.Pairwise (fun x y => y.lt x = false) ∧
          b'.l_seg_part.Pairwise (fun x y => x.sample_name = y.sample_name →
            x.contig_name = y.contig_name → x.seg_part_no ≤ y.seg_part_no) ∧
          b'.virt_begin = b.virt_begin :=
  sort_known_sorts_every_buffer unsorted_state 2 (by decide) (by decide) (by decide)

/-! ## C6: draining one buffer with `get_part` -/

theorem get_part_of_lt {s : CBufferedSegPart} {g : Nat} {b : list_seg_part_t} (out : seg_part_t)
    (hb : s.vl_seg_part[g]? = some b) (hv : b.virt_begin < b.l_seg_part.length) :
    s.get_part (g : Int) out =
      some (true, s.with_buffer g (b.popped (b.l_seg_part[b.virt_begin])),
        b.l_seg_part[b.virt_begin]) := by
  unfold CBufferedSegPart.get_part
  rw [if_neg (by omega)]
  simp only [Int.toNat_ofNat, hb, list_seg_part_t.pop_fields, List.getElem?_eq_getElem hv]
  rfl

theorem get_part_of_ge {s : CBufferedSegPart} {g : Nat} {b : list_seg_part_t} (out : seg_part_t)
    (hb : s.vl_seg_part[g]? = some b) (hv : b.l_seg_part.length ≤ b.virt_begin) :
    s.get_part (g : Int) out =
      some (false, s.with_buffer g { l_seg_part := [], virt_begin := 0 }, out) := by
  unfold CBufferedSegPart.get_part
  rw [if_neg (by omega)]
  simp only [Int.toNat_ofNat, hb, list_seg_part_t.pop_fields, List.getElem?_eq_none hv]
  rfl

theorem get_parts_spec (g : Nat) : ∀ (k : Nat) (s : CBufferedSegPart) (b : list_seg_part_t)
    (out : seg_part_t), s.vl_seg_part[g]? = some b →
    b.virt_begin + k ≤ b.l_seg_part.length →
    ∃ s' b', s.get_parts (g : Int) k out =
        some (((b.l_seg_part.drop b.virt_begin).take k).map (fun p => (true, p)), s') ∧
      s'.vl_seg_part[g]? = some b' ∧
      b'.l_seg_part.length = b.l_seg_part.length ∧
      b'.virt_begin = b.virt_begin + k ∧
      b'.l_seg_part.drop (b.virt_begin + k) = b.l_seg_part.drop (b.virt_begin + k) ∧
      s'.vl_seg_part.length = s.vl_seg_part.length ∧
      (∀ i : Nat, i ≠ g → s'.vl_seg_part[i]? = s.vl_seg_part[i]?) ∧
      s'.s_seg_part = s.s_seg_part
  | 0, s, b, _, hb, _ => ⟨s, b, by simp [CBufferedSegPart.get_parts], hb, rfl, rfl, rfl, rfl,
      fun _ _ => rfl, rfl⟩
  | k + 1, s, b, out, hb, hk => by
    have hv : b.virt_begin < b.l_seg_part.length := by omega
    have hg : g < s.vl_seg_part.length := (List.getElem?_eq_some.mp hb).1
    have h1 := get_part_of_lt out hb hv
    obtain ⟨s', b', e1, e2, e3, e4, e5, e6, e7, e8⟩ := get_parts_spec g k
      (s.with_buffer g (b.popped (b.l_seg_part[b.virt_begin])))
      (b.popped (b.l_seg_part[b.virt_begin]))
      (b.l_seg_part[b.virt_begin])
      (by simp [CBufferedSegPart.with_buffer, List.getElem?_set, hg])
      (by simp only [list_seg_part_t.popped, List.length_set]; omega)
    simp only [list_seg_part_t.popped, CBufferedSegPart.with_buffer, List.length_set]
      at e1 e3 e4 e5 e6 e7 e8
    have hdrop : List.drop (b.virt_begin + 1)
        (b.l_seg_part.set b.virt_begin (b.l_seg_part[b.virt_begin]).moved_from) =
        List.drop (b.virt_begin + 1) b.l_seg_part :=
      List.drop_set_of_lt _ _ (by omega)
    refine ⟨s', b', ?_, e2, e3, by rw [e4]; omega, ?_, e6, ?_, e8⟩
    · unfold CBufferedSegPart.get_parts
      simp only [h1, list_seg_part_t.popped, CBufferedSegPart.with_buffer, e1, hdrop]
      rw [List.drop_eq_getElem_cons hv, List.take_succ_cons, List.map_cons]
    · rw [show b.virt_begin + (k + 1) = b.virt_begin + 1 + k by omega, e5]
      exact List.drop_set_of_lt _ _ (by omega)
    · intro i hi
      rw [e7 i hi]
      simp only [List.getElem?_set, if_neg (Ne.symm hi)]

theorem last_out_cons (a : Bool × seg_part_t) (l : List (Bool × seg_part_t))
    (out : seg_part_t) : last_out (a :: l) out = last_out l a.2 := by
  unfold last_out
  cases l with
  | nil => rfl
  | cons c l => rw [List.getLast?_cons_cons]; rfl

theorem last_out_map_true (l : List seg_part_t) (out : seg_part_t) :
    last_out (l.map (fun p => (true, p))) out = (l.getLast?).getD out := by
  induction l generalizing out with
  | nil => rfl
  | cons a l ih =>
    rw [List.map_cons, last_out_cons, ih]
    cases l with
    | nil => rfl
    | cons c l => rw [List.getLast?_cons_cons]; rfl

/-- One more call after a run of `k` calls: it is made in the state and with the
reference arguments that the run has left. -/
theorem get_parts_succ (g : Int) : ∀ (k : Nat) (s : CBufferedSegPart) (out : seg_part_t)
    (l : List (Bool × seg_part_t)) (s' : CBufferedSegPart),
    s.get_parts g k out = some (l, s') →
    s.get_parts g (k + 1) out =
      (s'.get_part g (last_out l out)).map (fun r => (l ++ [(r.1, r.2.2)], r.2.1))
  | 0, s, out, l, s', h => by
    simp only [CBufferedSegPart.get_parts, Option.some.injEq, Prod.mk.injEq] at h
    obtain ⟨hl, hs⟩ := h
    subst hl
    subst hs
    have e0 : last_out [] out = out := rfl
    have e1 : s.get_parts g (0 + 1) out =
        match s.get_part g out with
        | none => none
        | some r =>
          match CBufferedSegPart.get_parts g 0 r.2.1 r.2.2 with
          | none => none
          | some q => some ((r.1, r.2.2) :: q.1, q.2) := rfl
    rw [e1, e0]
    cases s.get_part g out with
    | none => rfl
    | some r => rfl
  | k + 1, s, out, l, s', h => by
    have e1 : ∀ (n : Nat), s.get_parts g (n + 1) out =
        match s.get_part g out with
        | none => none
        | some r =>
          match CBufferedSegPart.get_parts g n r.2.1 r.2.2 with
          | none => none
          | some q => some ((r.1, r.2.2) :: q.1, q.2) := fun _ => rfl
    rw [e1 k] at h
    rw [e1 (k + 1)]
    cases hp : s.get_part g out with
    | none => rw [hp] at h; exact Option.noConfusion h
    | some r =>
      rw [hp] at h
      simp only [] at h ⊢
      cases hq : CBufferedSegPart.get_parts g k r.2.1 r.2.2 with
      | none => rw [hq] at h; exact Option.noConfusion h
      | some q =>
        rw [hq] at h
        simp only [Option.some.injEq, Prod.mk.injEq] at h
        obtain ⟨hl, hs⟩ := h
        subst hl
        subst hs
        rw [get_parts_succ g k r.2.1 r.2.2 q.1 q.2 hq, last_out_cons]
        cases q.2.get_part g (last_out q.1 r.2.2) with
        | none => rfl
        | some r2 => rfl

/-- C6: for every group buffer `g` whose read cursor is 0 and which stores the parts
`p_0, ..., p_{m-1}`, the first `k <= m` consecutive `get_part(g)` calls all return true
and deliver `p_0, ..., p_{k-1}` in stored order with their seven fields; after them the
stored vector still has `m` entries, the cursor is `k` and the entries not yet read are
untouched. In the state left by the `m` calls a further call returns false whatever its
reference arguments hold, leaves them as they are and resets the buffer to zero stored
entries with cursor 0; so the run of `m + 1` consecutive calls returns `m` times true
with `p_0, ..., p_{m-1}` and then false with the arguments left by the `m`-th call, and
ends with buffer `g` empty and its cursor 0. -/
theorem get_part_drains_in_stored_order (s : CBufferedSegPart) (g : Nat) (b : list_seg_part_t)
    (out : seg_part_t) (hb : s.vl_seg_part[g]? = some b) (hv : b.virt_begin = 0) :
    (∀ k : Nat, k ≤ b.l_seg_part.length →
      ∃ s' b', s.get_parts (g : Int) k out =
          some ((b.l_seg_part.take k).map (fun p => (true, p)), s') ∧
        s'.vl_seg_part[g]? = some b' ∧
        b'.l_seg_part.length = b.l_seg_part.length ∧
        b'.virt_begin = k ∧
        b'.l_seg_part.drop k = b.l_seg_part.drop k) ∧
    ∃ s' b', s.get_parts (g : Int) b.l_seg_part.length out =
        some (b.l_seg_part.map (fun p => (true, p)), s') ∧
      s'.vl_seg_part[g]? = some b' ∧
      (∀ out' : seg_part_t, s'.get_part (g : Int) out' =
        some (false, s'.with_buffer g { l_seg_part := [], virt_begin := 0 }, out')) ∧
      s.get_parts (g : Int) (b.l_seg_part.length + 1) out =
        some (b.l_seg_part.map (fun p => (true, p)) ++
            [(false, (b.l_seg_part.getLast?).getD out)],
          s'.with_buffer g { l_seg_part := [], virt_begin := 0 }) ∧
      (s'.with_buffer g { l_seg_part := [], virt_begin := 0 }).vl_seg_part[g]? =
        some { l_seg_part := [], virt_begin := 0 } ∧
      (s'.with_buffer g { l_seg_part := [], virt_begin := 0 }).vl_seg_part.length =
        s.vl_seg_part.length := by
  constructor
  · intro k hk
    obtain ⟨s', b', e1, e2, e3, e4, e5, _⟩ := get_parts_spec g k s b out hb (by omega)
    rw [hv] at e1 e4 e5
    simp only [List.drop_zero, Nat.zero_add] at e1 e4 e5
    exact ⟨s', b', e1, e2, e3, e4, e5⟩
  · obtain ⟨s', b', e1, e2, e3, e4, _, e6, _⟩ :=
      get_parts_spec g b.l_seg_part.length s b out hb (by omega)
    rw [hv] at e1 e4
    simp only [List.drop_zero, Nat.zero_add, List.take_length] at e1 e4
    have hfalse : ∀ out' : seg_part_t, s'.get_part (g : Int) out' =
        some (false, s'.with_buffer g { l_seg_part := [], virt_begin := 0 }, out') :=
      fun out' => get_part_of_ge out' e2 (by omega)
    have hg : g < s'.vl_seg_part.length := (List.getElem?_eq_some.mp e2).1
    refine ⟨s', b', e1, e2, hfalse, ?_, ?_, ?_⟩
    · rw [get_parts_succ (g : Int) b.l_seg_part.length s out _ s' e1, hfalse,
        last_out_map_true]
      rfl
    · simp [CBufferedSegPart.with_buffer, List.getElem?_set, hg]
    · simp [CBufferedSegPart.with_buffer, e6]

theorem get_part_drains_in_stored_order_witness :
    ∃ s' b', unsorted_state.get_parts ((1 : Nat) : Int) 3 seg_part_t.default =
        some ([part_c.toSegPart, sample_part.toSegPart, part_a.toSegPart].map
          (fun p => (true, p)), s') ∧
      s'.vl_seg_part[1]? = some b' ∧
      (∀ out' : seg_part_t, s'.get_part ((1 : Nat) : Int) out' =
        some (false, s'.with_buffer 1 { l_seg_part := [], virt_begin := 0 }, out')) ∧
      unsorted_state.get_parts ((1 : Nat) : Int) (3 + 1) seg_part_t.default =
        some ([part_c.toSegPart, sample_part.toSegPart, part_a.toSegPart].map
            (fun p => (true, p)) ++ [(false, part_a.toSegPart)],
          s'.with_buffer 1 { l_seg_part := [], virt_begin := 0 }) ∧
      (s'.with_buffer 1 { l_seg_part := [], virt_begin := 0 }).vl_seg_part[1]? =
        some { l_seg_part := [], virt_begin := 0 } ∧
      (s'.with_buffer 1 { l_seg_part := [], virt_begin := 0 }).vl_seg_part.length = 3 :=
  (get_part_drains_in_stored_order unsorted_state 1
    { l_seg_part := [part_c.toSegPart, sample_part.toSegPart, part_a.toSegPart],
      virt_begin := 0 } seg_part_t.default (by decide) rfl).2

/-! ## C7: `distribute_segments` redistributes -/

theorem flatMap_set_perm_cons {β : Type} (f : list_seg_part_t → List β) (p : β)
    (b b' : list_seg_part_t) (hf : f b = p :: f b') :
    ∀ (vl : List list_seg_part_t) (i : Nat), vl[i]? = some b →
    (vl.flatMap f).Perm (p :: (vl.set i b').flatMap f)
  | [], i, h => by simp at h
  | a :: vl, 0, h => by
    simp only [List.getElem?_cons_zero, Option.some.injEq] at h
    subst h
    simp only [List.set_cons_zero, List.flatMap_cons, hf, List.cons_append]
    exact List.Perm.refl _
  | a :: vl, i + 1, h => by
    simp only [List.getElem?_cons_succ] at h
    simp only [List.set_cons_succ, List.flatMap_cons]
    have ih := flatMap_set_perm_cons f p b b' hf vl i h
    exact (List.Perm.append_left (f a) ih).trans (perm_cons_middle p (f a) _)

theorem distribute_move_spec {src dcur : Nat} {vl : List list_seg_part_t}
    {b d : list_seg_part_t} (sp : seg_part_t) (hne : dcur ≠ src)
    (hb : vl[src]? = some b) (hd : vl[dcur]? = some d)
    (hv : b.virt_begin < b.l_seg_part.length) (hdv : d.virt_begin ≤ d.l_seg_part.length) :
    ∃ vl', distribute_move src dcur sp vl =
        some (vl', (b.l_seg_part[b.virt_begin]).moved_from) ∧
      vl' = (vl.set src (b.popped (b.l_seg_part[b.virt_begin]))).set dcur
        { l_seg_part := d.l_seg_part ++ [b.l_seg_part[b.virt_begin]],
          virt_begin := d.virt_begin } ∧
      (unread_of vl').Perm (unread_of vl) := by
  have hsrc : src < vl.length := (List.getElem?_eq_some.mp hb).1
  have hd1 : (vl.set src (b.popped (b.l_seg_part[b.virt_begin])))[dcur]? = some d := by
    rw [List.getElem?_set, if_neg (Ne.symm hne)]
    exact hd
  refine ⟨_, ?_, rfl, ?_⟩
  · unfold distribute_move
    simp only [hb, list_seg_part_t.pop, List.getElem?_eq_getElem hv]
    have hd1' := hd1
    simp only [list_seg_part_t.popped] at hd1'
    simp only [hd1', list_seg_part_t.append_no_lock]
    rfl
  · have h1 : (unread_of vl).Perm (b.l_seg_part[b.virt_begin] ::
        unread_of (vl.set src (b.popped (b.l_seg_part[b.virt_begin])))) := by
      apply flatMap_set_perm_cons _ _ b _ _ vl src hb
      simp only [list_seg_part_t.unread, list_seg_part_t.popped]
      rw [List.drop_eq_getElem_cons hv, List.drop_set_of_lt _ _ (by omega)]
    have h2 := flatMap_set_perm list_seg_part_t.unread (b.l_seg_part[b.virt_begin]) d
      { l_seg_part := d.l_seg_part ++ [b.l_seg_part[b.virt_begin]],
        virt_begin := d.virt_begin }
      (by
        simp only [list_seg_part_t.unread]
        rw [List.drop_append_of_le_length hdv])
      _ dcur hd1
    exact h2.trans h1.symm

theorem distribute_loop_spec (src dfrom dto : Nat) (hft : dfrom < dto) (hU : dto < U32) :
    ∀ (k dcur : Nat) (sp : seg_part_t) (vl : List list_seg_part_t) (b : list_seg_part_t),
    vl[src]? = some b → b.virt_begin + k ≤ b.l_seg_part.length → cursors_ok vl →
    dfrom ≤ dcur → dcur < dto → dto ≤ vl.length →
    ∃ vl', distribute_loop src dfrom dto k dcur sp vl = some vl' ∧
      vl'.length = vl.length ∧ (unread_of vl').Perm (unread_of vl) ∧
      ∀ g : Nat, g ≠ src → ¬ (dfrom ≤ g ∧ g < dto) → vl'[g]? = vl[g]?
  | 0, _, _, vl, _, _, _, _, _, _, _ => ⟨vl, rfl, rfl, List.Perm.refl _, fun _ _ _ => rfl⟩
  | k + 1, dcur, sp, vl, b, hb, hk, hwf, h1, h2, h3 => by
    have hmod : (dcur + 1) % U32 = dcur + 1 := Nat.mod_eq_of_lt (by omega)
    have hnext : dfrom ≤ (if (dcur + 1) % U32 = dto then dfrom else (dcur + 1) % U32) ∧
        (if (dcur + 1) % U32 = dto then dfrom else (dcur + 1) % U32) < dto := by
      rw [hmod]
      split
      · exact ⟨le_refl _, hft⟩
      · exact ⟨by omega, by omega⟩
    unfold distribute_loop
    simp only []
    by_cases hne : dcur = src
    · rw [if_neg (by simpa using hne)]
      exact distribute_loop_spec src dfrom dto hft hU k _ sp vl b hb (by omega) hwf
        hnext.1 hnext.2 h3
    · rw [if_pos hne]
      have hdlt : dcur < vl.length := by omega
      have hd : vl[dcur]? = some vl[dcur] := List.getElem?_eq_getElem hdlt
      have hsrc : src < vl.length := (List.getElem?_eq_some.mp hb).1
      obtain ⟨vl1, e1, e2, e3⟩ := distribute_move_spec sp hne hb hd (by omega)
        (hwf dcur _ hd)
      simp only [e1]
      have hlen1 : vl1.length = vl.length := by rw [e2]; simp
      have hb1 : vl1[src]? = some (b.popped (b.l_seg_part[b.virt_begin])) := by
        rw [e2, List.getElem?_set, if_neg hne, List.getElem?_set]
        simp [hsrc]
      have hwf1 : cursors_ok vl1 := by
        intro g c hc
        rw [e2, List.getElem?_set] at hc
        by_cases hg : dcur = g
        · rw [if_pos hg] at hc
          simp only [List.length_set, hdlt, if_true, Option.some.injEq] at hc
          rw [← hc]
          have := hwf dcur _ hd
          simp only [List.length_append, List.length_singleton]
          omega
        · rw [if_neg hg, List.getElem?_set] at hc
          by_cases hg' : src = g
          · rw [if_pos hg'] at hc
            simp only [hsrc, if_true, Option.some.injEq] at hc
            rw [← hc]
            simp only [list_seg_part_t.popped, List.length_set]
            omega
          · rw [if_neg hg'] at hc
            exact hwf g c hc
      obtain ⟨vl', r1, r2, r3, r4⟩ := distribute_loop_spec src dfrom dto hft hU k _
        (b.l_seg_part[b.virt_begin]).moved_from vl1 _ hb1
        (by simp only [list_seg_part_t.popped, List.length_set]; omega) hwf1
        hnext.1 hnext.2 (by omega)
      refine ⟨vl', r1, by omega, r3.trans e3, ?_⟩
      intro g hg1 hg2
      rw [r4 g hg1 hg2, e2, List.getElem?_set, if_neg (by
        intro e; exact hg2 ⟨by omega, by omega⟩), List.getElem?_set, if_neg (Ne.symm hg1)]

/-- C7: for every partitioner with `n` buffers (cursors within the stored lengths),
every `src < n` whose read cursor is 0 and every range with
`dest_id_from < dest_id_to <= n` (`dest_id_to` a `uint32_t`), `distribute_segments`
returns (it accesses only buffer indices below `n`), the multiset of unread parts taken
over all buffers is the same before and after the call, and every buffer whose id is
neither `src` nor inside the range is unchanged; so are the number of buffers and the
staged set. -/
theorem distribute_segments_redistributes (s : CBufferedSegPart)
    (src_id dest_id_from dest_id_to : Nat) (b : list_seg_part_t)
    (hb : s.vl_seg_part[src_id]? = some b) (hv : b.virt_begin = 0)
    (hwf : cursors_ok s.vl_seg_part)
    (hft : dest_id_from < dest_id_to) (hto : dest_id_to ≤ s.vl_seg_part.length)
    (hU : dest_id_to < U32) :
    ∃ s', s.distribute_segments src_id dest_id_from dest_id_to = some s' ∧
      s'.vl_seg_part.length = s.vl_seg_part.length ∧
      (↑s'.unread_parts : Multiset seg_part_t) = ↑s.unread_parts ∧
      (∀ g : Nat, g ≠ src_id → ¬ (dest_id_from ≤ g ∧ g < dest_id_to) →
        s'.vl_seg_part[g]? = s.vl_seg_part[g]?) ∧
      s'.s_seg_part = s.s_seg_part := by
  obtain ⟨vl', e1, e2, e3, e4⟩ := distribute_loop_spec src_id dest_id_from dest_id_to hft hU
    b.size dest_id_from seg_part_t.default s.vl_seg_part b hb
    (by rw [hv, Nat.zero_add]; exact Nat.mod_le _ _) hwf (le_refl _) hft hto
  refine ⟨{ s with vl_seg_part := vl' }, ?_, e2, Multiset.coe_eq_coe.mpr e3, e4, rfl⟩
  unfold CBufferedSegPart.distribute_segments
  simp only [hb, e1]

theorem cursors_ok_spread_state : cursors_ok spread_state.vl_seg_part := by
  intro g b hb
  have hg : g < 4 := (List.getElem?_eq_some.mp hb).1
  interval_cases g <;> simp [spread_state] at hb <;> subst hb <;> simp

theorem distribute_segments_redistributes_witness :
    ∃ s', spread_state.distribute_segments 1 0 3 = some s' ∧
      s'.vl_seg_part.length = spread_state.vl_seg_part.length ∧
      (↑s'.unread_parts : Multiset seg_part_t) = ↑spread_state.unread_parts ∧
      (∀ g : Nat, g ≠ 1 → ¬ (0 ≤ g ∧ g < 3) →
        s'.vl_seg_part[g]? = spread_state.vl_seg_part[g]?) ∧
      s'.s_seg_part = spread_state.s_seg_part :=
  distribute_segments_redistributes spread_state 1 0 3
    { l_seg_part := [part_c.toSegPart, sample_part.toSegPart, part_a.toSegPart],
      virt_begin := 0 }
    (by decide) rfl cursors_ok_spread_state (by decide) (by decide) (by decide)

/-! ## C8: the rotation of `distribute_segments` -/

theorem succ_mod_step (i w : Nat) (hw : 0 < w) :
    (i + 1) % w = if i % w + 1 = w then 0 else i % w + 1 := by
  have hlt : i % w < w := Nat.mod_lt _ hw
  have hdecomp : w * (i / w) + i % w = i := Nat.div_add_mod i w
  split
  · next h =>
    have e : i + 1 = w * (i / w + 1) := by rw [Nat.mul_add]; omega
    rw [e]
    exact Nat.mul_mod_right _ _
  · next h =>
    have e : i + 1 = w * (i / w) + (i % w + 1) := by omega
    rw [e, Nat.mul_add_mod]
    exact Nat.mod_eq_of_lt (by omega)

/-- The loop of `distribute_segments` is the dealing along the slots
`dest_id_from + i mod (dest_id_to - dest_id_from)`. -/
theorem distribute_loop_eq_deal (src dfrom dto : Nat) (hft : dfrom < dto) (hU : dto < U32) :
    ∀ (k i : Nat) (sp : seg_part_t) (vl : List list_seg_part_t),
    distribute_loop src dfrom dto k (rotation_slot dfrom dto dfrom i) sp vl =
      deal_with src (rotation_slot dfrom dto dfrom) k i sp vl
  | 0, _, _, _ => rfl
  | k + 1, i, sp, vl => by
    have hw : 0 < dto - dfrom := by omega
    have hlt : i % (dto - dfrom) < dto - dfrom := Nat.mod_lt _ hw
    have hcur : rotation_slot dfrom dto dfrom i = dfrom + i % (dto - dfrom) := by
      simp [rotation_slot]
    have hnext : (if (rotation_slot dfrom dto dfrom i + 1) % U32 = dto then dfrom
        else (rotation_slot dfrom dto dfrom i + 1) % U32) =
        rotation_slot dfrom dto dfrom (i + 1) := by
      have hmod : (rotation_slot dfrom dto dfrom i + 1) % U32 =
          rotation_slot dfrom dto dfrom i + 1 := Nat.mod_eq_of_lt (by rw [hcur]; omega)
      rw [hmod]
      have hs : rotation_slot dfrom dto dfrom (i + 1) = dfrom + (i + 1) % (dto - dfrom) := by
        simp [rotation_slot]
      rw [hs, succ_mod_step i _ hw, hcur]
      by_cases h : i % (dto - dfrom) + 1 = dto - dfrom
      · rw [if_pos h, if_pos (by omega)]
        rfl
      · rw [if_neg h, if_neg (by omega)]
        omega
    unfold distribute_loop deal_with
    simp only [hnext]
    split
    · cases distribute_move src (rotation_slot dfrom dto dfrom i) sp vl with
      | none => rfl
      | some r => exact distribute_loop_eq_deal src dfrom dto hft hU k (i + 1) r.2 r.1
    · exact distribute_loop_eq_deal src dfrom dto hft hU k (i + 1) sp vl

theorem dealt_nil_right (d : Nat) (ps : List seg_part_t) : dealt d ps [] = [] := by
  simp [dealt]

theorem dealt_cons (d : Nat) (p : seg_part_t) (ps : List seg_part_t) (m : Nat) (ms : List Nat) :
    dealt d (p :: ps) (m :: ms) = (if m = d then [p] else []) ++ dealt d ps ms := by
  unfold dealt
  by_cases h : m = d
  · simp [h]
  · simp [h]

/-- What dealing along a sequence of slots produces, when the source holds enough unread
entries. -/
theorem deal_with_spec (src : Nat) (slot : Nat → Nat) :
    ∀ (k i : Nat) (sp : seg_part_t) (vl : List list_seg_part_t) (b : list_seg_part_t),
    vl[src]? = some b → b.virt_begin + k ≤ b.l_seg_part.length → cursors_ok vl →
    (∀ j : Nat, slot j < vl.length) →
    ∃ vl', deal_with src slot k i sp vl = some vl' ∧ vl'.length = vl.length ∧
      (∀ (d : Nat) (d0 : list_seg_part_t), d ≠ src → vl[d]? = some d0 →
        vl'[d]? = some
          { l_seg_part := d0.l_seg_part ++
              dealt d (b.l_seg_part.drop b.virt_begin) (move_slots src slot i k),
            virt_begin := d0.virt_begin }) ∧
      ∃ b', vl'[src]? = some b' ∧
        b'.virt_begin = b.virt_begin + (move_slots src slot i k).length ∧
        b'.l_seg_part.length = b.l_seg_part.length ∧
        b'.l_seg_part.drop b'.virt_begin =
          b.l_seg_part.drop (b.virt_begin + (move_slots src slot i k).length)
  | 0, i, sp, vl, b, hb, _, _, _ => by
    refine ⟨vl, rfl, rfl, ?_, b, hb, ?_, rfl, ?_⟩
    · intro d d0 _ hd
      simp [move_slots, dealt_nil_right, hd]
    · simp [move_slots]
    · simp [move_slots]
  | k + 1, i, sp, vl, b, hb, hk, hwf, hs => by
    have hms : move_slots src slot i (k + 1) =
        (if slot i ≠ src then [slot i] else []) ++ move_slots src slot (i + 1) k := by
      unfold move_slots
      rw [List.range'_succ, List.map_cons, List.filter_cons]
      by_cases h : slot i = src
      · simp [h]
      · simp [h]
    unfold deal_with
    by_cases hne : slot i = src
    · rw [if_neg (by simpa using hne)]
      rw [hms, if_neg (by simpa using hne), List.nil_append]
      exact deal_with_spec src slot k (i + 1) sp vl b hb (by omega) hwf hs
    · rw [if_pos hne, hms, if_pos hne]
      have hdlt : slot i < vl.length := hs i
      have hd : vl[slot i]? = some vl[slot i] := List.getElem?_eq_getElem hdlt
      have hsrc : src < vl.length := (List.getElem?_eq_some.mp hb).1
      have hv : b.virt_begin < b.l_seg_part.length := by omega
      obtain ⟨vl1, e1, e2, _⟩ := distribute_move_spec sp hne hb hd hv (hwf _ _ hd)
      simp only [e1]
      have hlen1 : vl1.length = vl.length := by rw [e2]; simp
      have hb1 : vl1[src]? = some (b.popped (b.l_seg_part[b.virt_begin])) := by
        rw [e2, List.getElem?_set, if_neg hne, List.getElem?_set]
        simp [hsrc]
      have hwf1 : cursors_ok vl1 := by
        intro g c hc
        rw [e2, List.getElem?_set] at hc
        by_cases hg : slot i = g
        · rw [if_pos hg] at hc
          simp only [List.length_set, hdlt, if_true, Option.some.injEq] at hc
          rw [← hc]
          have := hwf _ _ hd
          simp only [List.length_append, List.length_singleton]
          omega
        · rw [if_neg hg, List.getElem?_set] at hc
          by_cases hg' : src = g
          · rw [if_pos hg'] at hc
            simp only [hsrc, if_true, Option.some.injEq] at hc
            rw [← hc]
            simp only [list_seg_part_t.popped, List.length_set]
            omega
          · rw [if_neg hg'] at hc
            exact hwf g c hc
      obtain ⟨vl', r1, r2, r3, b', r4, r5, r6, r7⟩ := deal_with_spec src slot k (i + 1)
        (b.l_seg_part[b.virt_begin]).moved_from vl1 _ hb1
        (by simp only [list_seg_part_t.popped, List.length_set]; omega) hwf1
        (by intro j; rw [hlen1]; exact hs j)
      have hdropb : (b.popped (b.l_seg_part[b.virt_begin])).l_seg_part.drop
          (b.popped (b.l_seg_part[b.virt_begin])).virt_begin =
          b.l_seg_part.drop (b.virt_begin + 1) := by
        simp only [list_seg_part_t.popped]
        exact List.drop_set_of_lt _ _ (by omega)
      refine ⟨vl', r1, by omega, ?_, b', r4, ?_, ?_, ?_⟩
      · intro d d0 hdne hd0
        rw [List.drop_eq_getElem_cons hv, List.singleton_append, dealt_cons]
        by_cases hsd : slot i = d
        · have hd0' : vl[slot i]? = some d0 := by rw [hsd]; exact hd0
          have hvd : vl[slot i] = d0 := Option.some.inj (hd.symm.trans hd0')
          have h1 : vl1[d]? = some (d0.append_no_lock (b.l_seg_part[b.virt_begin])).1 := by
            rw [e2, List.getElem?_set, if_pos hsd, hvd]
            simp [hdlt, list_seg_part_t.append_no_lock]
          rw [r3 d _ hdne h1, hdropb, if_pos hsd]
          simp [list_seg_part_t.append_no_lock]
        · have h1 : vl1[d]? = some d0 := by
            rw [e2, List.getElem?_set, if_neg hsd, List.getElem?_set, if_neg (Ne.symm hdne)]
            exact hd0
          rw [r3 d _ hdne h1, hdropb, if_neg hsd]
          simp
      · rw [r5]
        simp only [list_seg_part_t.popped, List.length_cons, List.singleton_append]
        omega
      · rw [r6]
        simp [list_seg_part_t.popped]
      · rw [r7]
        simp only [list_seg_part_t.popped, List.length_cons, List.singleton_append]
        rw [List.drop_set_of_lt _ _ (by omega)]
        congr 1
        omega

theorem rotation_slot_lt {dfrom dto : Nat} (hft : dfrom < dto) (start i : Nat) :
    rotation_slot dfrom dto start i < dto := by
  unfold rotation_slot
  have := Nat.mod_lt (start - dfrom + i) (by omega : 0 < dto - dfrom)
  omega

theorem distribute_segments_of_size_zero (s : CBufferedSegPart)
    (src_id dest_id_from dest_id_to : Nat) (b : list_seg_part_t)
    (hb : s.vl_seg_part[src_id]? = some b) (hsize : b.size = 0) :
    s.distribute_segments src_id dest_id_from dest_id_to = some s := by
  unfold CBufferedSegPart.distribute_segments
  simp only [hb, hsize, distribute_loop]

theorem size_of_length_U32 (b : list_seg_part_t) (h : b.l_seg_part.length = U32) :
    b.size = 0 := by
  unfold list_seg_part_t.size
  rw [h]
  exact Nat.mod_self _

/-- The rotation of `distribute_segments` and what it deals to every buffer. -/
theorem distribute_segments_rotation_from_dest_id_from_aux (s : CBufferedSegPart)
    (src_id dest_id_from dest_id_to : Nat) (b : list_seg_part_t)
    (hb : s.vl_seg_part[src_id]? = some b) (hv : b.virt_begin = 0)
    (hwf : cursors_ok s.vl_seg_part)
    (hft : dest_id_from < dest_id_to) (hto : dest_id_to ≤ s.vl_seg_part.length)
    (hU : dest_id_to < U32) :
    (∀ i : Nat, rotation_slot dest_id_from dest_id_to dest_id_from i =
      dest_id_from + i % (dest_id_to - dest_id_from)) ∧
    s.distribute_segments src_id dest_id_from dest_id_to =
      s.deal_round_robin src_id dest_id_from dest_id_to dest_id_from ∧
    ∃ s', s.distribute_segments src_id dest_id_from dest_id_to = some s' ∧
      (∀ (d : Nat) (d0 : list_seg_part_t), d ≠ src_id → s.vl_seg_part[d]? = some d0 →
        s'.vl_seg_part[d]? = some
          { l_seg_part := d0.l_seg_part ++ dealt d b.l_seg_part
              (move_slots src_id (rotation_slot dest_id_from dest_id_to dest_id_from) 0 b.size),
            virt_begin := d0.virt_begin }) ∧
      ∃ b', s'.vl_seg_part[src_id]? = some b' ∧
        b'.virt_begin =
          (move_slots src_id (rotation_slot dest_id_from dest_id_to dest_id_from) 0
            b.size).length ∧
        b'.l_seg_part.length = b.l_seg_part.length ∧
        b'.unread = b.l_seg_part.drop
          (move_slots src_id (rotation_slot dest_id_from dest_id_to dest_id_from) 0
            b.size).length := by
  have hslot0 : rotation_slot dest_id_from dest_id_to dest_id_from 0 = dest_id_from := by
    simp [rotation_slot]
  have heq : s.distribute_segments src_id dest_id_from dest_id_to =
      s.deal_round_robin src_id dest_id_from dest_id_to dest_id_from := by
    unfold CBufferedSegPart.distribute_segments CBufferedSegPart.deal_round_robin
    simp only [hb]
    have := distribute_loop_eq_deal src_id dest_id_from dest_id_to hft hU b.size 0
      seg_part_t.default s.vl_seg_part
    rw [hslot0] at this
    rw [this]
  refine ⟨fun i => by simp [rotation_slot], heq, ?_⟩
  obtain ⟨vl', e1, _, e3, b', e4, e5, e6, e7⟩ := deal_with_spec src_id
    (rotation_slot dest_id_from dest_id_to dest_id_from) b.size 0 seg_part_t.default
    s.vl_seg_part b hb (by rw [hv, Nat.zero_add]; exact Nat.mod_le _ _) hwf
    (fun j => lt_of_lt_of_le (rotation_slot_lt hft _ j) hto)
  rw [hv] at e3 e5 e7
  simp only [List.drop_zero, Nat.zero_add] at e3 e5 e7
  refine ⟨{ s with vl_seg_part := vl' }, ?_, e3, b', e4, e5, e6, e7⟩
  rw [heq]
  unfold CBufferedSegPart.deal_round_robin
  simp only [hb, e1]

/-- C8, as stated, fails: the rotation starts at `dest_id_from`, not at the source id.
With source 1 and the range `[0, 3)` the first stored entry of the source is moved to
buffer 0, while a rotation beginning at the source would consider slot 1 first and deal
the first entry to buffer 2. The entries of the source are dealt one per step, in stored
order, only when its read cursor is 0 and it stores fewer than `2^32` entries. With
source 2 storing three entries, the first of them already read, and the range `[0, 2)`,
the first stored entry is not dealt and the third step appends the moved-from scratch
element left by the second; with a source storing `2^32` entries the number of steps,
a `uint32_t`, is 0 and no entry is dealt. -/
theorem rotation_does_not_start_at_src :
    rotation_slot 0 3 1 0 = 1 ∧
    (spread_state.distribute_segments 1 0 3).map (fun s' => (s'.entries 0, s'.entries 2)) =
      some ([part_k, part_c.toSegPart], [sample_part.toSegPart]) ∧
    (spread_state.deal_round_robin 1 0 3 1).map (fun s' => (s'.entries 0, s'.entries 2)) =
      some ([part_k, sample_part.toSegPart], [part_c.toSegPart]) ∧
    spread_state.distribute_segments 1 0 3 ≠ spread_state.deal_round_robin 1 0 3 1 ∧
    half_read_state.entries 2 =
      [part_a.toSegPart, sample_part.toSegPart, part_c.toSegPart] ∧
    (half_read_state.distribute_segments 2 0 2).map
        (fun s' => (s'.entries 0, s'.entries 1, s'.entries 2)) =
      some ([part_k, sample_part.toSegPart, part_c.toSegPart.moved_from],
        [part_c.toSegPart], []) ∧
    (∃ b, huge_source.vl_seg_part[0]? = some b ∧ b.l_seg_part.length = U32 ∧
      b.virt_begin = 0 ∧ huge_source.entries 1 = [] ∧
      huge_source.distribute_segments 0 1 2 = some huge_source) := by
  have hlen : (List.replicate U32 part_k).length = U32 := List.length_replicate _ _
  refine ⟨by decide, by decide, by decide, by decide, by decide, by decide,
    { l_seg_part := List.replicate U32 part_k, virt_begin := 0 }, rfl, hlen, rfl, rfl, ?_⟩
  exact distribute_segments_of_size_zero huge_source 0 1 2 _ rfl (size_of_length_U32 _ hlen)

/-- C8 (amended): for a source buffer with `s < 2^32` stored entries and read cursor 0,
`distribute_segments(src, dest_id_from, dest_id_to)` makes one step per stored entry of
the source and step `i` (`i = 0, ..., s - 1`) considers the slot
`dest_id_from + i mod (dest_id_to - dest_id_from)`: the rotation over
`dest_id_from, ..., dest_id_to - 1` starts at `dest_id_from` and wraps from
`dest_id_to - 1` back to `dest_id_from`. When the slot is not the source, the next
unread entry of the source, in stored order, is moved to the end of that slot's buffer;
when the slot is the source nothing is moved. So the `j`-th stored entry goes to the
`j`-th slot of the rotation that is not the source, every other buffer keeps its
entries and cursor in front of what it receives, and the source keeps its stored
length, has its cursor at the number of moved entries and keeps the entries after the
moved ones unread. -/
theorem distribute_segments_rotation_from_dest_id_from (s : CBufferedSegPart)
    (src_id dest_id_from dest_id_to : Nat) (b : list_seg_part_t)
    (hb : s.vl_seg_part[src_id]? = some b) (hv : b.virt_begin = 0)
    (hwf : cursors_ok s.vl_seg_part)
    (hft : dest_id_from < dest_id_to) (hto : dest_id_to ≤ s.vl_seg_part.length)
    (hU : dest_id_to < U32) (hs : b.l_seg_part.length < U32) :
    (∀ i : Nat, rotation_slot dest_id_from dest_id_to dest_id_from i =
      dest_id_from + i % (dest_id_to - dest_id_from)) ∧
    b.size = b.l_seg_part.length ∧
    s.distribute_segments src_id dest_id_from dest_id_to =
      s.deal_round_robin src_id dest_id_from dest_id_to dest_id_from ∧
    ∃ s', s.distribute_segments src_id dest_id_from dest_id_to = some s' ∧
      (∀ (d : Nat) (d0 : list_seg_part_t), d ≠ src_id → s.vl_seg_part[d]? = some d0 →
        s'.vl_seg_part[d]? = some
          { l_seg_part := d0.l_seg_part ++ dealt d b.l_seg_part
              (move_slots src_id (rotation_slot dest_id_from dest_id_to dest_id_from) 0
                b.l_seg_part.length),
            virt_begin := d0.virt_begin }) ∧
      ∃ b', s'.vl_seg_part[src_id]? = some b' ∧
        b'.virt_begin =
          (move_slots src_id (rotation_slot dest_id_from dest_id_to dest_id_from) 0
            b.l_seg_part.length).length ∧
        b'.l_seg_part.length = b.l_seg_part.length ∧
        b'.unread = b.l_seg_part.drop
          (move_slots src_id (rotation_slot dest_id_from dest_id_to dest_id_from) 0
            b.l_seg_part.length).length := by
  have hsize : b.size = b.l_seg_part.length := Nat.mod_eq_of_lt hs
  have h := distribute_segments_rotation_from_dest_id_from_aux s src_id dest_id_from
    dest_id_to b hb hv hwf hft hto hU
  rw [hsize] at h
  exact ⟨h.1, hsize, h.2.1, h.2.2⟩

theorem distribute_segments_rotation_from_dest_id_from_witness :
    ∃ s', spread_state.distribute_segments 1 0 3 = some s' ∧
      spread_state.distribute_segments 1 0 3 = spread_state.deal_round_robin 1 0 3 0 ∧
      s'.vl_seg_part[0]? = some
        { l_seg_part := ([part_k] ++ dealt 0
            [part_c.toSegPart, sample_part.toSegPart, part_a.toSegPart]
            (move_slots 1 (rotation_slot 0 3 0) 0 3)),
          virt_begin := 0 } ∧
      dealt 0 [part_c.toSegPart, sample_part.toSegPart, part_a.toSegPart]
        (move_slots 1 (rotation_slot 0 3 0) 0 3) = [part_c.toSegPart] :=
  have h := distribute_segments_rotation_from_dest_id_from spread_state 1 0 3
    { l_seg_part := [part_c.toSegPart, sample_part.toSegPart, part_a.toSegPart],
      virt_begin := 0 }
    (by decide) rfl cursors_ok_spread_state (by decide) (by decide) (by decide) (by decide)
  h.2.2.2.imp (fun _ hs => ⟨hs.1, h.2.2.1, hs.2.1 0 _ (by decide) rfl, by decide⟩)

/-! ## C9: the drain cursor -/

theorem to_int32_of_range {z : Int} (h1 : -2 ^ 31 ≤ z) (h2 : z < 2 ^ 31) : to_int32 z = z := by
  unfold to_int32
  omega

theorem to_int32_sub (z y : Int) : to_int32 (to_int32 z - y) = to_int32 (z - y) := by
  unfold to_int32
  omega

/-- Closed form of the drain cursor: after `k` calls it holds the start value minus
`10 k`, reduced to `int32_t`. -/
theorem after_get_vec_ids_value : ∀ (k : Nat) (s : CBufferedSegPart),
    (s.after_get_vec_ids k).a_v_part_id =
      (if k = 0 then s.a_v_part_id else to_int32 (s.a_v_part_id - 10 * (k : Int)))
  | 0, s => by simp [CBufferedSegPart.after_get_vec_ids]
  | k + 1, s => by
    unfold CBufferedSegPart.after_get_vec_ids
    rw [after_get_vec_ids_value k s.get_vec_id.2]
    simp only [CBufferedSegPart.get_vec_id]
    by_cases hk : k = 0
    · subst hk
      simp
    · rw [if_neg hk, if_neg (by omega), to_int32_sub]
      congr 1
      push_cast
      ring

theorem nth_vec_id_eq (s : CBufferedSegPart) (k : Nat)
    (h : -2 ^ 31 ≤ s.a_v_part_id ∧ s.a_v_part_id < 2 ^ 31) :
    s.nth_vec_id k = to_int32 (s.a_v_part_id - 10 * (k : Int)) := by
  unfold CBufferedSegPart.nth_vec_id
  show (s.after_get_vec_ids k).a_v_part_id = _
  rw [after_get_vec_ids_value]
  by_cases hk : k = 0
  · subst hk
    simp [to_int32_of_range h.1 h.2]
  · rw [if_neg hk]

theorem restart_read_vec_eq (s : CBufferedSegPart) (hn : s.vl_seg_part.length < 2 ^ 31) :
    s.restart_read_vec = some { s with a_v_part_id := (s.vl_seg_part.length : Int) - 1 } := by
  have h : to_int32 (s.vl_seg_part.length : Int) = (s.vl_seg_part.length : Int) :=
    to_int32_of_range (by omega) (by exact_mod_cast hn)
  unfold CBufferedSegPart.restart_read_vec
  rw [h, if_neg (by omega)]

/-- C9, as stated, fails for large `k`: the cursor is an `int32_t` and `fetch_sub` wraps.
With no buffer the cursor starts at `-1`; the call number `214748365` cannot return
`-1 - 10 * 214748365 = -2147483651`, it returns `2147483645`. -/
theorem get_vec_id_wraps_int32 :
    ∃ s1, (CBufferedSegPart.mk_groups 0).restart_read_vec = some s1 ∧
      s1.nth_vec_id 214748364 = -2147483641 ∧
      s1.nth_vec_id 214748365 = 2147483645 ∧
      s1.nth_vec_id 214748365 ≠
        ((CBufferedSegPart.mk_groups 0).vl_seg_part.length : Int) - 1 - 10 * 214748365 := by
  refine ⟨_, restart_read_vec_eq _ (by decide), ?_, ?_, ?_⟩
  · rw [nth_vec_id_eq _ _ (by decide)]
    decide
  · rw [nth_vec_id_eq _ _ (by decide)]
    decide
  · rw [nth_vec_id_eq _ _ (by decide)]
    decide

/-- C9 (amended): after `restart_read_vec` on a partitioner with `n < 2^31` buffers, the
`k`-th call of `get_vec_id` returns `n - 1 - 10 k` for every `k` with
`n - 1 - 10 k >= -2^31` (later calls wrap around in `int32_t`); for these calls the
windows `[v - 9, v]` of the returned values `v` are pairwise disjoint, every group index
`0 <= g < n` lies in exactly one of them, and with `n = 0` the first returned value is
negative. -/
theorem get_vec_id_hands_out_batches (s : CBufferedSegPart)
    (hn : s.vl_seg_part.length < 2 ^ 31) :
    ∃ s1, s.restart_read_vec = some s1 ∧
      (∀ k : Nat, -2 ^ 31 ≤ (s.vl_seg_part.length : Int) - 1 - 10 * k →
        s1.nth_vec_id k = (s.vl_seg_part.length : Int) - 1 - 10 * k) ∧
      (∀ k k' : Nat, -2 ^ 31 ≤ (s.vl_seg_part.length : Int) - 1 - 10 * k →
        -2 ^ 31 ≤ (s.vl_seg_part.length : Int) - 1 - 10 * k' → k ≠ k' →
        ∀ g : Int, ¬ (s1.nth_vec_id k - 9 ≤ g ∧ g ≤ s1.nth_vec_id k ∧
          s1.nth_vec_id k' - 9 ≤ g ∧ g ≤ s1.nth_vec_id k')) ∧
      (∀ g : Int, 0 ≤ g → g < s.vl_seg_part.length →
        ∃ k : Nat, -2 ^ 31 ≤ (s.vl_seg_part.length : Int) - 1 - 10 * k ∧
          s1.nth_vec_id k - 9 ≤ g ∧ g ≤ s1.nth_vec_id k ∧
          ∀ k' : Nat, -2 ^ 31 ≤ (s.vl_seg_part.length : Int) - 1 - 10 * k' →
            s1.nth_vec_id k' - 9 ≤ g → g ≤ s1.nth_vec_id k' → k' = k) ∧
      (s.vl_seg_part.length = 0 → s1.nth_vec_id 0 < 0) := by
  have hval : ∀ k : Nat, -2 ^ 31 ≤ (s.vl_seg_part.length : Int) - 1 - 10 * k →
      CBufferedSegPart.nth_vec_id
        { s with a_v_part_id := (s.vl_seg_part.length : Int) - 1 } k =
        (s.vl_seg_part.length : Int) - 1 - 10 * k := by
    intro k hk
    rw [nth_vec_id_eq _ _ (by constructor <;> simp only [] <;> omega)]
    show to_int32 ((s.vl_seg_part.length : Int) - 1 - 10 * (k : Int)) = _
    exact to_int32_of_range hk (by omega)
  refine ⟨_, restart_read_vec_eq s hn, hval, ?_, ?_, ?_⟩
  · intro k k' hk hk' hne g
    rw [hval k hk, hval k' hk']
    omega
  · intro g hg0 hgn
    have hk : -2 ^ 31 ≤ (s.vl_seg_part.length : Int) - 1 -
        10 * (((s.vl_seg_part.length : Int) - 1 - g) / 10).toNat := by omega
    refine ⟨(((s.vl_seg_part.length : Int) - 1 - g) / 10).toNat, hk, ?_, ?_, ?_⟩
    · rw [hval _ hk]; omega
    · rw [hval _ hk]; omega
    · intro k' hk' h1 h2
      rw [hval k' hk'] at h1 h2
      omega
  · intro h0
    rw [hval 0 (by omega)]
    omega

theorem get_vec_id_hands_out_batches_witness :
    ∃ s1, spread_state.restart_read_vec = some s1 ∧ s1.nth_vec_id 0 = 3 ∧
      s1.nth_vec_id 1 = -7 := by
  obtain ⟨s1, h1, h2, _⟩ := get_vec_id_hands_out_batches spread_state (by decide)
  refine ⟨s1, h1, ?_, ?_⟩
  · have := h2 0 (by decide)
    rw [this]; decide
  · have := h2 1 (by decide)
    rw [this]; decide

/-! ## C10: the order of the `add_new` calls does not matter -/

instance : IsIrrefl kk_seg_part_t kk_seg_part_t.less :=
  ⟨fun a h => by
    unfold kk_seg_part_t.less at h
    rw [kk_lt_irrefl] at h
    exact Bool.noConfusion h⟩

instance : IsAntisymm kk_seg_part_t kk_seg_part_t.less :=
  ⟨fun a b h1 h2 => by
    unfold kk_seg_part_t.less at h1 h2
    rw [kk_lt_asymm h1] at h2
    exact Bool.noConfusion h2⟩

theorem kk_key_ne_of_lt {a b : kk_seg_part_t} (h : a.lt b = true) : a.key ≠ b.key := by
  intro e
  have := ((kk_equiv_iff a b).mpr e).1
  rw [h] at this
  exact Bool.noConfusion this

theorem sorted_set_emplace (x : kk_seg_part_t) : ∀ (l : List kk_seg_part_t),
    l.Sorted kk_seg_part_t.less → (set_emplace x l).Sorted kk_seg_part_t.less
  | [], _ => by simp [set_emplace]
  | a :: l, h => by
    have h' := List.sorted_cons.mp h
    unfold set_emplace
    by_cases h1 : x.lt a = true
    · rw [if_pos h1]
      refine List.sorted_cons.mpr ⟨?_, h⟩
      intro y hy
      rcases List.mem_cons.mp hy with e | hy
      · rw [e]; exact h1
      · exact kk_lt_trans h1 (h'.1 y hy)
    · rw [if_neg h1]
      by_cases h2 : a.lt x = true
      · rw [if_pos h2]
        refine List.sorted_cons.mpr ⟨?_, sorted_set_emplace x l h'.2⟩
        intro y hy
        rcases mem_set_emplace hy with e | hy
        · rw [e]; exact h2
        · exact h'.1 y hy
      · rw [if_neg h2]
        exact h

theorem mem_set_emplace_of_mem {x y : kk_seg_part_t} : ∀ {l : List kk_seg_part_t},
    y ∈ l → y ∈ set_emplace x l
  | [], h => by simp at h
  | a :: l, h => by
    unfold set_emplace
    split
    · exact List.mem_cons_of_mem _ h
    · split
      · rcases List.mem_cons.mp h with e | h
        · rw [e]; exact List.mem_cons_self _ _
        · exact List.mem_cons_of_mem _ (mem_set_emplace_of_mem h)
      · exact h

/-- In a set in ascending order, the new element is stored only if no stored element has
its key. -/
theorem self_mem_set_emplace (x : kk_seg_part_t) : ∀ (l : List kk_seg_part_t),
    l.Sorted kk_seg_part_t.less → x ∈ set_emplace x l →
    x ∈ l ∨ ∀ w ∈ l, w.key ≠ x.key
  | [], _, _ => Or.inr (fun w hw => absurd hw (List.not_mem_nil _))
  | a :: l, h, hx => by
    have h' := List.sorted_cons.mp h
    unfold set_emplace at hx
    by_cases h1 : x.lt a = true
    · right
      intro w hw
      rcases List.mem_cons.mp hw with e | hw
      · rw [e]; exact (kk_key_ne_of_lt h1).symm
      · exact (kk_key_ne_of_lt (kk_lt_trans h1 (h'.1 w hw))).symm
    · rw [if_neg h1] at hx
      by_cases h2 : a.lt x = true
      · rw [if_pos h2] at hx
        rcases List.mem_cons.mp hx with e | hx
        · exact Or.inl (e ▸ List.mem_cons_self _ _)
        · rcases self_mem_set_emplace x l h'.2 hx with h3 | h3
          · exact Or.inl (List.mem_cons_of_mem _ h3)
          · right
            intro w hw
            rcases List.mem_cons.mp hw with e | hw
            · rw [e]; exact kk_key_ne_of_lt h2
            · exact h3 w hw
      · rw [if_neg h2] at hx
        exact Or.inl hx

theorem mem_set_emplace_iff {x y : kk_seg_part_t} {l : List kk_seg_part_t}
    (h : l.Sorted kk_seg_part_t.less) :
    y ∈ set_emplace x l ↔ y ∈ l ∨ (y = x ∧ ∀ w ∈ l, w.key ≠ x.key) := by
  constructor
  · intro hy
    rcases mem_set_emplace hy with e | hy'
    · subst e
      rcases self_mem_set_emplace y l h hy with h1 | h1
      · exact Or.inl h1
      · exact Or.inr ⟨rfl, h1⟩
    · exact Or.inl hy'
  · rintro (hy | ⟨e, hno⟩)
    · exact mem_set_emplace_of_mem hy
    · rw [e]
      exact (set_emplace_perm x l hno).symm.subset (List.mem_cons_self _ _)

theorem add_new_all_cons (s : CBufferedSegPart) (x : kk_seg_part_t) (l : List kk_seg_part_t) :
    s.add_new_all (x :: l) =
      CBufferedSegPart.add_new_all { s with s_seg_part := set_emplace x s.s_seg_part } l := rfl

theorem add_new_all_frame (l : List kk_seg_part_t) : ∀ (s : CBufferedSegPart),
    (s.add_new_all l).vl_seg_part = s.vl_seg_part ∧
    (s.add_new_all l).a_v_part_id = s.a_v_part_id := by
  induction l with
  | nil => intro s; exact ⟨rfl, rfl⟩
  | cons x l ih =>
    intro s
    rw [add_new_all_cons]
    exact ih _

theorem add_new_all_sorted (l : List kk_seg_part_t) : ∀ (s : CBufferedSegPart),
    staged_ok s → staged_ok (s.add_new_all l) := by
  induction l with
  | nil => intro s h; exact h
  | cons x l ih =>
    intro s h
    rw [add_new_all_cons]
    exact ih _ (sorted_set_emplace x _ h)

/-- The staged set after a series of `add_new` calls with pairwise distinct keys: what
was staged, and the new parts whose key was not staged. -/
theorem mem_add_new_all (y : kk_seg_part_t) : ∀ (l : List kk_seg_part_t) (s : CBufferedSegPart),
    staged_ok s → l.Pairwise (fun a b => a.key ≠ b.key) →
    (y ∈ (s.add_new_all l).s_seg_part ↔
      y ∈ s.s_seg_part ∨ (y ∈ l ∧ ∀ w ∈ s.s_seg_part, w.key ≠ y.key))
  | [], s, _, _ => by simp [CBufferedSegPart.add_new_all]
  | x :: l, s, hs, hd => by
    have hd' := List.pairwise_cons.mp hd
    have hs1 : staged_ok { s with s_seg_part := set_emplace x s.s_seg_part } :=
      sorted_set_emplace x _ hs
    rw [add_new_all_cons, mem_add_new_all y l _ hs1 hd'.2]
    simp only []
    constructor
    · rintro (h | ⟨hy, hno⟩)
      · rcases (mem_set_emplace_iff hs).mp h with h | ⟨e, hno⟩
        · exact Or.inl h
        · exact Or.inr ⟨e ▸ List.mem_cons_self _ _, e ▸ hno⟩
      · exact Or.inr ⟨List.mem_cons_of_mem _ hy,
          fun w hw => hno w (mem_set_emplace_of_mem hw)⟩
    · rintro (h | ⟨hy, hno⟩)
      · exact Or.inl (mem_set_emplace_of_mem h)
      · rcases List.mem_cons.mp hy with e | hy'
        · exact Or.inl ((mem_set_emplace_iff hs).mpr (Or.inr ⟨e, e ▸ hno⟩))
        · right
          refine ⟨hy', ?_⟩
          intro w hw
          rcases (mem_set_emplace_iff hs).mp hw with h | ⟨e, _⟩
          · exact hno w h
          · rw [e]; exact hd'.1 y hy'

/-- C10: for any two sequences of `add_new` calls that are permutations of each other,
made on equal starting states (with a well-formed staged set), the deposited parts
having pairwise distinct `(sample_name, contig_name, seg_part_no)`, the states before
`process_new` are equal, so `process_new` returns the same count and produces the same
group buffers. -/
theorem process_new_independent_of_deposit_order (s : CBufferedSegPart)
    (l1 l2 : List kk_seg_part_t) (hs : staged_ok s) (hp : l1.Perm l2)
    (hd : l1.Pairwise (fun a b => a.key ≠ b.key)) :
    s.add_new_all l1 = s.add_new_all l2 ∧
    (s.add_new_all l1).process_new = (s.add_new_all l2).process_new := by
  have hd2 : l2.Pairwise (fun a b => a.key ≠ b.key) :=
    (hp.pairwise_iff (fun {a b} h => Ne.symm h)).mp hd
  have hst : (s.add_new_all l1).s_seg_part = (s.add_new_all l2).s_seg_part := by
    have s1 := add_new_all_sorted l1 s hs
    have s2 := add_new_all_sorted l2 s hs
    refine List.eq_of_perm_of_sorted ?_ s1 s2
    rw [List.perm_ext_iff_of_nodup s1.nodup s2.nodup]
    intro y
    rw [mem_add_new_all y l1 s hs hd, mem_add_new_all y l2 s hs hd2]
    constructor
    · rintro (h | ⟨h, hno⟩)
      · exact Or.inl h
      · exact Or.inr ⟨hp.subset h, hno⟩
    · rintro (h | ⟨h, hno⟩)
      · exact Or.inl h
      · exact Or.inr ⟨hp.symm.subset h, hno⟩
  have heq : s.add_new_all l1 = s.add_new_all l2 := by
    have f1 := add_new_all_frame l1 s
    have f2 := add_new_all_frame l2 s
    cases h1 : s.add_new_all l1
    cases h2 : s.add_new_all l2
    rw [h1] at f1 hst
    rw [h2] at f2 hst
    simp only [] at f1 f2 hst
    rw [f1.1, f1.2, f2.1, f2.2, hst]
  exact ⟨heq, by rw [heq]⟩

theorem process_new_independent_of_deposit_order_witness :
    (sample_state.add_new_all [part_a, part_c]).process_new =
      (sample_state.add_new_all [part_c, part_a]).process_new ∧
    ((sample_state.add_new_all [part_a, part_c]).process_new).map (fun r => r.2) = some 2 :=
  ⟨(process_new_independent_of_deposit_order sample_state [part_a, part_c] [part_c, part_a]
      (by unfold staged_ok; decide) (List.Perm.swap _ _ _) (by decide)).2,
   by decide⟩

/-! ## C11: the key of the staged set -/

/-- In a set in ascending order that already holds an element with the key of `x`,
`emplace` stores nothing. -/
theorem set_emplace_of_key_mem (x : kk_seg_part_t) : ∀ (l : List kk_seg_part_t),
    l.Sorted kk_seg_part_t.less → (∃ y ∈ l, y.key = x.key) → set_emplace x l = l
  | [], _, h => by
    obtain ⟨y, hy, _⟩ := h
    exact absurd hy (List.not_mem_nil _)
  | a :: l, hs, h => by
    have hs' := List.sorted_cons.mp hs
    obtain ⟨y, hy, hyk⟩ := h
    unfold set_emplace
    by_cases h1 : x.lt a = true
    · exfalso
      rcases List.mem_cons.mp hy with e | hy'
      · rw [e] at hyk
        exact kk_key_ne_of_lt h1 hyk.symm
      · exact kk_key_ne_of_lt (kk_lt_trans h1 (hs'.1 y hy')) hyk.symm
    · rw [if_neg h1]
      by_cases h2 : a.lt x = true
      · rw [if_pos h2]
        have hy' : y ∈ l := by
          rcases List.mem_cons.mp hy with e | hy'
          · rw [e] at hyk
            exact absurd hyk (kk_key_ne_of_lt h2)
          · exact hy'
        rw [set_emplace_of_key_mem x l hs'.2 ⟨y, hy', hyk⟩]
      · rw [if_neg h2]

/-- The ordering of the staged set looks at the key only. -/
theorem kk_lt_congr_key {a a' b b' : kk_seg_part_t} (ha : a.key = a'.key)
    (hb : b.key = b'.key) : a.lt b = a'.lt b' := by
  simp only [kk_seg_part_t.key, Prod.mk.injEq] at ha hb
  obtain ⟨a1, a2, a3⟩ := ha
  obtain ⟨b1, b2, b3⟩ := hb
  unfold kk_seg_part_t.lt
  rw [a1, a2, a3, b1, b2, b3]

/-- C11, as stated, fails: `kk_seg_part_t::operator<` does not compare the boundary
pairs. `part_a` (pair `(1, 2)`) and `part_a_twin` (pair `(3, 4)`) have the same
`(sample_name, contig_name, seg_part_no)`: neither is less than the other, so they are
one set element although their pairs differ, and `emplace` of the second stores nothing.
`part_a_twin` (pair `(3, 4)`) is ordered before `sample_part` (pair `(1, 2)`), against a
comparison that looks at the pair first. -/
theorem staged_set_ignores_boundary_pair :
    part_a.pair ≠ part_a_twin.pair ∧
    part_a.lt part_a_twin = false ∧ part_a_twin.lt part_a = false ∧
    part_a.lt_pair_first part_a_twin = true ∧
    set_emplace part_a_twin [part_a] = [part_a] ∧
    part_a_twin.lt sample_part = true ∧
    part_a_twin.lt_pair_first sample_part = false ∧
    sample_part.lt_pair_first part_a_twin = true := by
  decide

/-- C11 (amended): the set into which `add_new` stages new parts is keyed by
`(sample_name, contig_name, seg_part_no)` alone: the comparison that orders the staged
parts is the lexicographic comparison of these three fields and gives the same answer
whatever the boundary pairs (and the other fields) are, and two staged parts are treated
as the same set element exactly when their `(sample_name, contig_name, seg_part_no)`
coincide: `emplace` stores nothing when the set holds a part with that key and stores
the part otherwise. -/
theorem staged_set_keyed_by_position (a b : kk_seg_part_t) :
    (a.lt b = true ↔ a.sample_name < b.sample_name ∨ (a.sample_name = b.sample_name ∧
      (a.contig_name < b.contig_name ∨
        (a.contig_name = b.contig_name ∧ a.seg_part_no < b.seg_part_no)))) ∧
    (∀ a' b' : kk_seg_part_t, a'.key = a.key → b'.key = b.key → a'.lt b' = a.lt b) ∧
    ((a.lt b = false ∧ b.lt a = false) ↔ a.key = b.key) ∧
    (∀ l : List kk_seg_part_t, l.Sorted kk_seg_part_t.less →
      ((∃ y ∈ l, y.key = a.key) → set_emplace a l = l) ∧
      ((∀ y ∈ l, y.key ≠ a.key) → (set_emplace a l).Perm (a :: l))) :=
  ⟨kk_lt_iff a b, fun _ _ ha hb => kk_lt_congr_key ha hb, kk_equiv_iff a b,
    fun l hl => ⟨set_emplace_of_key_mem a l hl, set_emplace_perm a l⟩⟩

theorem staged_set_keyed_by_position_witness :
    set_emplace part_a_twin [part_a, sample_part] = [part_a, sample_part] ∧
    (set_emplace part_c [part_a, sample_part]).Perm (part_c :: [part_a, sample_part]) :=
  have h := (staged_set_keyed_by_position part_a_twin part_a).2.2.2 [part_a, sample_part]
    (by decide)
  have h' := (staged_set_keyed_by_position part_c part_a).2.2.2 [part_a, sample_part]
    (by decide)
  ⟨h.1 ⟨part_a, by decide, by decide⟩, h'.2 (by decide)⟩

/-! ## C12: the boundary pair is an ordered pair for the partitioner -/

/-- C12, as stated, fails: `m_kmers` is keyed by the ordered pair `(kmer1, kmer2)`. The
staged parts with the pairs `(1, 2)` and `(2, 1)` get the ids 2 and 3 and end up in two
different buffers. -/
theorem swapped_pair_gets_another_group :
    part_a.pair = (1, 2) ∧ part_a_swapped.pair = (2, 1) ∧
    kmers_at swapped_state.new_group_ids part_a.pair = 2 ∧
    kmers_at swapped_state.new_group_ids part_a_swapped.pair = 3 ∧
    swapped_state.process_new.map (fun r => (r.1.entries 2, r.1.entries 3, r.2)) =
      some ([part_a.toSegPart], [part_a_swapped.toSegPart], 2) := by
  decide

/-- C12 (amended): for the partitioner a group is identified by the ordered pair
`(kmer1, kmer2)` as it is submitted: whenever `process_new` returns (on a partitioner
with fewer than `2^32` buffers), a staged part with boundary pair `(a, b)` and a staged
part with boundary pair `(b, a)` get the same group id, and lie in the same buffer
created by the call, exactly when `a = b`; and the call returns when the new ids fit in
`uint32_t`. -/
theorem swapped_pairs_share_group_iff_equal (s : CBufferedSegPart)
    (hn : s.vl_seg_part.length < U32) :
    (s.vl_seg_part.length + s.no_distinct_pairs < U32 → ∃ r, s.process_new = some r) ∧
    ∀ (s' : CBufferedSegPart) (d : Nat), s.process_new = some (s', d) →
      ∀ x ∈ s.s_seg_part, ∀ y ∈ s.s_seg_part, ∀ a b : Nat,
        x.pair = (a, b) → y.pair = (b, a) →
        (kmers_at s.new_group_ids x.pair = kmers_at s.new_group_ids y.pair ↔ a = b) ∧
        ((∃ (g : Nat) (c : list_seg_part_t), s.vl_seg_part.length ≤ g ∧
            s'.vl_seg_part[g]? = some c ∧ x.toSegPart ∈ c.l_seg_part ∧
            y.toSegPart ∈ c.l_seg_part) ↔ a = b) := by
  refine ⟨(process_new_returns_iff s hn).mpr, ?_⟩
  intro s' d hr x hx y hy a b hxa hyb
  have hfit := process_new_some_imp_fit s hn _ hr
  obtain ⟨s'', h1, h2⟩ := process_new_places_by_pair s hfit
  have e : s'' = s' := by
    rw [h1] at hr
    exact (Prod.mk.inj (Option.some.inj hr)).1
  rw [e] at h2
  have hpair : x.pair = y.pair ↔ a = b := by
    rw [hxa, hyb]
    constructor
    · intro h
      exact (Prod.mk.inj h).1
    · intro h
      rw [h]
  have h3 := (h2 x hx).2 y hy
  exact ⟨h3.1.trans hpair, h3.2.trans hpair⟩

theorem swapped_pairs_share_group_iff_equal_witness :
    (∃ r, swapped_state.process_new = some r) ∧
    ∀ (s' : CBufferedSegPart) (d : Nat), swapped_state.process_new = some (s', d) →
      (kmers_at swapped_state.new_group_ids part_a.pair =
        kmers_at swapped_state.new_group_ids part_a_swapped.pair ↔ (1 : Nat) = 2) :=
  have h := swapped_pairs_share_group_iff_equal swapped_state (by decide)
  ⟨h.1 (by decide), fun s' d hr =>
    (h.2 s' d hr part_a (by decide) part_a_swapped (by decide) 1 2 rfl rfl).1⟩

/-! ## C13: what `add_known` changes -/

/-- C13: for every partitioner with `n` buffers and every `group_id < n`, `add_known`
returns and appends exactly one entry, carrying the given `kmer1`, `kmer2`, sample
name, contig name, payload, orientation flag and `seg_part_no`, at the end of buffer
`group_id`; the earlier entries and the read cursor of that buffer, every other buffer,
the number of buffers, the staged set and the drain cursor are unchanged. -/
theorem add_known_appends_one_entry (s : CBufferedSegPart) (group_id kmer1 kmer2 : Nat)
    (sample_name contig_name : string) (seg_data : contig_t) (is_rev_comp : Bool)
    (seg_part_no : Nat) (hg : group_id < s.vl_seg_part.length) :
    ∃ s' b b', s.add_known group_id kmer1 kmer2 sample_name contig_name seg_data
        is_rev_comp seg_part_no = some s' ∧
      s.vl_seg_part[group_id]? = some b ∧ s'.vl_seg_part[group_id]? = some b' ∧
      b'.l_seg_part = b.l_seg_part ++
        [{ kmer1 := kmer1, kmer2 := kmer2, sample_name := sample_name,
           contig_name := contig_name, seg_data := seg_data, is_rev_comp := is_rev_comp,
           seg_part_no := seg_part_no }] ∧
      b'.virt_begin = b.virt_begin ∧
      (∀ g : Nat, g ≠ group_id → s'.vl_seg_part[g]? = s.vl_seg_part[g]?) ∧
      s'.vl_seg_part.length = s.vl_seg_part.length ∧
      s'.s_seg_part = s.s_seg_part ∧ s'.a_v_part_id = s.a_v_part_id := by
  have hb : s.vl_seg_part[group_id]? = some s.vl_seg_part[group_id] :=
    List.getElem?_eq_getElem hg
  refine ⟨s.with_buffer group_id ((s.vl_seg_part[group_id]).emplace kmer1 kmer2 sample_name
      contig_name seg_data is_rev_comp seg_part_no), s.vl_seg_part[group_id],
    (s.vl_seg_part[group_id]).emplace kmer1 kmer2 sample_name contig_name seg_data
      is_rev_comp seg_part_no, ?_, hb, ?_, rfl, rfl, ?_, ?_, rfl, rfl⟩
  · unfold CBufferedSegPart.add_known
    rw [hb]
    rfl
  · simp only [CBufferedSegPart.with_buffer, List.getElem?_set, hg, if_true]
  · intro g hne
    simp only [CBufferedSegPart.with_buffer, List.getElem?_set, if_neg (Ne.symm hne)]
  · simp only [CBufferedSegPart.with_buffer, List.length_set]

theorem add_known_appends_one_entry_witness :
    ∃ s' b b', spread_state.add_known 1 7 8 [1] [2] [3, 4] true 9 = some s' ∧
      spread_state.vl_seg_part[1]? = some b ∧ s'.vl_seg_part[1]? = some b' ∧
      b'.l_seg_part = b.l_seg_part ++
        [{ kmer1 := 7, kmer2 := 8, sample_name := [1], contig_name := [2],
           seg_data := [3, 4], is_rev_comp := true, seg_part_no := 9 }] ∧
      b'.virt_begin = b.virt_begin ∧
      (∀ g : Nat, g ≠ 1 → s'.vl_seg_part[g]? = spread_state.vl_seg_part[g]?) ∧
      s'.vl_seg_part.length = spread_state.vl_seg_part.length ∧
      s'.s_seg_part = spread_state.s_seg_part ∧
      s'.a_v_part_id = spread_state.a_v_part_id :=
  add_known_appends_one_entry spread_state 1 7 8 [1] [2] [3, 4] true 9 (by decide)

/-! ## C17: the orderings are the lexicographic order of the key -/

theorem seg_lt_asymm {a b : seg_part_t} (h1 : a.lt b = true) : b.lt a = false := by
  by_contra h
  have h2 : b.lt a = true := by simpa using h
  have h3 := seg_lt_trans h1 h2
  rw [seg_lt_irrefl] at h3
  exact Bool.noConfusion h3

theorem seg_equiv_iff (a b : seg_part_t) :
    (a.lt b = false ∧ b.lt a = false) ↔ a.key = b.key := by
  constructor
  · rintro ⟨h1, h2⟩
    have n1 : ¬ a.lt b = true := by simp [h1]
    have n2 : ¬ b.lt a = true := by simp [h2]
    rw [seg_lt_iff] at n1 n2
    obtain ⟨e1, e2, e3⟩ := lex3_total n1 n2
    simp [seg_part_t.key, e1, e2, e3]
  · intro h
    simp only [seg_part_t.key, Prod.mk.injEq] at h
    obtain ⟨e1, e2, e3⟩ := h
    have n1 : ¬ a.lt b = true := by
      rw [seg_lt_iff, e1, e2, e3]; exact lex3_irrefl
    have n2 : ¬ b.lt a = true := by
      rw [seg_lt_iff, e1, e2, e3]; exact lex3_irrefl
    exact ⟨by simpa using n1, by simpa using n2⟩

theorem seg_lt_congr_key {a a' b b' : seg_part_t} (ha : a.key = a'.key)
    (hb : b.key = b'.key) : a.lt b = a'.lt b' := by
  simp only [seg_part_t.key, Prod.mk.injEq] at ha hb
  obtain ⟨a1, a2, a3⟩ := ha
  obtain ⟨b1, b2, b3⟩ := hb
  unfold seg_part_t.lt
  rw [a1, a2, a3, b1, b2, b3]

/-- Exactly one of three statements holds when the first excludes the second and the
third is the negation of both. -/
theorem exactly_one_of_three {p q r : Prop} (hpq : p → ¬ q) (hr : r ↔ (¬ p ∧ ¬ q)) :
    (p ∧ ¬ q ∧ ¬ r) ∨ (¬ p ∧ q ∧ ¬ r) ∨ (¬ p ∧ ¬ q ∧ r) := by
  by_cases hp : p
  · exact Or.inl ⟨hp, hpq hp, fun h => (hr.mp h).1 hp⟩
  · by_cases hq : q
    · exact Or.inr (Or.inl ⟨hp, hq, fun h => (hr.mp h).2 hq⟩)
    · exact Or.inr (Or.inr ⟨hp, hq, hr.mpr ⟨hp, hq⟩⟩)

/-- C17: `operator<` of `seg_part_t` and of `kk_seg_part_t` is the lexicographic strict
order on `(sample_name, contig_name, seg_part_no)`: it is irreflexive and transitive,
for any two parts exactly one of `a < b`, `b < a` and equality of the three key fields
holds, and its value is the same for parts with the same three key fields, whatever
`kmer1`, `kmer2`, the payload and the orientation flag are. -/
theorem operator_lt_is_lexicographic_on_key :
    (∀ a b : seg_part_t,
      (a.lt b = true ↔
        toLex (a.sample_name, toLex (a.contig_name, a.seg_part_no)) <
          toLex (b.sample_name, toLex (b.contig_name, b.seg_part_no))) ∧
      a.lt a = false ∧
      (∀ c : seg_part_t, a.lt b = true → b.lt c = true → a.lt c = true) ∧
      ((a.lt b = true ∧ ¬ b.lt a = true ∧ ¬ a.key = b.key) ∨
        (¬ a.lt b = true ∧ b.lt a = true ∧ ¬ a.key = b.key) ∨
        (¬ a.lt b = true ∧ ¬ b.lt a = true ∧ a.key = b.key)) ∧
      (∀ a' b' : seg_part_t, a'.key = a.key → b'.key = b.key → a'.lt b' = a.lt b)) ∧
    (∀ a b : kk_seg_part_t,
      (a.lt b = true ↔
        toLex (a.sample_name, toLex (a.contig_name, a.seg_part_no)) <
          toLex (b.sample_name, toLex (b.contig_name, b.seg_part_no))) ∧
      a.lt a = false ∧
      (∀ c : kk_seg_part_t, a.lt b = true → b.lt c = true → a.lt c = true) ∧
      ((a.lt b = true ∧ ¬ b.lt a = true ∧ ¬ a.key = b.key) ∨
        (¬ a.lt b = true ∧ b.lt a = true ∧ ¬ a.key = b.key) ∨
        (¬ a.lt b = true ∧ ¬ b.lt a = true ∧ a.key = b.key)) ∧
      (∀ a' b' : kk_seg_part_t, a'.key = a.key → b'.key = b.key → a'.lt b' = a.lt b)) := by
  constructor
  · intro a b
    refine ⟨?_, seg_lt_irrefl a, fun c => seg_lt_trans, ?_, fun _ _ ha hb =>
      seg_lt_congr_key ha hb⟩
    · rw [seg_lt_iff, Prod.Lex.lt_iff]
      simp only [Prod.Lex.lt_iff, ofLex_toLex]
    · refine exactly_one_of_three (fun h => by simp [seg_lt_asymm h]) ?_
      rw [← seg_equiv_iff]
      simp
  · intro a b
    refine ⟨?_, kk_lt_irrefl a, fun c => kk_lt_trans, ?_, fun _ _ ha hb =>
      kk_lt_congr_key ha hb⟩
    · rw [kk_lt_iff, Prod.Lex.lt_iff]
      simp only [Prod.Lex.lt_iff, ofLex_toLex]
    · refine exactly_one_of_three (fun h => by simp [kk_lt_asymm h]) ?_
      rw [← kk_equiv_iff]
      simp

theorem operator_lt_is_lexicographic_on_key_witness :
    part_a.lt sample_part = true ∧ part_a.lt part_c = true ∧
    part_a_twin.lt sample_part = part_a.lt sample_part ∧
    part_a.toSegPart.lt part_c.toSegPart = true :=
  have h := operator_lt_is_lexicographic_on_key.2 part_a sample_part
  have h' := operator_lt_is_lexicographic_on_key.1 part_a.toSegPart sample_part.toSegPart
  ⟨by decide, h.2.2.1 part_c (by decide) (by decide),
    h.2.2.2.2 part_a_twin sample_part (by decide) rfl,
    h'.2.2.1 part_c.toSegPart (by decide) (by decide)⟩

/-! ## C18: `process_new` leaves the existing groups alone -/

theorem vec_resize_self (v : List list_seg_part_t) : vec_resize v v.length = v := by
  simp [vec_resize]

/-- With nothing staged (and fewer than `2^32` buffers) `process_new` returns 0 and the
state it was given. -/
theorem process_new_of_nothing_staged (s : CBufferedSegPart)
    (hn : s.vl_seg_part.length < U32) (h0 : s.s_seg_part = []) :
    s.process_new = some (s, 0) := by
  have hm : s.vl_seg_part.length % U32 = s.vl_seg_part.length := Nat.mod_eq_of_lt hn
  have hd : (s.vl_seg_part.length + U32 - s.vl_seg_part.length) % U32 = 0 := by
    rw [Nat.add_sub_cancel_left]
    exact Nat.mod_self _
  unfold CBufferedSegPart.process_new
  simp only [h0, assign_group_ids, add_staged, hm, vec_resize_self, hd]
  cases s
  simp only [] at h0
  rw [h0]

/-- C18: for every state with `n` buffers (`n < 2^32`, the vector being sized through
`uint32_t` values only), whenever `process_new` returns, each buffer with id below `n`
has the stored entries and the read cursor it had before, every staged part has been
appended to a buffer with id at least `n`, and the drain cursor is unchanged; the call
returns when the new ids fit in `uint32_t`. On an empty staged set `process_new` returns
0 and leaves the whole partitioner unchanged, so a second `process_new` right after a
first one changes nothing and returns 0. -/
theorem process_new_keeps_existing_groups (s : CBufferedSegPart)
    (hn : s.vl_seg_part.length < U32) :
    (s.vl_seg_part.length + s.no_distinct_pairs < U32 → ∃ r, s.process_new = some r) ∧
    (∀ (s' : CBufferedSegPart) (d : Nat), s.process_new = some (s', d) →
      (∀ (g : Nat) (b : list_seg_part_t), s.vl_seg_part[g]? = some b →
        s'.vl_seg_part[g]? = some b) ∧
      (∀ x ∈ s.s_seg_part, ∃ (g : Nat) (c : list_seg_part_t), s.vl_seg_part.length ≤ g ∧
        s'.vl_seg_part[g]? = some c ∧ x.toSegPart ∈ c.l_seg_part) ∧
      s'.a_v_part_id = s.a_v_part_id ∧
      s'.process_new = some (s', 0)) ∧
    (s.s_seg_part = [] → s.process_new = some (s, 0)) := by
  refine ⟨(process_new_returns_iff s hn).mpr, ?_, process_new_of_nothing_staged s hn⟩
  intro s' d hr
  have hfit := process_new_some_imp_fit s hn _ hr
  obtain ⟨s'', h1, h2, h3, h4, h5, h6⟩ := process_new_spec s hfit
  have e : s'' = s' := by
    rw [h1] at hr
    exact (Prod.mk.inj (Option.some.inj hr)).1
  subst e
  refine ⟨h5, ?_, h4, process_new_of_nothing_staged s'' (by rw [h2]; exact hfit) h3⟩
  intro x hx
  have hk := mem_new_pairs.mpr ⟨x, hx, rfl⟩
  have hid := new_group_id_eq s hfit hk
  have hlt := key_index_lt hk
  refine ⟨kmers_at s.new_group_ids x.pair, _, by omega, h6 _ (by omega) (by omega), ?_⟩
  exact mem_staged_for.mpr ⟨hx, rfl⟩

theorem process_new_keeps_existing_groups_witness :
    (∃ r, swapped_state.process_new = some r) ∧
    (∀ (s' : CBufferedSegPart) (d : Nat), swapped_state.process_new = some (s', d) →
      s'.vl_seg_part[0]? = some { l_seg_part := [part_k], virt_begin := 0 } ∧
      s'.process_new = some (s', 0)) ∧
    spread_state.process_new = some (spread_state, 0) :=
  have h := process_new_keeps_existing_groups swapped_state (by decide)
  have h' := process_new_keeps_existing_groups spread_state (by decide)
  ⟨h.1 (by decide),
    fun s' d hr => ⟨(h.2.1 s' d hr).1 0 _ (by decide), (h.2.1 s' d hr).2.2.2⟩,
    h'.2.2 rfl⟩

/-! ## C20: `is_empty_part` and `get_part` -/

/-- C20: for every partitioner with `n` buffers and every integer `g < n`,
`is_empty_part(g)` returns, and it returns true if and only if `g < 0` or a
`get_part(g)` call in the same state returns false (the read cursor of the buffer has
reached its stored length). `is_empty_part` computes a flag only; for `g < 0` it returns
true in every state, also one without any buffer, so it does not index a buffer then. -/
theorem is_empty_part_agrees_with_get_part (s : CBufferedSegPart) (g : Int)
    (out : seg_part_t) (hg : g < s.vl_seg_part.length) :
    (∃ r, s.is_empty_part g = some r ∧
      (r = true ↔ (g < 0 ∨ ∃ s' out', s.get_part g out = some (false, s', out'))) ∧
      (r = true ↔ (g < 0 ∨ ∃ b, s.vl_seg_part[g.toNat]? = some b ∧
        b.l_seg_part.length ≤ b.virt_begin))) ∧
    (g < 0 → ∀ t : CBufferedSegPart, t.is_empty_part g = some true) := by
  constructor
  · by_cases h0 : g < 0
    · refine ⟨true, by simp [CBufferedSegPart.is_empty_part, h0], ?_, ?_⟩
      · simp [h0]
      · simp [h0]
    · have hlt : g.toNat < s.vl_seg_part.length := by omega
      have hb := List.getElem?_eq_getElem hlt
      refine ⟨(s.vl_seg_part[g.toNat]).empty, ?_, ?_, ?_⟩
      · simp [CBufferedSegPart.is_empty_part, h0, hb]
      · simp only [h0, false_or]
        unfold CBufferedSegPart.get_part
        rw [if_neg h0, hb]
        simp only [list_seg_part_t.empty, list_seg_part_t.pop_fields, decide_eq_true_eq,
          ge_iff_le]
        by_cases hv : (s.vl_seg_part[g.toNat]).l_seg_part.length ≤
            (s.vl_seg_part[g.toNat]).virt_begin
        · rw [List.getElem?_eq_none hv]
          simp [hv]
        · rw [List.getElem?_eq_getElem (by omega)]
          simp [hv]
      · simp only [h0, false_or, hb, Option.some.injEq, exists_eq_left',
          list_seg_part_t.empty, decide_eq_true_eq, ge_iff_le]
  · intro h0 t
    simp [CBufferedSegPart.is_empty_part, h0]

theorem is_empty_part_agrees_with_get_part_witness :
    spread_state.is_empty_part 3 = some true ∧ spread_state.is_empty_part 1 = some false ∧
    (spread_state.get_part 3 seg_part_t.default).map (fun r => r.1) = some false ∧
    no_buffers.is_empty_part (-1) = some true :=
  have h := is_empty_part_agrees_with_get_part spread_state (-1) seg_part_t.default
    (by decide)
  ⟨by decide, by decide, by decide, h.2 (by decide) no_buffers⟩

/-! ## C15: ids follow the order of discovery -/

theorem first_seen_append : ∀ (l r seen : List (Nat × Nat)),
    first_seen (l ++ r) seen = first_seen l seen ++ first_seen r (seen ++ first_seen l seen)
  | [], r, seen => by simp [first_seen]
  | k :: l, r, seen => by
    have e1 : first_seen (k :: l ++ r) seen =
        if k ∈ seen then first_seen (l ++ r) seen
        else k :: first_seen (l ++ r) (seen ++ [k]) := rfl
    have e2 : first_seen (k :: l) seen =
        if k ∈ seen then first_seen l seen else k :: first_seen l (seen ++ [k]) := rfl
    rw [e1, e2]
    by_cases h : k ∈ seen
    · rw [if_pos h, if_pos h]
      exact first_seen_append l r seen
    · rw [if_neg h, if_neg h, first_seen_append l r (seen ++ [k])]
      simp

theorem key_index_append_of_not_mem (k : Nat × Nat) : ∀ (l r : List (Nat × Nat)), k ∉ l →
    key_index k (l ++ k :: r) = l.length
  | [], r, _ => by simp [key_index]
  | a :: l, r, h => by
    have hka : k ≠ a := fun e => h (e ▸ List.mem_cons_self _ _)
    have hl : k ∉ l := fun hm => h (List.mem_cons_of_mem _ hm)
    have e : key_index k (a :: l ++ k :: r) =
        if k = a then 0 else key_index k (l ++ k :: r) + 1 := rfl
    rw [e, if_neg hka, key_index_append_of_not_mem k l r hl, List.length_cons]

/-- The rank of a pair among the new pairs is the number of distinct pairs met before
its first occurrence. -/
theorem key_index_first_seen (ks : List (Nat × Nat)) (i : Nat) (k : Nat × Nat)
    (hk : ks[i]? = some k) (hfirst : k ∉ ks.take i) :
    key_index k (first_seen ks []) = (ks.take i).toFinset.card := by
  have hi : i < ks.length := (List.getElem?_eq_some.mp hk).1
  have hki : ks[i] = k := Option.some.inj ((List.getElem?_eq_getElem hi).symm.trans hk)
  have hsplit : ks = ks.take i ++ k :: ks.drop (i + 1) := by
    conv_lhs => rw [← List.take_append_drop i ks, List.drop_eq_getElem_cons hi, hki]
  have hnot : k ∉ first_seen (ks.take i) [] := by
    rw [mem_first_seen]
    exact fun h => hfirst h.1
  rw [← length_first_seen]
  conv_lhs => rw [hsplit, first_seen_append]
  simp only [List.nil_append, first_seen, if_neg hnot]
  exact key_index_append_of_not_mem k _ _ hnot

/-- The ids of `m_kmers` tell the boundary pairs of the staged parts apart. -/
theorem new_group_id_inj (s : CBufferedSegPart)
    (hfit : s.vl_seg_part.length + s.new_pairs.length < U32) {x y : kk_seg_part_t}
    (hx : x ∈ s.s_seg_part) (hy : y ∈ s.s_seg_part) :
    kmers_at s.new_group_ids y.pair = kmers_at s.new_group_ids x.pair ↔ y.pair = x.pair := by
  constructor
  · intro e
    rw [new_group_id_eq s hfit (mem_new_pairs.mpr ⟨x, hx, rfl⟩),
      new_group_id_eq s hfit (mem_new_pairs.mpr ⟨y, hy, rfl⟩)] at e
    exact key_index_inj (mem_new_pairs.mpr ⟨y, hy, rfl⟩) (mem_new_pairs.mpr ⟨x, hx, rfl⟩)
      (by omega)
  · intro e
    rw [e]

/-- The buffer that `process_new` creates for the pair of a staged part `x`: the staged
parts with that pair, in iteration order. -/
theorem process_new_buffer_of_pair (s s' : CBufferedSegPart) (d : Nat)
    (hn : s.vl_seg_part.length < U32) (hr : s.process_new = some (s', d))
    {x : kk_seg_part_t} (hx : x ∈ s.s_seg_part) :
    s.vl_seg_part.length ≤ kmers_at s.new_group_ids x.pair ∧
    kmers_at s.new_group_ids x.pair < s.vl_seg_part.length + s.no_distinct_pairs ∧
    s'.vl_seg_part[kmers_at s.new_group_ids x.pair]? = some
      { l_seg_part := (s.s_seg_part.filter (fun y => decide (y.pair = x.pair))).map
          kk_seg_part_t.toSegPart,
        virt_begin := 0 } := by
  have hfit := process_new_some_imp_fit s hn _ hr
  obtain ⟨s'', h1, _, _, _, _, h6⟩ := process_new_spec s hfit
  have e : s'' = s' := by
    rw [h1] at hr
    exact (Prod.mk.inj (Option.some.inj hr)).1
  rw [e] at h6
  have hid := new_group_id_eq s hfit (mem_new_pairs.mpr ⟨x, hx, rfl⟩)
  have hlt := key_index_lt (mem_new_pairs.mpr ⟨x, hx, rfl⟩)
  have hd : s.no_distinct_pairs = s.new_pairs.length := (new_pairs_length s).symm
  refine ⟨by omega, by omega, ?_⟩
  rw [h6 _ (by omega) (by omega)]
  unfold staged_for
  congr 3
  apply List.filter_congr
  intro y hy
  exact decide_eq_decide.mpr (new_group_id_inj s hfit hx hy)

/-- C15: on a partitioner with `n < 2^32` buffers whose staged set is in its iteration
order (ascending `(sample_name, contig_name, seg_part_no)`), whenever `process_new`
returns, it returns the number `d` of distinct staged pairs, the state has `n + d`
buffers, and the ids follow the order of discovery. The first staged part is the least
one, its boundary pair gets id `n` and buffer `n` of the new state holds exactly the
staged parts of that pair, in iteration order. In general a pair whose first occurrence
is at position `i` of the iteration gets id `n + r`, where `r` is the number of distinct
pairs among the parts before position `i`, and buffer `n + r` of the new state holds
exactly the staged parts of that pair, in iteration order, with cursor 0. Every staged
part lies in the buffer of its pair. The call returns when the new ids fit in
`uint32_t`. -/
theorem process_new_ids_in_discovery_order (s : CBufferedSegPart)
    (hn : s.vl_seg_part.length < U32) (hs : staged_ok s) :
    (s.vl_seg_part.length + s.no_distinct_pairs < U32 → ∃ r, s.process_new = some r) ∧
    ∀ (s' : CBufferedSegPart) (d : Nat), s.process_new = some (s', d) →
      d = s.no_distinct_pairs ∧
      s'.vl_seg_part.length = s.vl_seg_part.length + s.no_distinct_pairs ∧
      (∀ x : kk_seg_part_t, s.s_seg_part.head? = some x →
        (∀ y ∈ s.s_seg_part.tail, x.lt y = true) ∧
        kmers_at s.new_group_ids x.pair = s.vl_seg_part.length ∧
        s'.vl_seg_part[s.vl_seg_part.length]? = some
          { l_seg_part := (s.s_seg_part.filter (fun y => decide (y.pair = x.pair))).map
              kk_seg_part_t.toSegPart,
            virt_begin := 0 }) ∧
      (∀ (i : Nat) (x : kk_seg_part_t), s.s_seg_part[i]? = some x →
        (∀ y ∈ s.s_seg_part.take i, y.pair ≠ x.pair) →
        kmers_at s.new_group_ids x.pair = s.vl_seg_part.length +
          ((s.s_seg_part.take i).map kk_seg_part_t.pair).toFinset.card ∧
        s'.vl_seg_part[s.vl_seg_part.length +
            ((s.s_seg_part.take i).map kk_seg_part_t.pair).toFinset.card]? = some
          { l_seg_part := (s.s_seg_part.filter (fun y => decide (y.pair = x.pair))).map
              kk_seg_part_t.toSegPart,
            virt_begin := 0 }) ∧
      (∀ x ∈ s.s_seg_part, ∃ (i : Nat) (x0 : kk_seg_part_t), s.s_seg_part[i]? = some x0 ∧
        x0.pair = x.pair ∧ (∀ y ∈ s.s_seg_part.take i, y.pair ≠ x.pair) ∧
        ∃ b, s'.vl_seg_part[s.vl_seg_part.length +
            ((s.s_seg_part.take i).map kk_seg_part_t.pair).toFinset.card]? = some b ∧
          x.toSegPart ∈ b.l_seg_part) := by
  refine ⟨(process_new_returns_iff s hn).mpr, ?_⟩
  intro s' d hr
  have hfit := process_new_some_imp_fit s hn _ hr
  obtain ⟨s'', h1, h2, _, _, _, _⟩ := process_new_spec s hfit
  have e : s'' = s' ∧ s.new_pairs.length = d := by
    rw [h1] at hr
    exact Prod.mk.inj (Option.some.inj hr)
  rw [e.1] at h2
  have hd : s.no_distinct_pairs = s.new_pairs.length := (new_pairs_length s).symm
  have hrank : ∀ (i : Nat) (x : kk_seg_part_t), s.s_seg_part[i]? = some x →
      (∀ y ∈ s.s_seg_part.take i, y.pair ≠ x.pair) →
      kmers_at s.new_group_ids x.pair = s.vl_seg_part.length +
        ((s.s_seg_part.take i).map kk_seg_part_t.pair).toFinset.card := by
    intro i x hx hfirst
    have hmem : x ∈ s.s_seg_part := List.mem_iff_getElem?.mpr ⟨i, hx⟩
    rw [new_group_id_eq s hfit (mem_new_pairs.mpr ⟨x, hmem, rfl⟩)]
    congr 1
    have hk : (s.s_seg_part.map kk_seg_part_t.pair)[i]? = some x.pair := by
      rw [List.getElem?_map, hx]
      rfl
    have := key_index_first_seen (s.s_seg_part.map kk_seg_part_t.pair) i x.pair hk (by
      rw [← List.map_take]
      intro hm
      obtain ⟨y, hy, hyx⟩ := List.mem_map.mp hm
      exact hfirst y hy hyx)
    rw [← List.map_take] at this
    exact this
  have hbuf : ∀ (i : Nat) (x : kk_seg_part_t), s.s_seg_part[i]? = some x →
      (∀ y ∈ s.s_seg_part.take i, y.pair ≠ x.pair) →
      s'.vl_seg_part[s.vl_seg_part.length +
          ((s.s_seg_part.take i).map kk_seg_part_t.pair).toFinset.card]? = some
        { l_seg_part := (s.s_seg_part.filter (fun y => decide (y.pair = x.pair))).map
            kk_seg_part_t.toSegPart,
          virt_begin := 0 } := by
    intro i x hx hfirst
    have hmem : x ∈ s.s_seg_part := List.mem_iff_getElem?.mpr ⟨i, hx⟩
    rw [← hrank i x hx hfirst]
    exact (process_new_buffer_of_pair s s' d hn hr hmem).2.2
  refine ⟨by rw [hd]; exact e.2.symm, by rw [h2, hd], ?_, fun i x hx hf =>
    ⟨hrank i x hx hf, hbuf i x hx hf⟩, ?_⟩
  · intro x hx
    cases hl : s.s_seg_part with
    | nil => rw [hl] at hx; exact Option.noConfusion hx
    | cons a l =>
      have hx0 : s.s_seg_part[0]? = some x := by
        rw [← List.head?_eq_getElem?]
        exact hx
      rw [hl] at hx
      simp only [List.head?_cons, Option.some.injEq] at hx
      subst hx
      have hsorted : (a :: l).Sorted kk_seg_part_t.less := by
        have := hs
        unfold staged_ok at this
        rw [hl] at this
        exact this
      have h0 := hrank 0 a hx0 (by simp)
      have h1 := hbuf 0 a hx0 (by simp)
      rw [← hl]
      refine ⟨?_, by simpa using h0, by simpa using h1⟩
      rw [hl]
      exact fun y hy => (List.sorted_cons.mp hsorted).1 y hy
  · intro x hx
    -- the first staged part with the pair of `x`
    have hex : ∃ i : Nat, ∃ x0 : kk_seg_part_t, s.s_seg_part[i]? = some x0 ∧
        x0.pair = x.pair := by
      obtain ⟨i, hi⟩ := List.mem_iff_getElem?.mp hx
      exact ⟨i, x, hi, rfl⟩
    classical
    let i0 := Nat.find hex
    obtain ⟨x0, hx0, hp0⟩ := Nat.find_spec hex
    have hmin : ∀ y ∈ s.s_seg_part.take i0, y.pair ≠ x.pair := by
      intro y hy hyp
      obtain ⟨j, hj⟩ := List.mem_iff_getElem?.mp hy
      have hjlt : j < i0 := by
        have := (List.getElem?_eq_some.mp hj).1
        rw [List.length_take] at this
        omega
      rw [List.getElem?_take_of_lt hjlt] at hj
      exact Nat.find_min hex hjlt ⟨y, hj, hyp⟩
    refine ⟨i0, x0, hx0, hp0, hmin, _, hbuf i0 x0 hx0 (by rw [hp0]; exact hmin), ?_⟩
    rw [hp0]
    exact List.mem_map_of_mem _ (List.mem_filter.mpr ⟨hx, by simp⟩)

theorem process_new_ids_in_discovery_order_witness :
    (∃ r, sample_state.process_new = some r) ∧
    ∀ (s' : CBufferedSegPart) (d : Nat), sample_state.process_new = some (s', d) →
      d = 2 ∧ s'.vl_seg_part.length = 1 + 2 ∧
      kmers_at sample_state.new_group_ids (1, 2) = 1 ∧
      (s'.vl_seg_part[1 + 1]?).map (fun b => (b.l_seg_part.map seg_part_t.key, b.virt_begin)) =
        some ([([1], [3], 1)], 0) :=
  have h := process_new_ids_in_discovery_order sample_state (by decide)
    (by unfold staged_ok; decide)
  ⟨h.1 (by decide), fun s' d hr =>
    ⟨(h.2 s' d hr).1.trans (by decide), (h.2 s' d hr).2.1.trans (by decide),
     ((h.2 s' d hr).2.2.1 _ rfl).2.1,
     by
      have h3 := ((h.2 s' d hr).2.2.2.1 2 _ rfl (by decide)).2
      have h4 : s'.vl_seg_part[1 + 1]? = _ := h3
      rw [h4]
      decide⟩⟩

/-! ## C16: how many entries each buffer gets from `distribute_segments` -/

theorem move_slots_succ (src : Nat) (slot : Nat → Nat) (i k : Nat) :
    move_slots src slot i (k + 1) =
      (if slot i ≠ src then [slot i] else []) ++ move_slots src slot (i + 1) k := by
  unfold move_slots
  rw [List.range'_succ, List.map_cons, List.filter_cons]
  by_cases h : slot i = src
  · simp [h]
  · simp [h]

/-- The number of entries dealt to a buffer other than the source is the number of
steps whose slot is that buffer. -/
theorem length_dealt (src d : Nat) (slot : Nat → Nat) (hd : d ≠ src) :
    ∀ (k i : Nat) (ps : List seg_part_t), k ≤ ps.length →
    (dealt d ps (move_slots src slot i k)).length =
      (List.range' i k).countP (fun j => decide (slot j = d))
  | 0, i, ps, _ => by simp [move_slots, dealt_nil_right]
  | k + 1, i, ps, hk => by
    rw [move_slots_succ, List.range'_succ, List.countP_cons]
    by_cases h : slot i = src
    · have hne : ¬ slot i = d := fun e => hd (e.symm.trans h)
      rw [if_neg (by simpa using h), List.nil_append,
        length_dealt src d slot hd k (i + 1) ps (by omega)]
      simp [hne]
    · rw [if_pos h]
      cases ps with
      | nil => simp at hk
      | cons p ps =>
        rw [List.singleton_append, dealt_cons, List.length_append,
          length_dealt src d slot hd k (i + 1) ps (by simpa using hk)]
        by_cases hsd : slot i = d
        · simp [hsd]; omega
        · simp [hsd]

theorem length_move_slots (src : Nat) (slot : Nat → Nat) : ∀ (k i : Nat),
    (move_slots src slot i k).length + (List.range' i k).countP (fun j => decide (slot j = src))
      = k
  | 0, i => by simp [move_slots]
  | k + 1, i => by
    have ih := length_move_slots src slot k (i + 1)
    rw [move_slots_succ, List.range'_succ, List.countP_cons]
    by_cases h : slot i = src
    · rw [if_neg (by simpa using h), List.nil_append, if_pos (by simpa using h)]
      omega
    · rw [if_pos h, List.singleton_append, List.length_cons, if_neg (by simpa using h)]
      omega

theorem countP_rotation_slot {dfrom dto d : Nat} (hd1 : dfrom ≤ d) (s : Nat) :
    (List.range' 0 s).countP (fun j => decide (rotation_slot dfrom dto dfrom j = d)) =
      indices_mod s (dto - dfrom) (d - dfrom) := by
  unfold indices_mod
  rw [List.range_eq_range']
  congr 1
  funext j
  have : rotation_slot dfrom dto dfrom j = dfrom + j % (dto - dfrom) := by
    simp [rotation_slot]
  rw [this, decide_eq_decide]
  constructor <;> intro h <;> omega

theorem countP_rotation_slot_outside {dfrom dto d : Nat} (hft : dfrom < dto)
    (hd : ¬ (dfrom ≤ d ∧ d < dto)) (s : Nat) :
    (List.range' 0 s).countP (fun j => decide (rotation_slot dfrom dto dfrom j = d)) = 0 := by
  rw [List.countP_eq_zero]
  intro j _
  have h1 := rotation_slot_lt hft dfrom j
  have h2 : dfrom ≤ rotation_slot dfrom dto dfrom j := by
    unfold rotation_slot; omega
  have : ¬ rotation_slot dfrom dto dfrom j = d := fun e => hd ⟨by omega, by omega⟩
  simpa using this

/-- The number of `i < s` with `i mod w = v` is `floor(s / w)` or `ceil(s / w)`. -/
theorem indices_mod_floor_or_ceil (s w v : Nat) (hw : 0 < w) (hv : v < w) :
    indices_mod s w v = s / w ∨ indices_mod s w v = (s + w - 1) / w := by
  have hc : indices_mod s w v = Nat.count (fun x => x ≡ v [MOD w]) s := by
    unfold indices_mod Nat.count
    congr 1
    funext i
    simp only [Nat.ModEq, Nat.mod_eq_of_lt hv]
  rw [hc, Nat.count_modEq_card s hw v, Nat.mod_eq_of_lt hv]
  by_cases h : v < s % w
  · right
    rw [if_pos h]
    have hdm : w * (s / w) + s % w = s := Nat.div_add_mod s w
    have hlt : s % w < w := Nat.mod_lt _ hw
    have e1 : (s / w + 1) * w = w * (s / w) + w := by ring
    have e2 : (s / w + 1 + 1) * w = w * (s / w) + w + w := by ring
    exact (Nat.div_eq_of_lt_le (by rw [e1]; omega) (by rw [e2]; omega)).symm
  · left
    rw [if_neg h, Nat.add_zero]

/-- C16, as stated, fails for a source with `2^32` or more stored entries:
`list_seg_part_t::size` casts the length to `uint32_t`. Buffer 0 stores `2^32` entries,
the loop bound `no_in_src` is 0 and the call changes nothing, although
`floor(s / w) = ceil(s / w) = 2^32` entries are due to buffer 1 and the source, which
lies outside the range `[1, 2)`, should keep no unread entry. -/
theorem distribute_segments_truncates_size :
    ∃ b, huge_source.vl_seg_part[0]? = some b ∧ b.l_seg_part.length = U32 ∧
      b.virt_begin = 0 ∧ b.size = 0 ∧
      U32 / (2 - 1) = U32 ∧ (U32 + (2 - 1) - 1) / (2 - 1) = U32 ∧
      huge_source.distribute_segments 0 1 2 = some huge_source ∧
      huge_source.vl_seg_part[1]? = some { l_seg_part := [], virt_begin := 0 } ∧
      b.unread.length = U32 := by
  have hlen : (List.replicate U32 part_k).length = U32 := List.length_replicate _ _
  refine ⟨{ l_seg_part := List.replicate U32 part_k, virt_begin := 0 }, rfl, hlen, rfl,
    size_of_length_U32 _ hlen, by decide, by decide, ?_, rfl, ?_⟩
  · exact distribute_segments_of_size_zero huge_source 0 1 2 _ rfl
      (size_of_length_U32 _ hlen)
  · show (List.drop 0 (List.replicate U32 part_k)).length = U32
    rw [List.drop_zero, hlen]

/-- C16 (amended): for a source buffer `src` with `s < 2^32` stored entries and read
cursor 0 and a range of width `w = dest_id_to - dest_id_from >= 1` inside the vector,
`distribute_segments` returns; every buffer `d` of the range other than `src` keeps its
entries and cursor and receives, at its end, exactly as many entries as there are
indices `i < s` with `i mod w = d - dest_id_from`, which is `floor(s / w)` or
`ceil(s / w)`; if `src` lies inside the range it keeps that number (for
`src - dest_id_from`) of unread entries, again `floor(s / w)` or `ceil(s / w)`, and if
`src` lies outside the range it keeps no unread entry. -/
theorem distribute_segments_balances (s : CBufferedSegPart)
    (src_id dest_id_from dest_id_to : Nat) (b : list_seg_part_t)
    (hb : s.vl_seg_part[src_id]? = some b) (hv : b.virt_begin = 0)
    (hwf : cursors_ok s.vl_seg_part)
    (hft : dest_id_from < dest_id_to) (hto : dest_id_to ≤ s.vl_seg_part.length)
    (hU : dest_id_to < U32) (hs : b.l_seg_part.length < U32) :
    ∃ s', s.distribute_segments src_id dest_id_from dest_id_to = some s' ∧
      (∀ (d : Nat) (d0 : list_seg_part_t), dest_id_from ≤ d → d < dest_id_to → d ≠ src_id →
        s.vl_seg_part[d]? = some d0 →
        ∃ (d1 : list_seg_part_t) (rcv : List seg_part_t), s'.vl_seg_part[d]? = some d1 ∧
          d1.virt_begin = d0.virt_begin ∧ d1.l_seg_part = d0.l_seg_part ++ rcv ∧
          rcv.length = indices_mod b.l_seg_part.length (dest_id_to - dest_id_from)
            (d - dest_id_from) ∧
          (rcv.length = b.l_seg_part.length / (dest_id_to - dest_id_from) ∨
            rcv.length = (b.l_seg_part.length + (dest_id_to - dest_id_from) - 1) /
              (dest_id_to - dest_id_from))) ∧
      ∃ b', s'.vl_seg_part[src_id]? = some b' ∧
        (dest_id_from ≤ src_id ∧ src_id < dest_id_to →
          b'.unread.length = indices_mod b.l_seg_part.length (dest_id_to - dest_id_from)
            (src_id - dest_id_from) ∧
          (b'.unread.length = b.l_seg_part.length / (dest_id_to - dest_id_from) ∨
            b'.unread.length = (b.l_seg_part.length + (dest_id_to - dest_id_from) - 1) /
              (dest_id_to - dest_id_from))) ∧
        (¬ (dest_id_from ≤ src_id ∧ src_id < dest_id_to) → b'.unread = []) := by
  have hsize : b.size = b.l_seg_part.length := Nat.mod_eq_of_lt hs
  have hw : 0 < dest_id_to - dest_id_from := by omega
  obtain ⟨_, _, s', h1, h2, b', h3, h4, h5, h6⟩ :=
    distribute_segments_rotation_from_dest_id_from_aux s src_id dest_id_from dest_id_to b hb
      hv hwf hft hto hU
  rw [hsize] at h2 h4 h6
  have hkept := length_move_slots src_id
    (rotation_slot dest_id_from dest_id_to dest_id_from) b.l_seg_part.length 0
  refine ⟨s', h1, ?_, b', h3, ?_, ?_⟩
  · intro d d0 hd1 hd2 hne hd0
    have hlen := length_dealt src_id d (rotation_slot dest_id_from dest_id_to dest_id_from)
      hne b.l_seg_part.length 0 b.l_seg_part (le_refl _)
    rw [countP_rotation_slot hd1] at hlen
    refine ⟨_, _, h2 d d0 hne hd0, rfl, rfl, hlen, ?_⟩
    rw [hlen]
    exact indices_mod_floor_or_ceil _ _ _ hw (by omega)
  · intro hin
    have hlen : b'.unread.length = indices_mod b.l_seg_part.length
        (dest_id_to - dest_id_from) (src_id - dest_id_from) := by
      rw [h6, List.length_drop, ← countP_rotation_slot hin.1]
      omega
    refine ⟨hlen, ?_⟩
    rw [hlen]
    exact indices_mod_floor_or_ceil _ _ _ hw (by omega)
  · intro hout
    rw [countP_rotation_slot_outside hft hout] at hkept
    rw [h6]
    exact List.drop_eq_nil_of_le (by omega)

theorem distribute_segments_balances_witness :
    ∃ s', spread_state.distribute_segments 1 0 3 = some s' ∧
      (s'.entries 0).length = 2 ∧ (s'.entries 2).length = 1 ∧
      indices_mod 3 3 0 = 1 ∧ indices_mod 3 3 2 = 1 := by
  obtain ⟨s', h1, _⟩ := distribute_segments_balances spread_state 1 0 3
    { l_seg_part := [part_c.toSegPart, sample_part.toSegPart, part_a.toSegPart],
      virt_begin := 0 }
    (by decide) rfl cursors_ok_spread_state (by decide) (by decide) (by decide) (by decide)
  refine ⟨s', h1, ?_, ?_, by decide, by decide⟩
  · have e : spread_state.distribute_segments 1 0 3 = some s' := h1
    have h := congrArg (Option.map (fun t => (t.entries 0).length)) e
    exact Option.some.inj ((by decide : Option.map (fun t => (t.entries 0).length)
      (spread_state.distribute_segments 1 0 3) = some 2).symm.trans h).symm
  · have e : spread_state.distribute_segments 1 0 3 = some s' := h1
    have h := congrArg (Option.map (fun t => (t.entries 2).length)) e
    exact Option.some.inj ((by decide : Option.map (fun t => (t.entries 2).length)
      (spread_state.distribute_segments 1 0 3) = some 1).symm.trans h).symm

/-! ### C19: `distribute_segments` counts the stored length of the source -/

theorem pop_run_add : ∀ (k1 k2 : Nat) (b : list_seg_part_t) (sp : seg_part_t),
    pop_run (k1 + k2) b sp =
      ((pop_run k1 b sp).1 ++ (pop_run k2 (pop_run k1 b sp).2.1 (pop_run k1 b sp).2.2).1,
       (pop_run k2 (pop_run k1 b sp).2.1 (pop_run k1 b sp).2.2).2.1,
       (pop_run k2 (pop_run k1 b sp).2.1 (pop_run k1 b sp).2.2).2.2)
  | 0, k2, b, sp => by
    rw [Nat.zero_add]
    rfl
  | k1 + 1, k2, b, sp => by
    have e : k1 + 1 + k2 = (k1 + k2) + 1 := by omega
    rw [e]
    have h1 : pop_run (k1 + k2 + 1) b sp =
        (((b.pop sp).1, (b.pop sp).2.2) ::
          (pop_run (k1 + k2) (b.pop sp).2.1 (b.pop sp).2.2.moved_from).1,
         (pop_run (k1 + k2) (b.pop sp).2.1 (b.pop sp).2.2.moved_from).2.1,
         (pop_run (k1 + k2) (b.pop sp).2.1 (b.pop sp).2.2.moved_from).2.2) := rfl
    have h2 : pop_run (k1 + 1) b sp =
        (((b.pop sp).1, (b.pop sp).2.2) ::
          (pop_run k1 (b.pop sp).2.1 (b.pop sp).2.2.moved_from).1,
         (pop_run k1 (b.pop sp).2.1 (b.pop sp).2.2.moved_from).2.1,
         (pop_run k1 (b.pop sp).2.1 (b.pop sp).2.2.moved_from).2.2) := rfl
    rw [h1, h2, pop_run_add k1 k2]
    rfl

/-- While unread entries are left every `pop` of the run succeeds and delivers them in
stored order. -/
theorem pop_run_unread : ∀ (k : Nat) (b : list_seg_part_t) (sp : seg_part_t),
    b.virt_begin + k ≤ b.l_seg_part.length →
    (pop_run k b sp).1 = ((b.l_seg_part.drop b.virt_begin).take k).map (fun x => (true, x)) ∧
    (pop_run k b sp).2.1.virt_begin = b.virt_begin + k ∧
    (pop_run k b sp).2.1.l_seg_part.length = b.l_seg_part.length ∧
    (pop_run k b sp).2.2 =
      ((((b.l_seg_part.drop b.virt_begin).take k).getLast?).map seg_part_t.moved_from).getD sp
  | 0, b, sp, _ => by simp [pop_run]
  | k + 1, b, sp, hk => by
    have hv : b.virt_begin < b.l_seg_part.length := by omega
    have hpop : b.pop sp = (true, b.popped (b.l_seg_part[b.virt_begin]),
        b.l_seg_part[b.virt_begin]) := by
      unfold list_seg_part_t.pop
      simp only [List.getElem?_eq_getElem hv]
      rfl
    have h1 : pop_run (k + 1) b sp =
        (((b.pop sp).1, (b.pop sp).2.2) ::
          (pop_run k (b.pop sp).2.1 (b.pop sp).2.2.moved_from).1,
         (pop_run k (b.pop sp).2.1 (b.pop sp).2.2.moved_from).2.1,
         (pop_run k (b.pop sp).2.1 (b.pop sp).2.2.moved_from).2.2) := rfl
    have hvb : (b.popped (b.l_seg_part[b.virt_begin])).virt_begin = b.virt_begin + 1 := rfl
    have hlen : (b.popped (b.l_seg_part[b.virt_begin])).l_seg_part.length =
        b.l_seg_part.length := by
      simp [list_seg_part_t.popped]
    have hdrop : (b.popped (b.l_seg_part[b.virt_begin])).l_seg_part.drop (b.virt_begin + 1) =
        b.l_seg_part.drop (b.virt_begin + 1) := by
      simp only [list_seg_part_t.popped]
      rw [List.drop_set_of_lt _ _ (by omega)]
    obtain ⟨i1, i2, i3, i4⟩ := pop_run_unread k (b.popped (b.l_seg_part[b.virt_begin]))
      (b.l_seg_part[b.virt_begin]).moved_from (by rw [hvb, hlen]; omega)
    rw [hvb, hdrop] at i1 i4
    rw [hvb] at i2
    rw [hlen] at i3
    rw [h1, hpop]
    simp only []
    rw [List.drop_eq_getElem_cons hv, List.take_succ_cons, List.map_cons]
    refine ⟨by rw [i1], by rw [i2]; omega, i3, ?_⟩
    rw [i4]
    cases hq : ((b.l_seg_part.drop (b.virt_begin + 1)).take k).getLast? with
    | none =>
      have : (b.l_seg_part.drop (b.virt_begin + 1)).take k = [] := by
        simpa using hq
      simp [this]
    | some y =>
      have hmem := List.getLast?_eq_some_iff.mp hq
      obtain ⟨ys, hys⟩ := hmem
      rw [hys, ← List.cons_append, List.getLast?_concat]
      rfl

/-- Once the cursor has reached the stored length every `pop` of the run fails, resets
the buffer and leaves the scratch element as it is. -/
theorem pop_run_failed : ∀ (k : Nat) (b : list_seg_part_t) (sp : seg_part_t),
    b.l_seg_part.length ≤ b.virt_begin → sp.moved_from = sp →
    pop_run k b sp = (List.replicate k (false, sp),
      (if k = 0 then b else { l_seg_part := [], virt_begin := 0 }), sp)
  | 0, b, sp, _, _ => rfl
  | k + 1, b, sp, hb, hsp => by
    have hpop : b.pop sp = (false, { l_seg_part := [], virt_begin := 0 }, sp) := by
      unfold list_seg_part_t.pop
      rw [List.getElem?_eq_none hb]
    have h1 : pop_run (k + 1) b sp =
        (((b.pop sp).1, (b.pop sp).2.2) ::
          (pop_run k (b.pop sp).2.1 (b.pop sp).2.2.moved_from).1,
         (pop_run k (b.pop sp).2.1 (b.pop sp).2.2.moved_from).2.1,
         (pop_run k (b.pop sp).2.1 (b.pop sp).2.2.moved_from).2.2) := rfl
    rw [h1, hpop]
    simp only [hsp]
    rw [pop_run_failed k { l_seg_part := [], virt_begin := 0 } sp (le_refl _) hsp]
    simp [List.replicate_succ]

theorem leftover_moved_from (b : list_seg_part_t) : (leftover b).moved_from = leftover b := by
  unfold leftover
  cases b.unread.getLast? with
  | none => rfl
  | some y => rfl

/-- A run of as many passes as the buffer stores entries, from cursor `k > 0`: the unread
entries come out of successful pops, then `k` pops fail and deliver the leftover. -/
theorem pop_run_stored_length (b : list_seg_part_t) (hk0 : 0 < b.virt_begin)
    (hk : b.virt_begin ≤ b.l_seg_part.length) :
    (pop_run b.l_seg_part.length b seg_part_t.default).1 =
      b.unread.map (fun x => (true, x)) ++ List.replicate b.virt_begin (false, leftover b) ∧
    (pop_run b.l_seg_part.length b seg_part_t.default).2.1 =
      { l_seg_part := [], virt_begin := 0 } := by
  have e : b.l_seg_part.length = (b.l_seg_part.length - b.virt_begin) + b.virt_begin := by
    omega
  obtain ⟨i1, i2, i3, i4⟩ := pop_run_unread (b.l_seg_part.length - b.virt_begin) b
    seg_part_t.default (by omega)
  have htake : (b.l_seg_part.drop b.virt_begin).take (b.l_seg_part.length - b.virt_begin) =
      b.unread := by
    unfold list_seg_part_t.unread
    rw [List.take_of_length_le (by rw [List.length_drop])]
  rw [htake] at i1 i4
  have hleft : (pop_run (b.l_seg_part.length - b.virt_begin) b seg_part_t.default).2.2 =
      leftover b := i4
  have hf := pop_run_failed b.virt_begin
    (pop_run (b.l_seg_part.length - b.virt_begin) b seg_part_t.default).2.1 (leftover b)
    (by rw [i2, i3]; omega) (leftover_moved_from b)
  have hadd := pop_run_add (b.l_seg_part.length - b.virt_begin) b.virt_begin b
    seg_part_t.default
  rw [← e, hleft, hf, i1] at hadd
  rw [hadd]
  refine ⟨rfl, ?_⟩
  simp only []
  rw [if_neg (by omega)]

/-- Dealing along slots that never meet the source: every pass pops and appends. -/
theorem deal_with_outside (src : Nat) (slot : Nat → Nat) (hs : ∀ j : Nat, slot j ≠ src) :
    ∀ (k i : Nat) (sp : seg_part_t) (vl : List list_seg_part_t) (b : list_seg_part_t),
    vl[src]? = some b → (∀ j : Nat, slot j < vl.length) →
    ∃ vl', deal_with src slot k i sp vl = some vl' ∧ vl'.length = vl.length ∧
      vl'[src]? = some (pop_run k b sp).2.1 ∧
      ∀ (d : Nat) (d0 : list_seg_part_t), d ≠ src → vl[d]? = some d0 →
        vl'[d]? = some
          { l_seg_part := d0.l_seg_part ++
              dealt d ((pop_run k b sp).1.map Prod.snd) ((List.range' i k).map slot),
            virt_begin := d0.virt_begin }
  | 0, i, sp, vl, b, hb, _ => by
    refine ⟨vl, rfl, rfl, hb, ?_⟩
    intro d d0 _ hd
    simp [pop_run, dealt_nil_right, hd]
  | k + 1, i, sp, vl, b, hb, hlt => by
    have hsrc : src < vl.length := (List.getElem?_eq_some.mp hb).1
    have hi : slot i < vl.length := hlt i
    have hd : vl[slot i]? = some vl[slot i] := List.getElem?_eq_getElem hi
    have hd1 : (vl.set src (b.pop sp).2.1)[slot i]? = some vl[slot i] := by
      rw [List.getElem?_set, if_neg (Ne.symm (hs i))]
      exact hd
    have hmove : distribute_move src (slot i) sp vl =
        some ((vl.set src (b.pop sp).2.1).set (slot i)
          ((vl[slot i]).append_no_lock (b.pop sp).2.2).1, (b.pop sp).2.2.moved_from) := by
      unfold distribute_move
      simp only [hb, hd1]
      rfl
    have hb2 : ((vl.set src (b.pop sp).2.1).set (slot i)
        ((vl[slot i]).append_no_lock (b.pop sp).2.2).1)[src]? = some (b.pop sp).2.1 := by
      rw [List.getElem?_set, if_neg (hs i), List.getElem?_set]
      simp [hsrc]
    obtain ⟨vl', e1, e2, e3, e4⟩ := deal_with_outside src slot hs k (i + 1)
      (b.pop sp).2.2.moved_from _ (b.pop sp).2.1 hb2 (by
        intro j
        rw [List.length_set, List.length_set]
        exact hlt j)
    have hrun : pop_run (k + 1) b sp =
        (((b.pop sp).1, (b.pop sp).2.2) ::
          (pop_run k (b.pop sp).2.1 (b.pop sp).2.2.moved_from).1,
         (pop_run k (b.pop sp).2.1 (b.pop sp).2.2.moved_from).2.1,
         (pop_run k (b.pop sp).2.1 (b.pop sp).2.2.moved_from).2.2) := rfl
    refine ⟨vl', ?_, ?_, ?_, ?_⟩
    · unfold deal_with
      rw [if_pos (hs i)]
      simp only [hmove]
      exact e1
    · rw [e2, List.length_set, List.length_set]
    · rw [e3, hrun]
    · intro d d0 hne hd0
      rw [hrun]
      simp only [List.map_cons, List.range'_succ]
      rw [dealt_cons]
      by_cases hsd : slot i = d
      · have h2 : ((vl.set src (b.pop sp).2.1).set (slot i)
            ((vl[slot i]).append_no_lock (b.pop sp).2.2).1)[d]? =
            some ((vl[slot i]).append_no_lock (b.pop sp).2.2).1 := by
          rw [List.getElem?_set, if_pos hsd]
          simp [hlt i]
        have h3 : vl[slot i] = d0 := by
          have h := hd0
          rw [← hsd, hd] at h
          exact Option.some.inj h
        rw [e4 d _ hne h2, if_pos hsd, h3]
        simp [list_seg_part_t.append_no_lock]
      · have h2 : ((vl.set src (b.pop sp).2.1).set (slot i)
            ((vl[slot i]).append_no_lock (b.pop sp).2.2).1)[d]? = some d0 := by
          rw [List.getElem?_set, if_neg hsd, List.getElem?_set, if_neg (Ne.symm hne)]
          exact hd0
        rw [e4 d _ hne h2, if_neg hsd]
        simp

theorem sum_indicator_range' (m : Nat) : ∀ (w a : Nat),
    ((List.range' a w).map (fun d => if m = d then 1 else 0)).sum =
      if a ≤ m ∧ m < a + w then 1 else 0
  | 0, a => by
    rw [if_neg (by omega)]
    rfl
  | w + 1, a => by
    rw [List.range'_succ, List.map_cons, List.sum_cons, sum_indicator_range' m w (a + 1)]
    split_ifs <;> omega

/-- Entries dealt to slots of `[a, a + w)` are all received by the buffers of that
range. -/
theorem sum_length_dealt (a w : Nat) : ∀ (ps : List seg_part_t) (ms : List Nat),
    ps.length = ms.length → (∀ m ∈ ms, a ≤ m ∧ m < a + w) →
    ((List.range' a w).map (fun d => (dealt d ps ms).length)).sum = ps.length
  | [], [], _, _ => by simp [dealt]
  | p :: ps, m :: ms, hl, hm => by
    have ih := sum_length_dealt a w ps ms (by simpa using hl)
      (fun x hx => hm x (List.mem_cons_of_mem _ hx))
    have e : (fun d => (dealt d (p :: ps) (m :: ms)).length) =
        (fun d => (if m = d then 1 else 0) + (dealt d ps ms).length) := by
      funext d
      rw [dealt_cons, List.length_append]
      split <;> rfl
    rw [e, List.sum_map_add, ih, sum_indicator_range', if_pos (hm m (List.mem_cons_self _ _)),
      List.length_cons]
    omega
  | [], _ :: _, hl, _ => by simp at hl
  | _ :: _, [], hl, _ => by simp at hl

/-- C19, as stated, fails for a source with `2^32` or more stored entries: the loop bound
is `list_seg_part_t::size()`, the stored length cast to `uint32_t`. Buffer 0 stores
`s = 2^32` entries with read cursor `k = 1`, and lies outside the range `[1, 2)`. The
bound is 0, so the call changes nothing: no entry is appended to buffer 1 (not `s`),
and the source still stores `2^32` entries with cursor 1 (not zero entries with
cursor 0). -/
theorem distribute_segments_counts_truncated_length :
    ∃ b, huge_source_read.vl_seg_part[0]? = some b ∧ b.l_seg_part.length = U32 ∧
      b.virt_begin = 1 ∧ 0 < b.virt_begin ∧ b.virt_begin ≤ b.l_seg_part.length ∧
      ¬ (1 ≤ 0 ∧ 0 < 2) ∧ b.size = 0 ∧
      huge_source_read.entries 1 = [] ∧
      ∃ s', huge_source_read.distribute_segments 0 1 2 = some s' ∧
        s'.entries 1 = [] ∧ s'.vl_seg_part[0]? = some b := by
  have hlen : (List.replicate U32 part_k).length = U32 := List.length_replicate _ _
  refine ⟨{ l_seg_part := List.replicate U32 part_k, virt_begin := 1 }, rfl, hlen, rfl,
    by decide, ?_, by decide, size_of_length_U32 _ hlen, rfl, huge_source_read, ?_, rfl, rfl⟩
  · show 1 ≤ (List.replicate U32 part_k).length
    rw [hlen]
    decide
  · exact distribute_segments_of_size_zero huge_source_read 0 1 2 _ rfl
      (size_of_length_U32 _ hlen)

/-- C19 (amended): let `src` lie outside the range `[dest_id_from, dest_id_to)`, store
`s < 2^32` entries and have read cursor `k` with `0 < k <= s`, so that it has only
`s - k` unread parts. Then `distribute_segments` returns and makes `s` passes "pop from
`src`, append to the slot of the pass": the first `s - k` pops succeed and deliver the
unread parts in stored order, the last `k` pops fail and the entry appended after each
of them is the leftover of the scratch element (the moved-from last unread part, or the
default-constructed element when no part was unread). Every buffer other than `src`
receives, at its end, the entries of the passes whose slot it is; the buffers of the
range receive `s` entries in total; `src` ends with zero stored entries and cursor 0. -/
theorem distribute_segments_counts_stored_length (s : CBufferedSegPart)
    (src_id dest_id_from dest_id_to : Nat) (b : list_seg_part_t)
    (hb : s.vl_seg_part[src_id]? = some b)
    (hk0 : 0 < b.virt_begin) (hk : b.virt_begin ≤ b.l_seg_part.length)
    (hout : ¬ (dest_id_from ≤ src_id ∧ src_id < dest_id_to))
    (hft : dest_id_from < dest_id_to) (hto : dest_id_to ≤ s.vl_seg_part.length)
    (hU : dest_id_to < U32) (hs : b.l_seg_part.length < U32) :
    b.unread.length = b.l_seg_part.length - b.virt_begin ∧
    (pop_run b.l_seg_part.length b seg_part_t.default).1 =
      b.unread.map (fun x => (true, x)) ++
        List.replicate b.virt_begin (false, leftover b) ∧
    ∃ s', s.distribute_segments src_id dest_id_from dest_id_to = some s' ∧
      (∀ (d : Nat) (d0 : list_seg_part_t), d ≠ src_id → s.vl_seg_part[d]? = some d0 →
        s'.vl_seg_part[d]? = some
          { l_seg_part := d0.l_seg_part ++
              dealt d (b.unread ++ List.replicate b.virt_begin (leftover b))
                ((List.range' 0 b.l_seg_part.length).map
                  (rotation_slot dest_id_from dest_id_to dest_id_from)),
            virt_begin := d0.virt_begin }) ∧
      ((List.range' dest_id_from (dest_id_to - dest_id_from)).map
          (fun d => (s'.entries d).length)).sum =
        ((List.range' dest_id_from (dest_id_to - dest_id_from)).map
          (fun d => (s.entries d).length)).sum + b.l_seg_part.length ∧
      s'.vl_seg_part[src_id]? = some { l_seg_part := [], virt_begin := 0 } := by
  have hsize : b.size = b.l_seg_part.length := Nat.mod_eq_of_lt hs
  have hslot : ∀ j : Nat, rotation_slot dest_id_from dest_id_to dest_id_from j ≠ src_id := by
    intro j e
    have h1 := rotation_slot_lt hft dest_id_from j
    have h2 : dest_id_from ≤ rotation_slot dest_id_from dest_id_to dest_id_from j := by
      unfold rotation_slot; omega
    exact hout ⟨by omega, by omega⟩
  have hslot0 : rotation_slot dest_id_from dest_id_to dest_id_from 0 = dest_id_from := by
    simp [rotation_slot]
  obtain ⟨hrun1, hrun2⟩ := pop_run_stored_length b hk0 hk
  have hitems : (pop_run b.l_seg_part.length b seg_part_t.default).1.map Prod.snd =
      b.unread ++ List.replicate b.virt_begin (leftover b) := by
    rw [hrun1]
    simp [List.map_append, List.map_map, List.map_replicate]
  have hunread : b.unread.length = b.l_seg_part.length - b.virt_begin := by
    simp [list_seg_part_t.unread]
  obtain ⟨vl', e1, e2, e3, e4⟩ := deal_with_outside src_id
    (rotation_slot dest_id_from dest_id_to dest_id_from) hslot b.l_seg_part.length 0
    seg_part_t.default s.vl_seg_part b hb
    (fun j => lt_of_lt_of_le (rotation_slot_lt hft _ j) hto)
  rw [hrun2] at e3
  rw [hitems] at e4
  have hcall : s.distribute_segments src_id dest_id_from dest_id_to =
      some { s with vl_seg_part := vl' } := by
    unfold CBufferedSegPart.distribute_segments
    simp only [hb, hsize]
    have := distribute_loop_eq_deal src_id dest_id_from dest_id_to hft hU
      b.l_seg_part.length 0 seg_part_t.default s.vl_seg_part
    rw [hslot0] at this
    rw [this, e1]
  refine ⟨hunread, hrun1, { s with vl_seg_part := vl' }, hcall, e4, ?_, e3⟩
  have hent : ∀ d ∈ List.range' dest_id_from (dest_id_to - dest_id_from),
      (CBufferedSegPart.entries { s with vl_seg_part := vl' } d).length =
        (s.entries d).length +
          (dealt d (b.unread ++ List.replicate b.virt_begin (leftover b))
            ((List.range' 0 b.l_seg_part.length).map
              (rotation_slot dest_id_from dest_id_to dest_id_from))).length := by
    intro d hd
    rw [List.mem_range'_1] at hd
    have hdn : d < s.vl_seg_part.length := by omega
    have hne : d ≠ src_id := fun e => hout ⟨by omega, by omega⟩
    have h0 : s.vl_seg_part[d]? = some s.vl_seg_part[d] := List.getElem?_eq_getElem hdn
    have h1 := e4 d _ hne h0
    unfold CBufferedSegPart.entries
    simp only [h0, h1, Option.map_some', Option.getD_some, List.length_append]
  rw [List.map_congr_left hent, List.sum_map_add]
  congr 1
  have hw : dest_id_from + (dest_id_to - dest_id_from) = dest_id_to := by omega
  rw [sum_length_dealt dest_id_from (dest_id_to - dest_id_from) _ _
    (by simp [hunread]; omega)
    (by
      intro m hm
      rw [List.mem_map] at hm
      obtain ⟨j, _, rfl⟩ := hm
      have h1 := rotation_slot_lt hft dest_id_from j
      have h2 : dest_id_from ≤ rotation_slot dest_id_from dest_id_to dest_id_from j := by
        unfold rotation_slot; omega
      exact ⟨h2, by omega⟩)]
  simp [hunread]
  omega

theorem distribute_segments_counts_stored_length_witness :
    ∃ s', read_state.distribute_segments 2 0 2 = some s' ∧
      s'.vl_seg_part[2]? = some { l_seg_part := [], virt_begin := 0 } ∧
      ((List.range' 0 (2 - 0)).map (fun d => (s'.entries d).length)).sum =
        ((List.range' 0 (2 - 0)).map (fun d => (read_state.entries d).length)).sum + 3 := by
  obtain ⟨_, _, s', h1, _, h3, h4⟩ := distribute_segments_counts_stored_length read_state
    2 0 2
    { l_seg_part := [part_c.toSegPart, sample_part.toSegPart, part_a.toSegPart],
      virt_begin := 1 }
    (by decide) (by decide) (by decide) (by decide) (by decide) (by decide) (by decide)
    (by decide)
  exact ⟨s', h1, h4, h3⟩

end AGC
